import Mathlib

/-! # beargit: staging index, commit identifiers, commits and checkout

A shallow embedding of `beargit.c`.  The repository lives in a file system that
is passed explicitly from call to call; a `beargit_*` function of the source
that writes the repository is a Lean function from the file system before the
call to the value the C function returns, the text it prints on `stderr`, and
the file system after the call; `beargit_log`, which only reads it, gives the
value it returns and the text it prints.

Conventions of the embedding:

* a C string is the list of its characters before the terminating NUL;
* a path is the string the program passes to the C library, compared as a
  string (no normalisation of `.`, `..` or repeated slashes), and a file can
  be written under any path; this is the behaviour of the C library for paths
  in normal form whose directory exists, and the theorems about the working
  tree restrict the names of files and branches accordingly (no `/`, not `.`
  or `..`);
* the helpers of `util.h` (not among the sources) follow the implementation
  notes at the head of `beargit.c`; a file that does not exist reads as
  empty, and copying or moving it changes nothing; the program does not test
  the result of `fopen`, so the embedding describes a call that reads a
  control file with `fgets` only where that file exists, and the theorems
  about commits and checkouts that return 0 state that it does;
* a loop `while (fgets(line, n, f))` sees the file as it is when the file is
  opened;
* the buffer sizes of `beargit.h` (not among the sources) are parameters;
  `fgets` and `read_string_from_file` read at most the size they are given,
  and `sprintf` and `strcat` give `none` when the text and its terminating NUL
  do not fit the buffer they write;
* `int` values are mathematical integers (the only counter of the program
  counts the lines of the branch registry);
* where C leaves the behaviour undefined (`next_commit_id` for a branch that
  is not registered or for a commit id shorter than the branch symbols, and a
  `sprintf` or `strcat` that overflows its buffer) the embedding returns
  `none`.
-/

namespace Beargit

/-- A C string, given by the characters that precede its terminating NUL. -/
abbrev Str := List Char

/-- The buffer sizes declared in `beargit.h`; the header is not among the
sources, so the sizes are parameters of the embedding. The number of branch
symbols, `COMMIT_ID_BRANCH_BYTES`, is 10 as the comment in `next_commit_id`
says. -/
structure Sizes where
  FILENAME_SIZE : Nat
  COMMIT_ID_SIZE : Nat
  MSG_SIZE : Nat
  BRANCHNAME_SIZE : Nat

/-- The number of leading symbols of a commit id that encode the branch. -/
def COMMIT_ID_BRANCH_BYTES : Nat := 10

/-! ## The file system and the helpers of `util.h` -/

/-- A file system: the content of every regular file and the set of
directories, both keyed by path. -/
structure FS where
  file : Str → Option Str
  dir : Str → Bool

/-- Replace the content of one file, creating it when absent; the effect of
`fopen(path, "w")`, the writes that follow, and `fclose`, for a path in normal
form whose directory exists. -/
def FS.write (fs : FS) (path content : Str) : FS :=
  { fs with file := fun q => if q = path then some content else fs.file q }

/-- The stream `fopen(path, "r")` reads from: the content of the file at the
time of the call. A file that does not exist reads as empty; in C `fopen`
gives NULL for it, so the embedding describes the program only where the files
it opens for reading exist. -/
def FS.read (fs : FS) (path : Str) : Str :=
  (fs.file path).getD []

/-- Modelled from the spec: `fs_mkdir(dirname)` of `util.h`, "create directory
dirname". -/
def fs_mkdir (fs : FS) (dirname : Str) : FS :=
  { fs with dir := fun q => if q = dirname then true else fs.dir q }

/-- Modelled from the spec: `fs_rm(filename)` of `util.h`, "delete file
filename". -/
def fs_rm (fs : FS) (filename : Str) : FS :=
  { fs with file := fun q => if q = filename then none else fs.file q }

/-- Modelled from the spec: `fs_mv(src,dst)` of `util.h`, "move file src to
dst, overwriting dst if it exists". Nothing moves when `src` does not exist. -/
def fs_mv (fs : FS) (src dst : Str) : FS :=
  match fs.file src with
  | none => fs
  | some content =>
    { fs with file := fun q => if q = dst then some content else if q = src then none else fs.file q }

/-- Modelled from the spec: `fs_cp(src,dst)` of `util.h`, "copy file src to
dst, overwriting dst if it exists". Nothing is copied when `src` does not
exist. -/
def fs_cp (fs : FS) (src dst : Str) : FS :=
  match fs.file src with
  | none => fs
  | some content => fs.write dst content

/-- Modelled from the spec: `write_string_to_file(filename,str)` of `util.h`,
"write str to filename (overwriting contents)". -/
def write_string_to_file (fs : FS) (filename str : Str) : FS :=
  fs.write filename str

/-- The C string held by a buffer: the characters before the first NUL. -/
def c_str (buf : Str) : Str :=
  buf.takeWhile (fun c => c != Char.ofNat 0)

/-- Modelled from the spec: `read_string_from_file(filename,str,size)` of
`util.h`, "read a string of at most size (incl. NULL character) from file
filename and store it into str". -/
def read_string_from_file (fs : FS) (filename : Str) (size : Nat) : Str :=
  c_str ((fs.read filename).take (size - 1))

/-- Modelled from the spec: `fs_check_dir_exists(dirname)` of `util.h`, used
by `beargit_checkout` to test whether a commit directory exists. -/
def fs_check_dir_exists (fs : FS) (dirname : Str) : Bool :=
  fs.dir dirname

/-- The string that `sprintf(buf, ...)`, or `strcat(buf, ...)`, leaves in a
buffer `char buf[size]` when the text to hold is `s`: the text itself, or
`none` when the text and its terminating NUL do not fit the buffer, where C
leaves the behaviour undefined. -/
def sprintf (size : Nat) (s : Str) : Option Str :=
  if s.length + 1 ≤ size then some s else none

/-! ## Reading a file line by line -/

/-- The characters one `fgets` call stores and the rest of the stream: at most
`k` characters are read, and reading stops after a newline. -/
def fgets_chars : Nat → Str → Str × Str
  | 0, stream => ([], stream)
  | _ + 1, [] => ([], [])
  | k + 1, c :: stream =>
    if c = '\n' then ([c], stream)
    else (c :: (fgets_chars k stream).1, (fgets_chars k stream).2)

/-- The call `fgets(buf, n, stream)`: `none` at end of file, otherwise the
buffer (at most `n - 1` characters) and the rest of the stream. -/
def fgets (n : Nat) (stream : Str) : Option (Str × Str) :=
  match stream with
  | [] => none
  | _ :: _ => some (fgets_chars (n - 1) stream)

/-- The buffer after `strtok(line, "\n")`: leading newlines are skipped, and
the first newline after the token is overwritten with NUL. A buffer made of
newlines only is left as it is. -/
def strtok_newline (line : Str) : Str :=
  match line.dropWhile (fun c => c == '\n') with
  | [] => line
  | tok => line.takeWhile (fun c => c == '\n') ++ tok.takeWhile (fun c => c != '\n')

/-- The successive values of `line` in a loop
`while (fgets(line, n, f)) { strtok(line, "\n"); ... }`, with one unit of
fuel per iteration. -/
def read_lines_fuel (n : Nat) : Nat → Str → List Str
  | 0, _ => []
  | fuel + 1, stream =>
    match fgets n stream with
    | none => []
    | some (buf, rest) => strtok_newline (c_str buf) :: read_lines_fuel n fuel rest

/-- The lines a `fgets`/`strtok` loop sees on a stream. Every iteration
consumes a character when `2 ≤ n`, so the length of the stream is fuel
enough. -/
def read_lines (n : Nat) (stream : Str) : List Str :=
  read_lines_fuel n stream.length stream

/-! ## Paths of the control directory -/

def INDEX : Str := ".beargit/.index".toList
def NEWINDEX : Str := ".beargit/.newindex".toList
def PREV : Str := ".beargit/.prev".toList
def BRANCHES : Str := ".beargit/.branches".toList
def CURRENT_BRANCH : Str := ".beargit/.current_branch".toList

/-- The root identifier, forty `0` symbols. -/
def ROOT_ID : Str := "0000000000000000000000000000000000000000".toList

/-- The result of one call: the value returned, the text written to `stderr`
and the file system after the call. -/
structure Res where
  ret : Int
  err : Str
  fs : FS

/-! ## beargit init -/

def beargit_init (fs : FS) : Res :=
  let fs := fs_mkdir fs ".beargit".toList
  let fs := fs.write INDEX []
  let fs := fs.write BRANCHES ("master".toList ++ "\n".toList)
  let fs := write_string_to_file fs PREV ROOT_ID
  let fs := write_string_to_file fs CURRENT_BRANCH "master".toList
  { ret := 0, err := [], fs := fs }

/-! ## beargit add, beargit rm -/

/-- The loop of `beargit_add` over the lines of the index: `none` when a line
equals `filename`, otherwise the text written to `.newindex`. -/
def beargit_add_loop (filename : Str) : List Str → Str → Option Str
  | [], newindex => some newindex
  | line :: rest, newindex =>
    if line = filename then none
    else beargit_add_loop filename rest (newindex ++ line ++ "\n".toList)

def beargit_add (sz : Sizes) (fs : FS) (filename : Str) : Res :=
  let findex := fs.read INDEX
  let fs := fs.write NEWINDEX []
  match beargit_add_loop filename (read_lines sz.FILENAME_SIZE findex) [] with
  | none =>
    { ret := 3
      err := "ERROR: File ".toList ++ filename ++ " already added\n".toList
      fs := fs_rm fs NEWINDEX }
  | some newindex =>
    let fs := fs.write NEWINDEX (newindex ++ filename ++ "\n".toList)
    { ret := 0, err := [], fs := fs_mv fs NEWINDEX INDEX }

/-- The loop of `beargit_rm`: the flag `found` and the text written to
`.newindex`. -/
def beargit_rm_loop (filename : Str) : List Str → Bool → Str → Bool × Str
  | [], found, newindex => (found, newindex)
  | line :: rest, found, newindex =>
    if line = filename then beargit_rm_loop filename rest true newindex
    else beargit_rm_loop filename rest found (newindex ++ line ++ "\n".toList)

def beargit_rm (sz : Sizes) (fs : FS) (filename : Str) : Res :=
  let findex := fs.read INDEX
  let fs := fs.write NEWINDEX []
  let (found, newindex) := beargit_rm_loop filename (read_lines sz.FILENAME_SIZE findex) false []
  let fs := fs.write NEWINDEX newindex
  if !found then
    { ret := 1
      err := "ERROR: File ".toList ++ filename ++ " not tracked\n".toList
      fs := fs_rm fs NEWINDEX }
  else
    { ret := 0, err := [], fs := fs_mv fs NEWINDEX INDEX }

/-! ## beargit commit -/

def go_bears : Str := "GO BEARS!".toList

/-- The loop of `is_commit_msg_ok`: the rest of the message from `msg[i]` on
and the index `j` into `go_bears`. -/
def is_commit_msg_ok_loop : Str → Nat → Int
  | [], _ => 0
  | c :: rest, j =>
    if go_bears[j]? = some c then
      if j + 1 = go_bears.length then 1
      else is_commit_msg_ok_loop rest (j + 1)
    else is_commit_msg_ok_loop rest 0

def is_commit_msg_ok (msg : Str) : Int :=
  is_commit_msg_ok_loop msg 0

/-- The function `next_commit_id_hw1` on the string it is given: the string
after the call, and whether the error message was printed. -/
def next_commit_id_hw1 : Str → Str × Bool
  | [] => ([], false)
  | c :: rest =>
    if c = '0' ∨ c = 'c' then ('6' :: (next_commit_id_hw1 rest).1, (next_commit_id_hw1 rest).2)
    else if c = '6' then ('1' :: rest, false)
    else if c = '1' then ('c' :: rest, false)
    else (c :: rest, true)

/-- The text `next_commit_id_hw1` prints when it meets a symbol it does not
know; `commit_id` is the string at that moment. -/
def next_commit_id_hw1_err (commit_id : Str) (failed : Bool) : Str :=
  if failed then
    "ERROR: commit id only contain charactors in ['6', '1', 'c'], origin commit id \"".toList
      ++ commit_id ++ "\"\n".toList
  else []

/-- The loop of `get_branch_number`: `branch_index` and `counter` over the
lines of the registry. -/
def get_branch_number_loop (branch_name : Str) : List Str → Int → Int → Int
  | [], branch_index, _ => branch_index
  | line :: rest, branch_index, counter =>
    get_branch_number_loop branch_name rest
      (if line = branch_name then counter else branch_index) (counter + 1)

def get_branch_number (sz : Sizes) (fs : FS) (branch_name : Str) : Int :=
  get_branch_number_loop branch_name (read_lines sz.FILENAME_SIZE (fs.read BRANCHES)) (-1) 0

def digits : Str := "61c".toList

/-- The expression `digits[i]`: undefined for a negative index. -/
def digits_at (i : Int) : Option Char :=
  if 0 ≤ i then digits[i.toNat]? else none

/-- The loop of `next_commit_id` that writes the branch symbols: `k` symbols
are still to write and `n` is the current value of the variable `n`. The
operators `%` and `/` of C truncate towards zero. -/
def next_commit_id_loop : Nat → Int → Option Str
  | 0, _ => some []
  | k + 1, n =>
    match digits_at (Int.tmod n 3), next_commit_id_loop k (Int.tdiv n 3) with
    | some d, some ds => some (d :: ds)
    | _, _ => none

/-- The function `next_commit_id` on the buffer `commit_id`: the new content
of the buffer and the text printed to `stderr`. The result is `none` where C
leaves the behaviour undefined: `digits` is indexed with a negative number
(the current branch is not in the registry), or the buffer holds fewer than
`COMMIT_ID_BRANCH_BYTES` characters, so that the loop writes over its
terminator. -/
def next_commit_id (sz : Sizes) (fs : FS) (commit_id : Str) : Option (Str × Str) :=
  let current_branch := read_string_from_file fs CURRENT_BRANCH sz.BRANCHNAME_SIZE
  let n := get_branch_number sz fs current_branch
  if commit_id.length < COMMIT_ID_BRANCH_BYTES then none
  else
    match next_commit_id_loop COMMIT_ID_BRANCH_BYTES n with
    | none => none
    | some branch_bytes =>
      let r := next_commit_id_hw1 (commit_id.drop COMMIT_ID_BRANCH_BYTES)
      some (branch_bytes ++ r.1, next_commit_id_hw1_err r.1 r.2)

/-- The loop of `beargit_commit_hw1` that copies every file of the index into
the commit directory; `none` when a path does not fit `file_name`. -/
def beargit_commit_loop (sz : Sizes) (commit_dir : Str) : List Str → FS → Option FS
  | [], fs => some fs
  | line :: rest, fs =>
    match sprintf sz.FILENAME_SIZE (commit_dir ++ "/".toList ++ line) with
    | none => none
    | some file_name => beargit_commit_loop sz commit_dir rest (fs_cp fs line file_name)

def beargit_commit_hw1 (sz : Sizes) (fs : FS) (msg : Str) : Option Res :=
  if is_commit_msg_ok msg = 0 then
    some { ret := 1
           err := "ERROR: Message must contain \"".toList ++ go_bears ++ "\"\n".toList
           fs := fs }
  else
    let commit_id := read_string_from_file fs PREV sz.COMMIT_ID_SIZE
    match next_commit_id sz fs commit_id with
    | none => none
    | some (commit_id, err) => do
      let commit_dir ← sprintf sz.FILENAME_SIZE (".beargit/".toList ++ commit_id)
      let fs := fs_mkdir fs commit_dir
      let file_name ← sprintf sz.FILENAME_SIZE (commit_dir ++ "/.index".toList)
      let fs := fs_cp fs INDEX file_name
      let file_name ← sprintf sz.FILENAME_SIZE (commit_dir ++ "/.prev".toList)
      let fs := fs_cp fs PREV file_name
      let findex := fs.read INDEX
      let fs ← beargit_commit_loop sz commit_dir (read_lines sz.FILENAME_SIZE findex) fs
      let file_name ← sprintf sz.FILENAME_SIZE (commit_dir ++ "/.msg".toList)
      let fs := write_string_to_file fs file_name msg
      let fs := write_string_to_file fs PREV commit_id
      pure { ret := 0, err := err, fs := fs }

def beargit_commit (sz : Sizes) (fs : FS) (msg : Str) : Option Res :=
  let current_branch := read_string_from_file fs CURRENT_BRANCH sz.BRANCHNAME_SIZE
  if current_branch.length = 0 then
    some { ret := 1
           err := "ERROR: Need to be on HEAD of a branch to commit\n".toList
           fs := fs }
  else beargit_commit_hw1 sz fs msg

/-! ## beargit checkout -/

/-- The first loop of `checkout_commit`: delete every file of the index. -/
def checkout_rm_loop : List Str → FS → FS
  | [], fs => fs
  | file :: rest, fs => checkout_rm_loop rest (fs_rm fs file)

/-- The second loop of `checkout_commit`: copy every file of the new index out
of the commit directory; `none` when a path does not fit `old`. -/
def checkout_cp_loop (sz : Sizes) (commit_id : Str) : List Str → FS → Option FS
  | [], fs => some fs
  | file :: rest, fs =>
    match sprintf sz.FILENAME_SIZE
        (".beargit/".toList ++ commit_id ++ "/".toList ++ file) with
    | none => none
    | some old => checkout_cp_loop sz commit_id rest (fs_cp fs old file)

def checkout_commit (sz : Sizes) (fs : FS) (commit_id : Str) : Option Res := do
  let findex := fs.read INDEX
  let fs := checkout_rm_loop (read_lines sz.FILENAME_SIZE findex) fs
  let file ← sprintf sz.FILENAME_SIZE (".beargit/".toList ++ commit_id ++ "/.index".toList)
  let fs := fs_cp fs file INDEX
  let fs ←
    if commit_id = ROOT_ID then some (write_string_to_file fs INDEX [])
    else checkout_cp_loop sz commit_id (read_lines sz.FILENAME_SIZE (fs.read INDEX)) fs
  let fs := write_string_to_file fs PREV commit_id
  pure { ret := 0, err := [], fs := fs }

/-- The loop of `is_it_a_commit_id` over the characters of the argument. -/
def is_it_a_commit_id_loop : Str → Int
  | [] => 1
  | c :: rest =>
    if ¬ (c = '6' ∨ c = '1' ∨ c = 'c') then 0
    else is_it_a_commit_id_loop rest

def is_it_a_commit_id (commit_id : Str) : Int :=
  if commit_id.length ≠ 40 then 0
  else is_it_a_commit_id_loop commit_id

def beargit_checkout (sz : Sizes) (fs : FS) (arg : Str) (new_branch : Int) : Option Res := do
  let current_branch := read_string_from_file fs CURRENT_BRANCH sz.BRANCHNAME_SIZE
  let fs ←
    if current_branch.length ≠ 0 then do
      let current_branch_file ← sprintf (sz.BRANCHNAME_SIZE + 50)
        (".beargit/.branch_".toList ++ current_branch)
      pure (fs_cp fs PREV current_branch_file)
    else pure fs
  if is_it_a_commit_id arg ≠ 0 then do
    let commit_dir ← sprintf sz.FILENAME_SIZE (".beargit/".toList ++ arg)
    if !fs_check_dir_exists fs commit_dir then
      pure { ret := 1
             err := "ERROR: Commit ".toList ++ arg ++ " does not exist\n".toList
             fs := fs }
    else
      let fs := write_string_to_file fs CURRENT_BRANCH []
      checkout_commit sz fs arg
  else
    let branch_name := arg
    let branch_exists := decide (get_branch_number sz fs branch_name ≥ 0)
    if new_branch ≠ 0 ∧ branch_exists then
      pure { ret := 1
             err := "ERROR: A branch named ".toList ++ branch_name ++ " already exists\n".toList
             fs := fs }
    else if new_branch = 0 ∧ !branch_exists then
      pure { ret := 1
             err := "ERROR: No branch ".toList ++ branch_name ++ " exists\n".toList
             fs := fs }
    else do
      let branch_file ← sprintf (sz.BRANCHNAME_SIZE + 50)
        (".beargit/.branch_".toList ++ branch_name)
      let fs :=
        if new_branch ≠ 0 then
          let fs := fs.write BRANCHES (fs.read BRANCHES ++ (branch_name ++ "\n".toList))
          fs_cp fs PREV branch_file
        else fs
      let fs := write_string_to_file fs CURRENT_BRANCH branch_name
      let branch_head_commit_id := read_string_from_file fs branch_file sz.COMMIT_ID_SIZE
      checkout_commit sz fs branch_head_commit_id

/-! ## beargit log -/

/-- The value `beargit_log` returns and the text it prints on `stdout` and on
`stderr`. -/
structure LogRes where
  ret : Int
  out : Str
  err : Str

/-- The loop of `beargit_log`, `while (strcmp(commit_id, "00...0"))`: print
the identifier and the message of the commit, then read the identifier of its
parent. The first argument bounds the number of times the loop condition is
tested; the result is `none` when the bound is used up or a path does not fit
`file_name`, and the text printed on `stdout` otherwise. -/
def beargit_log_loop (sz : Sizes) (fs : FS) : Nat → Str → Option Str
  | 0, _ => none
  | fuel + 1, commit_id =>
    if commit_id = ROOT_ID then some []
    else do
      let file_name ← sprintf sz.FILENAME_SIZE
        (".beargit/".toList ++ commit_id ++ "/.msg".toList)
      let msg := read_string_from_file fs file_name sz.MSG_SIZE
      let file_name ← sprintf sz.FILENAME_SIZE
        (".beargit/".toList ++ commit_id ++ "/.prev".toList)
      let parent := read_string_from_file fs file_name sz.COMMIT_ID_SIZE
      let rest ← beargit_log_loop sz fs fuel parent
      pure ("commit ".toList ++ commit_id ++ "\n".toList ++
        ("    ".toList ++ msg ++ "\n\n".toList) ++ rest)

def beargit_log (sz : Sizes) (fs : FS) (fuel : Nat) : Option LogRes :=
  let commit_id := read_string_from_file fs PREV sz.COMMIT_ID_SIZE
  if commit_id = ROOT_ID then
    some { ret := 1, out := [], err := "ERROR: There are no commits!\n".toList }
  else
    match beargit_log_loop sz fs fuel commit_id with
    | none => none
    | some out => some { ret := 0, out := "\n".toList ++ out, err := [] }

/-! ## Notions used to state the properties -/

/-- The message holds `GO BEARS!` as a contiguous substring. -/
def contains_go_bears (msg : Str) : Prop :=
  ∃ a b : Str, msg = a ++ go_bears ++ b

/-- The text of a control file that holds one name per line, as
`fprintf(f, "%s\n", name)` writes them. -/
def encode_lines : List Str → Str
  | [] => []
  | name :: rest => name ++ '\n' :: encode_lines rest

/-- A name that one line of a control file holds and one `fgets` call with a
buffer of `n` bytes reads whole: it is not empty, holds neither a newline nor
a NUL, and fits the buffer together with its newline and the terminator. -/
def LineName (n : Nat) (s : Str) : Prop :=
  s ≠ [] ∧ '\n' ∉ s ∧ Char.ofNat 0 ∉ s ∧ s.length + 2 ≤ n

instance (n : Nat) (s : Str) : Decidable (LineName n s) := by
  unfold LineName; infer_instance

/-- One call on the staging index. -/
inductive IndexOp where
  | add (path : Str)
  | rm (path : Str)

/-- The path an index operation is about. -/
def IndexOp.path : IndexOp → Str
  | .add p => p
  | .rm p => p

/-- The reference ordered set of the spec, one operation: `add` appends an
absent path at the end and fails on a path that is present; `rm` deletes a
path that is present, keeping the order of the others, and fails on an absent
one. The flag says whether the operation failed. -/
def ref_index_step (index : List Str) : IndexOp → Bool × List Str
  | .add p => if p ∈ index then (true, index) else (false, index ++ [p])
  | .rm p => if p ∈ index then (false, index.erase p) else (true, index)

/-- The reference ordered set after a sequence of operations, with the
failure flag of every operation. -/
def ref_index_run : List IndexOp → List Str → List Bool × List Str
  | [], index => ([], index)
  | op :: ops, index =>
    ((ref_index_step index op).1 :: (ref_index_run ops (ref_index_step index op).2).1,
      (ref_index_run ops (ref_index_step index op).2).2)

/-- The program on a sequence of index operations: whether each call returned
a non-zero value, and the file system at the end. -/
def beargit_index_run (sz : Sizes) : List IndexOp → FS → List Bool × FS
  | [], fs => ([], fs)
  | .add p :: ops, fs =>
    (decide ((beargit_add sz fs p).ret ≠ 0) :: (beargit_index_run sz ops (beargit_add sz fs p).fs).1,
      (beargit_index_run sz ops (beargit_add sz fs p).fs).2)
  | .rm p :: ops, fs =>
    (decide ((beargit_rm sz fs p).ret ≠ 0) :: (beargit_index_run sz ops (beargit_rm sz fs p).fs).1,
      (beargit_index_run sz ops (beargit_rm sz fs p).fs).2)

/-- The sizes the examples use: `FILENAME_SIZE` 512, `COMMIT_ID_SIZE` 41,
`MSG_SIZE` 512 and `BRANCHNAME_SIZE` 128. -/
def header_sizes : Sizes :=
  { FILENAME_SIZE := 512, COMMIT_ID_SIZE := 41, MSG_SIZE := 512, BRANCHNAME_SIZE := 128 }

/-- A directory without a repository and without files. -/
def empty_fs : FS :=
  { file := fun _ => none, dir := fun _ => false }

/-- The path of the directory of a commit, `.beargit/<id>`. -/
def commit_dir (commit_id : Str) : Str :=
  ".beargit/".toList ++ commit_id

/-- The path of a file of a commit record, `.beargit/<id>/<name>`. -/
def commit_file (commit_id name : Str) : Str :=
  ".beargit/".toList ++ commit_id ++ "/".toList ++ name

/-- The path of the head-pointer record of a branch, `.beargit/.branch_<name>`. -/
def branch_file (branch_name : Str) : Str :=
  ".beargit/.branch_".toList ++ branch_name

/-- The file system after the loop of `beargit_commit_hw1` that copies every
file of the index into the commit directory, when every path fits
`file_name`. -/
def commit_copies (commit_dir : Str) : List Str → FS → FS
  | [], fs => fs
  | line :: rest, fs =>
    commit_copies commit_dir rest (fs_cp fs line (commit_dir ++ "/".toList ++ line))

/-- The file system after the second loop of `checkout_commit`, which copies
every file of the new index out of the commit directory, when every path fits
`old`. -/
def checkout_copies (commit_id : Str) : List Str → FS → FS
  | [], fs => fs
  | file :: rest, fs =>
    checkout_copies commit_id rest
      (fs_cp fs (".beargit/".toList ++ commit_id ++ "/".toList ++ file) file)

/-- What `checkout_commit` returns, prints and leaves as file system when no
path overflows its buffer; `checkout_commit` gives this result or `none`. -/
def checkout_commit_effect (sz : Sizes) (fs : FS) (commit_id : Str) : Res :=
  let findex := fs.read INDEX
  let fs := checkout_rm_loop (read_lines sz.FILENAME_SIZE findex) fs
  let fs := fs_cp fs (".beargit/".toList ++ commit_id ++ "/.index".toList) INDEX
  let fs :=
    if commit_id = ROOT_ID then write_string_to_file fs INDEX []
    else checkout_copies commit_id (read_lines sz.FILENAME_SIZE (fs.read INDEX)) fs
  let fs := write_string_to_file fs PREV commit_id
  { ret := 0, err := [], fs := fs }

/-- What `beargit_checkout` returns, prints and leaves as file system when no
path overflows its buffer; `beargit_checkout` gives this result or `none`. -/
def beargit_checkout_effect (sz : Sizes) (fs : FS) (arg : Str) (new_branch : Int) : Res :=
  let current_branch := read_string_from_file fs CURRENT_BRANCH sz.BRANCHNAME_SIZE
  let fs :=
    if current_branch.length ≠ 0 then
      fs_cp fs PREV (".beargit/.branch_".toList ++ current_branch)
    else fs
  if is_it_a_commit_id arg ≠ 0 then
    let commit_dir := ".beargit/".toList ++ arg
    if !fs_check_dir_exists fs commit_dir then
      { ret := 1
        err := "ERROR: Commit ".toList ++ arg ++ " does not exist\n".toList
        fs := fs }
    else
      let fs := write_string_to_file fs CURRENT_BRANCH []
      checkout_commit_effect sz fs arg
  else
    let branch_name := arg
    let branch_exists := decide (get_branch_number sz fs branch_name ≥ 0)
    if new_branch ≠ 0 ∧ branch_exists then
      { ret := 1
        err := "ERROR: A branch named ".toList ++ branch_name ++ " already exists\n".toList
        fs := fs }
    else if new_branch = 0 ∧ !branch_exists then
      { ret := 1
        err := "ERROR: No branch ".toList ++ branch_name ++ " exists\n".toList
        fs := fs }
    else
      let branch_file := ".beargit/.branch_".toList ++ branch_name
      let fs :=
        if new_branch ≠ 0 then
          let fs := fs.write BRANCHES (fs.read BRANCHES ++ (branch_name ++ "\n".toList))
          fs_cp fs PREV branch_file
        else fs
      let fs := write_string_to_file fs CURRENT_BRANCH branch_name
      let branch_head_commit_id := read_string_from_file fs branch_file sz.COMMIT_ID_SIZE
      checkout_commit_effect sz fs branch_head_commit_id

/-- The file system after `beargit_checkout`, for the examples; the file
system before the call where the behaviour is undefined. -/
def checkout_fs (sz : Sizes) (fs : FS) (arg : Str) (new_branch : Int) : FS :=
  ((beargit_checkout sz fs arg new_branch).map Res.fs).getD fs

/-- The lines of the staging index, as the loops of the program read them. -/
def index_lines (sz : Sizes) (fs : FS) : List Str :=
  read_lines sz.FILENAME_SIZE (fs.read INDEX)

/-- The lines of the index stored in a commit record. -/
def stored_index_lines (sz : Sizes) (fs : FS) (commit_id : Str) : List Str :=
  read_lines sz.FILENAME_SIZE (fs.read (commit_file commit_id ".index".toList))

/-- The text of the staging index after `checkout_commit` has copied the index
of the commit over it: the stored index, or the old text when the commit
record holds no index. -/
def checkout_index (fs : FS) (commit_id : Str) : Option Str :=
  match fs.file (commit_file commit_id ".index".toList) with
  | some c => some c
  | none => fs.file INDEX

/-- The symbol of one base-3 digit: 0 is written `6`, 1 is written `1` and 2
is written `c`. -/
def trit_symbol (t : Nat) : Char :=
  if t = 0 then '6' else if t = 1 then '1' else 'c'

/-- The first `k` base-3 digits of `n`, least significant first, written as
symbols. -/
def branch_symbols : Nat → Nat → Str
  | 0, _ => []
  | k + 1, n => trit_symbol (n % 3) :: branch_symbols k (n / 3)

/-- One of the three symbols of a commit identifier. -/
def IsCommitSymbol (c : Char) : Prop :=
  c = '6' ∨ c = '1' ∨ c = 'c'

instance (c : Char) : Decidable (IsCommitSymbol c) := by
  unfold IsCommitSymbol; infer_instance

/-- A path inside the control directory: it starts with `.beargit/`. -/
def InControlDir (p : Str) : Prop :=
  ∃ r, p = ".beargit/".toList ++ r

/-- HEAD's current branch, as the program reads it; empty when detached. -/
def current_branch (sz : Sizes) (fs : FS) : Str :=
  read_string_from_file fs CURRENT_BRANCH sz.BRANCHNAME_SIZE

/-- HEAD's commit pointer, as the program reads it. -/
def head_commit (sz : Sizes) (fs : FS) : Str :=
  read_string_from_file fs PREV sz.COMMIT_ID_SIZE

/-- The file system after the first step of `beargit_checkout`: when HEAD is
attached, HEAD's commit pointer is stored as the head of the current
branch. -/
def checkout_saved (sz : Sizes) (fs : FS) : FS :=
  if (current_branch sz fs).length ≠ 0 then
    fs_cp fs PREV (branch_file (current_branch sz fs))
  else fs

/-- The file system after `beargit_commit_hw1` has stored a commit under the
identifier `commit_id`. -/
def commit_result_fs (sz : Sizes) (fs : FS) (msg commit_id : Str) : FS :=
  write_string_to_file (write_string_to_file
    (commit_copies (commit_dir commit_id) (index_lines sz fs)
      (fs_cp (fs_cp (fs_mkdir fs (commit_dir commit_id)) INDEX
        (commit_file commit_id ".index".toList)) PREV
        (commit_file commit_id ".prev".toList)))
    (commit_file commit_id ".msg".toList) msg) PREV commit_id

/-- The identifier of forty `6` symbols. -/
def FIRST_ID : Str := "6666666666666666666666666666666666666666".toList

/-- A repository for the examples: `beargit_init` in a directory that holds
one file `name` with the text `text`, followed by `beargit_add(name)`. -/
def one_file_repo (name text : Str) : FS :=
  (beargit_add header_sizes
    (beargit_init
      { file := fun p => if p = name then some text else none
        dir := fun _ => false }).fs name).fs

/-- A repository for the examples: `beargit_init` in an empty directory
followed by a first commit with the message `GO BEARS!`. -/
def first_commit_repo : FS :=
  ((beargit_commit header_sizes (beargit_init empty_fs).fs "GO BEARS!".toList).map Res.fs).getD
    empty_fs

/-- The lines of the branch registry, as `get_branch_number` reads them. -/
def registry_lines (sz : Sizes) (fs : FS) : List Str :=
  read_lines sz.FILENAME_SIZE (fs.read BRANCHES)

/-- The file system on which `beargit_checkout` calls `checkout_commit` for a
branch name: the head of the current branch is stored, a new branch is
appended to the registry and gets HEAD's commit pointer as its head, and the
current-branch marker holds the name. -/
def checkout_target (sz : Sizes) (fs : FS) (branch_name : Str) (new_branch : Int) : FS :=
  write_string_to_file
    (if new_branch ≠ 0 then
      fs_cp ((checkout_saved sz fs).write BRANCHES
        ((checkout_saved sz fs).read BRANCHES ++ (branch_name ++ "\n".toList)))
        PREV (branch_file branch_name)
    else checkout_saved sz fs) CURRENT_BRANCH branch_name

/-- A repository for the examples: one file `f.txt` with the text `hi`,
added and committed with the message `GO BEARS!`. -/
def committed_file_repo : FS :=
  ((beargit_commit header_sizes (one_file_repo "f.txt".toList "hi".toList)
    "GO BEARS!".toList).map Res.fs).getD empty_fs

/-! ### Reachable states -/

/-- The sizes hold the names the program itself writes: `master` fits the
branch-name buffer, an identifier of 40 symbols fits the identifier buffer,
and the longest path of a control file of a commit record,
`.beargit/<id>/.index` with an identifier of 40 symbols, fits a buffer of
`FILENAME_SIZE` characters. -/
def Sizes.ok (sz : Sizes) : Prop :=
  57 ≤ sz.FILENAME_SIZE ∧ 7 ≤ sz.BRANCHNAME_SIZE ∧ 41 ≤ sz.COMMIT_ID_SIZE

instance (sz : Sizes) : Decidable sz.ok := by
  unfold Sizes.ok; infer_instance

/-- A plain file name for the staging index: one line of the index, without
`/`, not the name `.index` of the index stored in a commit record, short
enough for the path of its copy in a commit record, `.beargit/<id>/<name>`
with an identifier of 40 symbols, to fit a buffer of `FILENAME_SIZE`
characters, and not one of the directory names `.` and `..`. -/
def GoodPath (sz : Sizes) (p : Str) : Prop :=
  LineName sz.FILENAME_SIZE p ∧ '/' ∉ p ∧ p ≠ ".index".toList ∧
    p.length + 51 ≤ sz.FILENAME_SIZE ∧ p ≠ ".".toList ∧ p ≠ "..".toList

instance (sz : Sizes) (p : Str) : Decidable (GoodPath sz p) := by
  unfold GoodPath; infer_instance

/-- A plain branch name: one line of the registry, without `/`, that fits the
branch-name buffer and is not a commit identifier. -/
def GoodBranch (sz : Sizes) (b : Str) : Prop :=
  LineName sz.FILENAME_SIZE b ∧ '/' ∉ b ∧ b.length + 1 ≤ sz.BRANCHNAME_SIZE ∧
    is_it_a_commit_id b = 0

instance (sz : Sizes) (b : Str) : Decidable (GoodBranch sz b) := by
  unfold GoodBranch; infer_instance

/-- The states reachable from `beargit_init`, run in a directory without
commit directories, by `beargit_add` of plain file names, `beargit_rm`,
`beargit_commit` in states that satisfy `guard`, and `beargit_checkout` of
identifiers and plain branch names. -/
inductive Reach (sz : Sizes) (guard : FS → Prop) : FS → Prop where
  | init (fs0 : FS) (h : ∀ c, fs0.dir (commit_dir c) = false) :
      Reach sz guard (beargit_init fs0).fs
  | add (fs : FS) (p : Str) (h : Reach sz guard fs) (hp : GoodPath sz p) :
      Reach sz guard (beargit_add sz fs p).fs
  | rm (fs : FS) (p : Str) (h : Reach sz guard fs) :
      Reach sz guard (beargit_rm sz fs p).fs
  | commit (fs : FS) (msg : Str) (r : Res) (h : Reach sz guard fs) (hg : guard fs)
      (hr : beargit_commit sz fs msg = some r) : Reach sz guard r.fs
  | checkout (fs : FS) (arg : Str) (new_branch : Int) (r : Res) (h : Reach sz guard fs)
      (harg : is_it_a_commit_id arg ≠ 0 ∨ GoodBranch sz arg)
      (hr : beargit_checkout sz fs arg new_branch = some r) : Reach sz guard r.fs

/-- The suffix of HEAD's commit pointer, after the branch symbols, is not
made of `c` only. -/
def SuffixNotMax (sz : Sizes) (fs : FS) : Prop :=
  ¬ ∀ c ∈ (head_commit sz fs).drop COMMIT_ID_BRANCH_BYTES, c = 'c'

instance (sz : Sizes) (fs : FS) : Decidable (SuffixNotMax sz fs) := by
  unfold SuffixNotMax; infer_instance

/-- The value of a symbol as a base-3 digit: `6` is 0, `1` is 1, `c` is 2. -/
def symbol_value (c : Char) : Nat :=
  if c = '1' then 1 else if c = 'c' then 2 else 0

/-- The value of a suffix read as a little-endian base-3 number. -/
def suffix_value : Str → Nat
  | [] => 0
  | c :: rest => symbol_value c + 3 * suffix_value rest

/-- The position of an identifier in the order of its branch: 0 for the root
identifier, one more than the value of the suffix otherwise. -/
def commit_rank (commit_id : Str) : Nat :=
  if commit_id = ROOT_ID then 0 else suffix_value (commit_id.drop COMMIT_ID_BRANCH_BYTES) + 1

/-- HEAD's commit pointer or the head of a branch names the root or a stored
commit. -/
def HeadOk (fs : FS) (h : Str) : Prop :=
  h = ROOT_ID ∨ (is_it_a_commit_id h ≠ 0 ∧ fs.dir (commit_dir h) = true)

/-- The well-formedness of a repository: the staging index lists plain file
names `names`, the registry lists the distinct plain branch names `bs`, the
current-branch marker holds `cur` (empty or registered), HEAD's commit
pointer is `head`, every registered branch other than the current one has a
head-pointer record, every head is the root or a stored commit, and every
commit directory is named by a well-formed identifier and holds an index of
plain file names. -/
structure Inv (sz : Sizes) (fs : FS) (names bs : List Str) (cur head : Str) : Prop where
  index : fs.file INDEX = some (encode_lines names)
  names_good : ∀ n ∈ names, GoodPath sz n
  registry : fs.file BRANCHES = some (encode_lines bs)
  bs_good : ∀ b ∈ bs, GoodBranch sz b
  bs_nodup : bs.Nodup
  current : fs.file CURRENT_BRANCH = some cur
  cur_mem : cur = [] ∨ cur ∈ bs
  prev : fs.file PREV = some head
  head_ok : HeadOk fs head
  heads : ∀ b ∈ bs, b ≠ cur → ∃ h, fs.file (branch_file b) = some h ∧ HeadOk fs h
  stored : ∀ c, fs.dir (commit_dir c) = true →
    is_it_a_commit_id c ≠ 0 ∧
    ∃ ns, fs.file (commit_file c ".index".toList) = some (encode_lines ns) ∧
      ∀ n ∈ ns, GoodPath sz n

/-- The head of a registered branch: HEAD's commit pointer for the current
branch, the head-pointer record otherwise. -/
def head_of (fs : FS) (cur head b : Str) : Str :=
  if b = cur then head else (fs.file (branch_file b)).getD []

/-- Every stored commit carries the symbols of a registered branch number and
is not after the head of the branch with that number. -/
def Ranked (fs : FS) (bs : List Str) (cur head : Str) : Prop :=
  ∀ c, fs.dir (commit_dir c) = true →
    ∃ j b, bs[j]? = some b ∧ c.take COMMIT_ID_BRANCH_BYTES = branch_symbols 10 j ∧
      commit_rank c ≤ commit_rank (head_of fs cur head b)

/-- Any number of successful commits lead from the first state to the
second. -/
inductive CommitsOn (sz : Sizes) : FS → FS → Prop where
  | refl (fs : FS) : CommitsOn sz fs fs
  | step (fs fs2 : FS) (msg : Str) (r : Res) (h : CommitsOn sz fs fs2)
      (hr : beargit_commit sz fs2 msg = some r) (hret : r.ret = 0) : CommitsOn sz fs r.fs

/-- The file system after `beargit_commit`, for the examples; the file system
before the call where the behaviour is undefined. -/
def commit_fs (sz : Sizes) (fs : FS) (msg : Str) : FS :=
  ((beargit_commit sz fs msg).map Res.fs).getD fs

/-- A repository for the examples: `beargit_init` in an empty directory
followed by `beargit_checkout` of the new branch `feature`. -/
def feature_repo : FS :=
  checkout_fs header_sizes (beargit_init empty_fs).fs "feature".toList 1

/-- A repository for the examples: two branches, `master` and `feature`,
HEAD attached to `master` at the root identifier, and the path of the
head-pointer record of `master` added to the staging index. -/
def tracked_record_repo : FS :=
  (beargit_add header_sizes (checkout_fs header_sizes feature_repo "master".toList 0)
    (branch_file "master".toList)).fs

/-- A repository for the examples, with `BRANCHNAME_SIZE` 128: the branch of
127 letters `a` is created, then the branch of 128 letters `a`; after a
commit, the branch of 128 letters is checked out again. -/
def long_name_repo : FS :=
  checkout_fs header_sizes
    (commit_fs header_sizes
      (checkout_fs header_sizes
        (checkout_fs header_sizes (beargit_init empty_fs).fs (List.replicate 127 'a') 1)
        (List.replicate 128 'a') 1)
      "GO BEARS!".toList)
    (List.replicate 128 'a') 0

/-! ### The staging index and the history of the reachable states -/

/-- No name stands twice in the staging index, nor in the index stored in
any commit record. -/
def IndexesNodup (sz : Sizes) (fs : FS) : Prop :=
  (index_lines sz fs).Nodup ∧
    ∀ c, fs.dir (commit_dir c) = true → (stored_index_lines sz fs c).Nodup

/-- The condition on the states in which the commits of a history are made:
the suffix of HEAD's commit pointer is not made of `c` only, and the staging
index does not list the name `.prev` of the parent pointer of a commit
record. -/
def HistoryGuard (sz : Sizes) (fs : FS) : Prop :=
  SuffixNotMax sz fs ∧ ".prev".toList ∉ index_lines sz fs

instance (sz : Sizes) (fs : FS) : Decidable (HistoryGuard sz fs) := by
  unfold HistoryGuard; infer_instance

/-- Every stored commit records a parent that is the root or a stored commit,
and that stands before it in the order of the identifiers. -/
def Parented (fs : FS) : Prop :=
  ∀ c, fs.dir (commit_dir c) = true →
    ∃ p, fs.file (commit_file c ".prev".toList) = some p ∧ HeadOk fs p ∧
      commit_rank p < commit_rank c

/-- The identifiers met when the stored parent identifiers are followed from
`commit_id` up to the root identifier, the root left out; `none` when the
root is not among the first `fuel` identifiers. -/
def history (sz : Sizes) (fs : FS) : Nat → Str → Option (List Str)
  | 0, _ => none
  | fuel + 1, commit_id =>
    if commit_id = ROOT_ID then some []
    else
      match history sz fs fuel
          (read_string_from_file fs (commit_file commit_id ".prev".toList) sz.COMMIT_ID_SIZE) with
      | none => none
      | some rest => some (commit_id :: rest)

/-! ## Lines of a control file -/

theorem c_str_of_no_nul (s : Str) (h : Char.ofNat 0 ∉ s) : c_str s = s := by
  unfold c_str
  rw [List.takeWhile_eq_self_iff]
  intro c hc
  simp only [bne_iff_ne, ne_eq]
  rintro rfl
  exact h hc

theorem fgets_chars_line (name rest : Str) (hnl : '\n' ∉ name) :
    ∀ k, name.length + 1 ≤ k →
      fgets_chars k (name ++ '\n' :: rest) = (name ++ ['\n'], rest) := by
  induction name with
  | nil =>
    intro k hk
    obtain ⟨k, rfl⟩ : ∃ k0, k = k0 + 1 := ⟨k - 1, by omega⟩
    simp [fgets_chars]
  | cons c cs ih =>
    intro k hk
    obtain ⟨k, rfl⟩ : ∃ k0, k = k0 + 1 := ⟨k - 1, by omega⟩
    have hc : c ≠ '\n' := fun e => hnl (by simp [e])
    have hcs : '\n' ∉ cs := fun e => hnl (by simp [e])
    have hsplit : (c :: cs) ++ '\n' :: rest = c :: (cs ++ '\n' :: rest) := rfl
    rw [hsplit, fgets_chars, if_neg hc, ih hcs k (by simp at hk; omega)]
    rfl

theorem fgets_of_ne_nil (n : Nat) (stream : Str) (h : stream ≠ []) :
    fgets n stream = some (fgets_chars (n - 1) stream) := by
  cases stream with
  | nil => exact absurd rfl h
  | cons c cs => rfl

theorem strtok_newline_line (name : Str) (hne : name ≠ []) (hnl : '\n' ∉ name) :
    strtok_newline (name ++ ['\n']) = name := by
  cases name with
  | nil => exact absurd rfl hne
  | cons c cs =>
    have hc : c ≠ '\n' := fun e => hnl (by simp [e])
    have hcs : '\n' ∉ cs := fun e => hnl (by simp [e])
    have htw : List.takeWhile (fun c => c != '\n') (cs ++ ['\n']) = cs := by
      rw [List.takeWhile_append_of_pos]
      · simp
      · intro x hx
        simp only [bne_iff_ne, ne_eq]
        rintro rfl
        exact hcs hx
    have hb : (c == '\n') = false := by simp [hc]
    have hb2 : (c != '\n') = true := by simp [hc]
    simp [strtok_newline, List.dropWhile, List.takeWhile, hb, hb2, hc, htw]

theorem read_lines_fuel_encode (n : Nat) (names : List Str) (h : ∀ s ∈ names, LineName n s) :
    ∀ fuel, names.length ≤ fuel → read_lines_fuel n fuel (encode_lines names) = names := by
  induction names with
  | nil => intro fuel _; cases fuel <;> simp [read_lines_fuel, encode_lines, fgets]
  | cons s rest ih =>
    intro fuel hfuel
    obtain ⟨fuel, rfl⟩ : ∃ f0, fuel = f0 + 1 := ⟨fuel - 1, by simp at hfuel; omega⟩
    obtain ⟨hne, hnl, hnul, hlen⟩ := h s (by simp)
    have hfg : fgets n (s ++ '\n' :: encode_lines rest) = some (s ++ ['\n'], encode_lines rest) := by
      rw [fgets_of_ne_nil n _ (by simp),
        fgets_chars_line s (encode_lines rest) hnl (n - 1) (by omega)]
    have hcs : c_str (s ++ ['\n']) = s ++ ['\n'] := by
      apply c_str_of_no_nul
      simp only [List.mem_append, List.mem_singleton, not_or]
      exact ⟨hnul, by decide⟩
    simp only [encode_lines, read_lines_fuel, hfg, hcs, strtok_newline_line s hne hnl]
    rw [ih (fun x hx => h x (by simp [hx])) fuel (by simp at hfuel; omega)]

theorem length_le_encode_lines (names : List Str) :
    names.length ≤ (encode_lines names).length := by
  induction names with
  | nil => simp
  | cons s rest ih => simp [encode_lines]; omega

theorem read_lines_encode (n : Nat) (names : List Str) (h : ∀ s ∈ names, LineName n s) :
    read_lines n (encode_lines names) = names :=
  read_lines_fuel_encode n names h _ (length_le_encode_lines names)

theorem fgets_chars_length (k : Nat) :
    ∀ s : Str, (fgets_chars k s).1.length + (fgets_chars k s).2.length = s.length := by
  induction k with
  | zero => intro s; simp [fgets_chars]
  | succ k ih =>
    intro s
    cases s with
    | nil => simp [fgets_chars]
    | cons c cs =>
      unfold fgets_chars
      split
      · simp
        omega
      · simp only [List.length_cons]
        have := ih cs
        omega

theorem fgets_chars_rest_lt (k : Nat) (c : Char) (cs : Str) :
    (fgets_chars (k + 1) (c :: cs)).2.length < (c :: cs).length := by
  have h := fgets_chars_length (k + 1) (c :: cs)
  have h1 : 0 < (fgets_chars (k + 1) (c :: cs)).1.length := by
    unfold fgets_chars
    split <;> simp
  omega

/-- The result of the line loop does not depend on the fuel, once the fuel
is at least the length of the stream: with a buffer of two bytes or more
every `fgets` call consumes a character. -/
theorem read_lines_fuel_congr (n : Nat) (hn : 2 ≤ n) :
    ∀ (fuel1 fuel2 : Nat) (s : Str), s.length ≤ fuel1 → s.length ≤ fuel2 →
      read_lines_fuel n fuel1 s = read_lines_fuel n fuel2 s := by
  obtain ⟨k, rfl⟩ : ∃ k, n = k + 2 := ⟨n - 2, by omega⟩
  intro fuel1
  induction fuel1 with
  | zero =>
    intro fuel2 s h1 _
    have hs : s = [] := List.length_eq_zero.mp (by omega)
    subst hs
    cases fuel2 <;> simp [read_lines_fuel, fgets]
  | succ f1 ih =>
    intro fuel2 s h1 h2
    cases s with
    | nil => cases fuel2 <;> simp [read_lines_fuel, fgets]
    | cons c cs =>
      obtain ⟨f2, rfl⟩ : ∃ f2, fuel2 = f2 + 1 := ⟨fuel2 - 1, by simp at h2; omega⟩
      have hlt := fgets_chars_rest_lt k c cs
      simp only [read_lines_fuel, fgets, Nat.add_sub_cancel]
      rw [ih f2 _ (by simp at h1 hlt ⊢; omega) (by simp at h2 hlt ⊢; omega)]

theorem read_lines_fuel_enough (n : Nat) (hn : 2 ≤ n) (fuel : Nat) (s : Str)
    (h : s.length ≤ fuel) : read_lines_fuel n fuel s = read_lines n s :=
  read_lines_fuel_congr n hn fuel s.length s h (le_refl _)

theorem encode_lines_append (a b : List Str) :
    encode_lines (a ++ b) = encode_lines a ++ encode_lines b := by
  induction a with
  | nil => simp [encode_lines]
  | cons s rest ih => simp [encode_lines, ih]

theorem beargit_add_loop_eq (filename : Str) (names : List Str) :
    ∀ acc, beargit_add_loop filename names acc =
      if filename ∈ names then none else some (acc ++ encode_lines names) := by
  induction names with
  | nil => intro acc; simp [beargit_add_loop, encode_lines]
  | cons s rest ih =>
    intro acc
    unfold beargit_add_loop
    by_cases hs : s = filename
    · simp [hs]
    · have hs2 : ¬ filename = s := fun e => hs e.symm
      simp [hs, hs2, ih, encode_lines]

theorem beargit_rm_loop_eq (filename : Str) (names : List Str) :
    ∀ found acc, beargit_rm_loop filename names found acc =
      (found || decide (filename ∈ names),
        acc ++ encode_lines (names.filter (fun s => decide (s ≠ filename)))) := by
  induction names with
  | nil => intro found acc; simp [beargit_rm_loop, encode_lines]
  | cons s rest ih =>
    intro found acc
    unfold beargit_rm_loop
    by_cases hs : s = filename
    · simp [hs, ih]
    · have hs2 : ¬ filename = s := fun e => hs e.symm
      simp [hs, hs2, ih, encode_lines]

/-! ## The file system helpers -/

@[simp] theorem write_file (fs : FS) (p c q : Str) :
    (fs.write p c).file q = if q = p then some c else fs.file q := rfl

@[simp] theorem write_dir (fs : FS) (p c : Str) : (fs.write p c).dir = fs.dir := rfl

@[simp] theorem write_string_to_file_file (fs : FS) (p c q : Str) :
    (write_string_to_file fs p c).file q = if q = p then some c else fs.file q := rfl

@[simp] theorem write_string_to_file_dir (fs : FS) (p c : Str) :
    (write_string_to_file fs p c).dir = fs.dir := rfl

@[simp] theorem fs_rm_file (fs : FS) (p q : Str) :
    (fs_rm fs p).file q = if q = p then none else fs.file q := rfl

@[simp] theorem fs_rm_dir (fs : FS) (p : Str) : (fs_rm fs p).dir = fs.dir := rfl

@[simp] theorem fs_mkdir_file (fs : FS) (p : Str) : (fs_mkdir fs p).file = fs.file := rfl

@[simp] theorem fs_mkdir_dir (fs : FS) (p q : Str) :
    (fs_mkdir fs p).dir q = if q = p then true else fs.dir q := rfl

theorem fs_cp_file (fs : FS) (src dst q : Str) :
    (fs_cp fs src dst).file q =
      if q = dst ∧ fs.file src ≠ none then fs.file src else fs.file q := by
  unfold fs_cp
  cases h : fs.file src with
  | none => simp
  | some c => by_cases hq : q = dst <;> simp [hq]

@[simp] theorem fs_cp_dir (fs : FS) (src dst : Str) : (fs_cp fs src dst).dir = fs.dir := by
  unfold fs_cp
  cases fs.file src <;> rfl

theorem fs_cp_file_of_ne (fs : FS) (src dst q : Str) (h : q ≠ dst) :
    (fs_cp fs src dst).file q = fs.file q := by
  rw [fs_cp_file]; simp [h]

theorem fs_cp_file_dst (fs : FS) (src dst c : Str) (h : fs.file src = some c) :
    (fs_cp fs src dst).file dst = some c := by
  rw [fs_cp_file]; simp [h]

theorem fs_mv_file (fs : FS) (src dst q : Str) :
    (fs_mv fs src dst).file q =
      if fs.file src = none then fs.file q
      else if q = dst then fs.file src else if q = src then none else fs.file q := by
  unfold fs_mv
  cases h : fs.file src with
  | none => simp
  | some c => simp

@[simp] theorem fs_mv_dir (fs : FS) (src dst : Str) : (fs_mv fs src dst).dir = fs.dir := by
  unfold fs_mv
  cases fs.file src <;> rfl

theorem read_of_file (fs : FS) (p c : Str) (h : fs.file p = some c) : fs.read p = c := by
  simp [FS.read, h]

/-! ## beargit add and beargit rm on a well-formed index -/

theorem beargit_add_present (sz : Sizes) (fs : FS) (filename : Str) (names : List Str)
    (hidx : fs.file INDEX = some (encode_lines names))
    (hnames : ∀ s ∈ names, LineName sz.FILENAME_SIZE s) (hin : filename ∈ names) :
    (beargit_add sz fs filename).ret = 3 ∧
      (beargit_add sz fs filename).fs.file INDEX = some (encode_lines names) := by
  unfold beargit_add
  simp only [read_of_file fs INDEX _ hidx, read_lines_encode _ names hnames,
    beargit_add_loop_eq, hin, if_true]
  refine ⟨by trivial, ?_⟩
  have : INDEX ≠ NEWINDEX := by decide
  simp [this, hidx]

theorem beargit_add_absent (sz : Sizes) (fs : FS) (filename : Str) (names : List Str)
    (hidx : fs.file INDEX = some (encode_lines names))
    (hnames : ∀ s ∈ names, LineName sz.FILENAME_SIZE s) (hin : filename ∉ names) :
    (beargit_add sz fs filename).ret = 0 ∧
      (beargit_add sz fs filename).fs.file INDEX = some (encode_lines (names ++ [filename])) := by
  unfold beargit_add
  simp only [read_of_file fs INDEX _ hidx, read_lines_encode _ names hnames,
    beargit_add_loop_eq, hin, if_false]
  refine ⟨by trivial, ?_⟩
  simp [fs_mv_file, encode_lines_append, encode_lines]

theorem beargit_rm_present (sz : Sizes) (fs : FS) (filename : Str) (names : List Str)
    (hidx : fs.file INDEX = some (encode_lines names))
    (hnames : ∀ s ∈ names, LineName sz.FILENAME_SIZE s) (hin : filename ∈ names) :
    (beargit_rm sz fs filename).ret = 0 ∧
      (beargit_rm sz fs filename).fs.file INDEX =
        some (encode_lines (names.filter (fun s => decide (s ≠ filename)))) := by
  unfold beargit_rm
  simp only [read_of_file fs INDEX _ hidx, read_lines_encode _ names hnames,
    beargit_rm_loop_eq, hin]
  simp [fs_mv_file]

theorem beargit_rm_absent (sz : Sizes) (fs : FS) (filename : Str) (names : List Str)
    (hidx : fs.file INDEX = some (encode_lines names))
    (hnames : ∀ s ∈ names, LineName sz.FILENAME_SIZE s) (hin : filename ∉ names) :
    (beargit_rm sz fs filename).ret = 1 ∧
      (beargit_rm sz fs filename).fs.file INDEX = some (encode_lines names) := by
  unfold beargit_rm
  simp only [read_of_file fs INDEX _ hidx, read_lines_encode _ names hnames,
    beargit_rm_loop_eq, hin]
  have : INDEX ≠ NEWINDEX := by decide
  simp [this, hidx]

/-! ## Paths -/

theorem append_slash_eq_iff (a b r : Str) (h : '/' ∉ r) : (a ++ '/' :: b = r) ↔ False := by
  constructor
  · rintro rfl; simp at h
  · exact False.elim

theorem eq_append_slash_iff (a b r : Str) (h : '/' ∉ r) : (r = a ++ '/' :: b) ↔ False := by
  constructor
  · rintro rfl; simp at h
  · exact False.elim

theorem ne_of_slash {p q : Str} (hp : '/' ∉ p) (hq : '/' ∈ q) : p ≠ q := by
  rintro rfl; exact hp hq

theorem slash_mem_commit_path (commit_id name : Str) :
    '/' ∈ ".beargit/".toList ++ commit_id ++ "/".toList ++ name := by
  simp

/-! ## The loops over the lines of the index -/

@[simp] theorem commit_copies_dir (dir : Str) (lines : List Str) :
    ∀ fs, (commit_copies dir lines fs).dir = fs.dir := by
  induction lines with
  | nil => intro fs; rfl
  | cons l rest ih => intro fs; simp [commit_copies, ih]

theorem commit_copies_file_of_ne (dir : Str) (lines : List Str) (q : Str)
    (h : ∀ l ∈ lines, q ≠ dir ++ "/".toList ++ l) :
    ∀ fs, (commit_copies dir lines fs).file q = fs.file q := by
  induction lines with
  | nil => intro fs; rfl
  | cons l rest ih =>
    intro fs
    simp only [commit_copies]
    rw [ih (fun x hx => h x (List.mem_cons_of_mem _ hx)),
      fs_cp_file_of_ne _ _ _ _ (h l (by simp))]

@[simp] theorem checkout_rm_loop_dir (lines : List Str) :
    ∀ fs, (checkout_rm_loop lines fs).dir = fs.dir := by
  induction lines with
  | nil => intro fs; rfl
  | cons l rest ih => intro fs; simp [checkout_rm_loop, ih]

theorem checkout_rm_loop_file (lines : List Str) (q : Str) :
    ∀ fs, (checkout_rm_loop lines fs).file q = if q ∈ lines then none else fs.file q := by
  induction lines with
  | nil => intro fs; simp [checkout_rm_loop]
  | cons l rest ih =>
    intro fs
    simp only [checkout_rm_loop, ih, fs_rm_file, List.mem_cons]
    by_cases h1 : q ∈ rest <;> by_cases h2 : q = l <;> simp [h1, h2]

@[simp] theorem checkout_copies_dir (commit_id : Str) (lines : List Str) :
    ∀ fs, (checkout_copies commit_id lines fs).dir = fs.dir := by
  induction lines with
  | nil => intro fs; rfl
  | cons l rest ih => intro fs; simp [checkout_copies, ih]

theorem checkout_copies_file (commit_id : Str) (lines : List Str)
    (hns : ∀ l ∈ lines, '/' ∉ l) (q : Str) :
    ∀ fs, (checkout_copies commit_id lines fs).file q =
      if q ∈ lines ∧ fs.file (".beargit/".toList ++ commit_id ++ "/".toList ++ q) ≠ none
      then fs.file (".beargit/".toList ++ commit_id ++ "/".toList ++ q)
      else fs.file q := by
  induction lines with
  | nil => intro fs; simp [checkout_copies]
  | cons x rest ih =>
    intro fs
    have hx : '/' ∉ x := hns x (by simp)
    have hsrc : (fs_cp fs (".beargit/".toList ++ commit_id ++ "/".toList ++ x) x).file
        (".beargit/".toList ++ commit_id ++ "/".toList ++ q) =
        fs.file (".beargit/".toList ++ commit_id ++ "/".toList ++ q) :=
      fs_cp_file_of_ne _ _ _ _ (ne_of_slash hx (slash_mem_commit_path _ _)).symm
    simp only [checkout_copies]
    rw [ih (fun y hy => hns y (List.mem_cons_of_mem _ hy)), hsrc, fs_cp_file]
    by_cases h2 : q = x
    · subst h2
      generalize fs.file (".beargit/".toList ++ commit_id ++ "/".toList ++ q) = v
      cases v <;> simp
    · generalize fs.file (".beargit/".toList ++ commit_id ++ "/".toList ++ q) = v
      simp [h2]

/-! ## Buffers -/

theorem sprintf_of_fits (size : Nat) (s : Str) (h : s.length + 1 ≤ size) :
    sprintf size s = some s := by
  unfold sprintf
  rw [if_pos h]

theorem sprintf_of_not_fits (size : Nat) (s : Str) (h : ¬ s.length + 1 ≤ size) :
    sprintf size s = none := by
  unfold sprintf
  rw [if_neg h]

theorem sprintf_eq_some (size : Nat) (s t : Str) :
    sprintf size s = some t ↔ s.length + 1 ≤ size ∧ t = s := by
  unfold sprintf
  by_cases h : s.length + 1 ≤ size
  · rw [if_pos h]
    constructor
    · intro e; exact ⟨h, (Option.some.inj e).symm⟩
    · intro e; rw [e.2]
  · rw [if_neg h]
    constructor
    · intro e; cases e
    · intro e; exact absurd e.1 h

/-- The loop of `beargit_commit_hw1` copies the files when every path fits
`file_name`, and is undefined otherwise. -/
theorem beargit_commit_loop_eq (sz : Sizes) (commit_dir : Str) (lines : List Str) :
    ∀ fs : FS, beargit_commit_loop sz commit_dir lines fs =
      if ∀ l ∈ lines, (commit_dir ++ "/".toList ++ l).length + 1 ≤ sz.FILENAME_SIZE
      then some (commit_copies commit_dir lines fs) else none := by
  induction lines with
  | nil => intro fs; simp [beargit_commit_loop, commit_copies]
  | cons line rest ih =>
    intro fs
    unfold beargit_commit_loop
    by_cases h : (commit_dir ++ "/".toList ++ line).length + 1 ≤ sz.FILENAME_SIZE
    · rw [sprintf_of_fits _ _ h]
      simp only [ih]
      by_cases hrest : ∀ l ∈ rest, (commit_dir ++ "/".toList ++ l).length + 1 ≤ sz.FILENAME_SIZE
      · rw [if_pos hrest, if_pos (by
          intro l hl
          rcases List.mem_cons.mp hl with rfl | hl
          · exact h
          · exact hrest l hl)]
        rfl
      · rw [if_neg hrest, if_neg (fun hall => hrest (fun l hl => hall l (List.mem_cons_of_mem _ hl)))]
    · rw [sprintf_of_not_fits _ _ h]
      simp only []
      rw [if_neg (fun hall => h (hall line (List.mem_cons_self _ _)))]

/-- The second loop of `checkout_commit` copies the files when every path
fits `old`, and is undefined otherwise. -/
theorem checkout_cp_loop_eq (sz : Sizes) (commit_id : Str) (lines : List Str) :
    ∀ fs : FS, checkout_cp_loop sz commit_id lines fs =
      if ∀ l ∈ lines,
          (".beargit/".toList ++ commit_id ++ "/".toList ++ l).length + 1 ≤ sz.FILENAME_SIZE
      then some (checkout_copies commit_id lines fs) else none := by
  induction lines with
  | nil => intro fs; simp [checkout_cp_loop, checkout_copies]
  | cons line rest ih =>
    intro fs
    unfold checkout_cp_loop
    by_cases h : (".beargit/".toList ++ commit_id ++ "/".toList ++ line).length + 1 ≤
        sz.FILENAME_SIZE
    · rw [sprintf_of_fits _ _ h]
      simp only [ih]
      by_cases hrest : ∀ l ∈ rest,
          (".beargit/".toList ++ commit_id ++ "/".toList ++ l).length + 1 ≤ sz.FILENAME_SIZE
      · rw [if_pos hrest, if_pos (by
          intro l hl
          rcases List.mem_cons.mp hl with rfl | hl
          · exact h
          · exact hrest l hl)]
        rfl
      · rw [if_neg hrest, if_neg (fun hall => hrest (fun l hl => hall l (List.mem_cons_of_mem _ hl)))]
    · rw [sprintf_of_not_fits _ _ h]
      simp only []
      rw [if_neg (fun hall => h (hall line (List.mem_cons_self _ _)))]

/-! ## The paths of commit records and branch records -/

theorem commit_file_index_eq (commit_id : Str) :
    ".beargit/".toList ++ commit_id ++ "/.index".toList = commit_file commit_id ".index".toList := by
  simp [commit_file]

theorem commit_file_prev_eq (commit_id : Str) :
    ".beargit/".toList ++ commit_id ++ "/.prev".toList = commit_file commit_id ".prev".toList := by
  simp [commit_file]

theorem commit_file_msg_eq (commit_id : Str) :
    ".beargit/".toList ++ commit_id ++ "/.msg".toList = commit_file commit_id ".msg".toList := by
  simp [commit_file]

theorem commit_file_eq (commit_id name : Str) :
    ".beargit/".toList ++ commit_id ++ "/".toList ++ name = commit_file commit_id name := rfl

theorem branch_file_eq (b : Str) : ".beargit/.branch_".toList ++ b = branch_file b := rfl

theorem commit_dir_eq (commit_id : Str) : ".beargit/".toList ++ commit_id = commit_dir commit_id := rfl

theorem commit_dir_index_eq (commit_id : Str) :
    commit_dir commit_id ++ "/.index".toList = commit_file commit_id ".index".toList :=
  commit_file_index_eq commit_id

theorem commit_dir_prev_eq (commit_id : Str) :
    commit_dir commit_id ++ "/.prev".toList = commit_file commit_id ".prev".toList :=
  commit_file_prev_eq commit_id

theorem commit_dir_msg_eq (commit_id : Str) :
    commit_dir commit_id ++ "/.msg".toList = commit_file commit_id ".msg".toList :=
  commit_file_msg_eq commit_id

theorem slash_mem_commit_file (commit_id name : Str) : '/' ∈ commit_file commit_id name := by
  simp [commit_file]

theorem slash_mem_branch_file (b : Str) : '/' ∈ branch_file b := by
  simp [branch_file]

theorem slash_mem_INDEX : '/' ∈ INDEX := by decide
theorem slash_mem_NEWINDEX : '/' ∈ NEWINDEX := by decide
theorem slash_mem_PREV : '/' ∈ PREV := by decide
theorem slash_mem_BRANCHES : '/' ∈ BRANCHES := by decide
theorem slash_mem_CURRENT_BRANCH : '/' ∈ CURRENT_BRANCH := by decide

theorem commit_file_ne_INDEX (c n : Str) : commit_file c n ≠ INDEX := by
  simp [commit_file, INDEX, append_slash_eq_iff]

theorem commit_file_ne_NEWINDEX (c n : Str) : commit_file c n ≠ NEWINDEX := by
  simp [commit_file, NEWINDEX, append_slash_eq_iff]

theorem commit_file_ne_PREV (c n : Str) : commit_file c n ≠ PREV := by
  simp [commit_file, PREV, append_slash_eq_iff]

theorem commit_file_ne_BRANCHES (c n : Str) : commit_file c n ≠ BRANCHES := by
  simp [commit_file, BRANCHES, append_slash_eq_iff]

theorem commit_file_ne_CURRENT_BRANCH (c n : Str) : commit_file c n ≠ CURRENT_BRANCH := by
  simp [commit_file, CURRENT_BRANCH, append_slash_eq_iff]

theorem commit_file_ne_branch_file (c n b : Str) (hb : '/' ∉ b) :
    commit_file c n ≠ branch_file b := by
  simp [commit_file, branch_file, append_slash_eq_iff, hb]

theorem commit_file_inj_name (c n m : Str) : commit_file c n = commit_file c m ↔ n = m := by
  simp [commit_file]

theorem commit_file_inj (c d n m : Str) (h : c.length = d.length) :
    commit_file c n = commit_file d m ↔ c = d ∧ n = m := by
  constructor
  · intro e
    simp only [commit_file, List.append_assoc] at e
    have e2 := List.append_cancel_left e
    have := List.append_inj e2 h
    simpa using this
  · rintro ⟨rfl, rfl⟩; rfl

theorem commit_dir_inj (c d : Str) : commit_dir c = commit_dir d ↔ c = d := by
  simp [commit_dir]

theorem branch_file_inj (a b : Str) : branch_file a = branch_file b ↔ a = b := by
  simp [branch_file]

theorem branch_file_ne_INDEX (b : Str) : branch_file b ≠ INDEX := by
  simp [branch_file, INDEX]

theorem branch_file_ne_NEWINDEX (b : Str) : branch_file b ≠ NEWINDEX := by
  simp [branch_file, NEWINDEX]

theorem branch_file_ne_PREV (b : Str) : branch_file b ≠ PREV := by
  simp [branch_file, PREV]

theorem branch_file_ne_BRANCHES (b : Str) : branch_file b ≠ BRANCHES := by
  simp [branch_file, BRANCHES]

theorem branch_file_ne_CURRENT_BRANCH (b : Str) : branch_file b ≠ CURRENT_BRANCH := by
  simp [branch_file, CURRENT_BRANCH]

/-! ## The effect of `checkout_commit_effect` -/

theorem not_mem_of_slash {lines : List Str} (h : ∀ l ∈ lines, '/' ∉ l) {q : Str}
    (hq : '/' ∈ q) : q ∉ lines :=
  fun hmem => h q hmem hq

@[simp] theorem checkout_commit_effect_ret (sz : Sizes) (fs : FS) (commit_id : Str) :
    (checkout_commit_effect sz fs commit_id).ret = 0 := rfl

@[simp] theorem checkout_commit_effect_dir (sz : Sizes) (fs : FS) (commit_id : Str) :
    (checkout_commit_effect sz fs commit_id).fs.dir = fs.dir := by
  unfold checkout_commit_effect
  by_cases h : commit_id = ROOT_ID <;> simp [h]

theorem checkout_commit_effect_file (sz : Sizes) (fs : FS) (commit_id q : Str)
    (h0 : ∀ l ∈ index_lines sz fs, '/' ∉ l)
    (h1 : commit_id ≠ ROOT_ID →
      ∀ l ∈ read_lines sz.FILENAME_SIZE ((checkout_index fs commit_id).getD []), '/' ∉ l) :
    (checkout_commit_effect sz fs commit_id).fs.file q =
      if q = PREV then some commit_id
      else if q = INDEX then (if commit_id = ROOT_ID then some [] else checkout_index fs commit_id)
      else if commit_id ≠ ROOT_ID ∧
          q ∈ read_lines sz.FILENAME_SIZE ((checkout_index fs commit_id).getD []) ∧
          fs.file (commit_file commit_id q) ≠ none
        then fs.file (commit_file commit_id q)
      else if q ∈ index_lines sz fs then none else fs.file q := by
  -- the state after the first loop and the copy of the stored index
  have hA : ∀ p, (checkout_rm_loop (index_lines sz fs) fs).file p =
      if p ∈ index_lines sz fs then none else fs.file p :=
    fun p => checkout_rm_loop_file _ p fs
  have hAc : ∀ n, (checkout_rm_loop (index_lines sz fs) fs).file (commit_file commit_id n) =
      fs.file (commit_file commit_id n) := by
    intro n
    rw [hA, if_neg (not_mem_of_slash h0 (slash_mem_commit_file _ _))]
  have hAi : (checkout_rm_loop (index_lines sz fs) fs).file INDEX = fs.file INDEX := by
    rw [hA, if_neg (not_mem_of_slash h0 slash_mem_INDEX)]
  have hBi : (fs_cp (checkout_rm_loop (index_lines sz fs) fs)
      (commit_file commit_id ".index".toList) INDEX).file INDEX = checkout_index fs commit_id := by
    rw [fs_cp_file, hAc, hAi]
    unfold checkout_index
    cases fs.file (commit_file commit_id ".index".toList) <;> simp
  have hB : ∀ p, p ≠ INDEX → (fs_cp (checkout_rm_loop (index_lines sz fs) fs)
      (commit_file commit_id ".index".toList) INDEX).file p =
      if p ∈ index_lines sz fs then none else fs.file p := by
    intro p hp
    rw [fs_cp_file_of_ne _ _ _ _ hp, hA]
  have hBc : ∀ n, (fs_cp (checkout_rm_loop (index_lines sz fs) fs)
      (commit_file commit_id ".index".toList) INDEX).file (commit_file commit_id n) =
      fs.file (commit_file commit_id n) := by
    intro n
    rw [fs_cp_file_of_ne _ _ _ _ (commit_file_ne_INDEX _ _), hAc]
  have hBr : (fs_cp (checkout_rm_loop (index_lines sz fs) fs)
      (commit_file commit_id ".index".toList) INDEX).read INDEX =
      (checkout_index fs commit_id).getD [] := by
    unfold FS.read; rw [hBi]
  have hidx : read_lines sz.FILENAME_SIZE (fs.read INDEX) = index_lines sz fs := rfl
  unfold checkout_commit_effect
  simp only [commit_file_index_eq, hidx]
  change (write_string_to_file _ PREV commit_id).file q = _
  rw [write_string_to_file_file]
  by_cases hq : q = PREV
  · simp [hq]
  · rw [if_neg hq, if_neg hq]
    by_cases hroot : commit_id = ROOT_ID
    · rw [if_pos hroot, write_string_to_file_file]
      by_cases hqi : q = INDEX
      · simp [hqi, hroot]
      · rw [if_neg hqi, if_neg hqi, if_neg (by simp [hroot])]
        exact hB q hqi
    · rw [if_neg hroot]
      have hlines := h1 hroot
      rw [← hBr] at hlines ⊢
      rw [checkout_copies_file commit_id _ hlines q, commit_file_eq, hBc]
      by_cases hqi : q = INDEX
      · subst hqi
        rw [if_neg (fun h => not_mem_of_slash hlines slash_mem_INDEX h.1), hBi]
        simp [hroot]
      · rw [if_neg hqi, hB q hqi]
        simp [hroot]

theorem checkout_commit_effect_prev (sz : Sizes) (fs : FS) (commit_id : Str) :
    (checkout_commit_effect sz fs commit_id).fs.file PREV = some commit_id := by
  unfold checkout_commit_effect
  simp

/-- Apart from the staging index and HEAD's commit pointer, `checkout_commit_effect`
changes no file whose path holds a `/`, when the old and the new index list
names without `/` only. -/
theorem checkout_commit_effect_file_slash (sz : Sizes) (fs : FS) (commit_id q : Str)
    (h0 : ∀ l ∈ index_lines sz fs, '/' ∉ l)
    (h1 : commit_id ≠ ROOT_ID →
      ∀ l ∈ read_lines sz.FILENAME_SIZE ((checkout_index fs commit_id).getD []), '/' ∉ l)
    (hq : '/' ∈ q) (hprev : q ≠ PREV) (hindex : q ≠ INDEX) :
    (checkout_commit_effect sz fs commit_id).fs.file q = fs.file q := by
  rw [checkout_commit_effect_file sz fs commit_id q h0 h1, if_neg hprev, if_neg hindex,
    if_neg (not_mem_of_slash h0 hq)]
  by_cases hroot : commit_id = ROOT_ID
  · rw [if_neg (fun h => h.1 hroot)]
  · rw [if_neg (fun h => not_mem_of_slash (h1 hroot) hq h.2.1)]

theorem checkout_commit_effect_file_INDEX (sz : Sizes) (fs : FS) (commit_id : Str)
    (h0 : ∀ l ∈ index_lines sz fs, '/' ∉ l)
    (h1 : commit_id ≠ ROOT_ID →
      ∀ l ∈ read_lines sz.FILENAME_SIZE ((checkout_index fs commit_id).getD []), '/' ∉ l) :
    (checkout_commit_effect sz fs commit_id).fs.file INDEX =
      if commit_id = ROOT_ID then some [] else checkout_index fs commit_id := by
  rw [checkout_commit_effect_file sz fs commit_id INDEX h0 h1, if_neg (by decide), if_pos rfl]

/-! ## `checkout_commit` and its buffers -/

/-- The function `checkout_commit` gives the result `checkout_commit_effect`
when the path of the stored index fits `file` and the path of every file of
the new index fits `old`, and is undefined otherwise. -/
theorem checkout_commit_eq (sz : Sizes) (fs : FS) (commit_id : Str) :
    checkout_commit sz fs commit_id =
      if (".beargit/".toList ++ commit_id ++ "/.index".toList).length + 1 ≤ sz.FILENAME_SIZE ∧
          (commit_id ≠ ROOT_ID → ∀ l ∈ read_lines sz.FILENAME_SIZE
            ((fs_cp (checkout_rm_loop (read_lines sz.FILENAME_SIZE (fs.read INDEX)) fs)
              (".beargit/".toList ++ commit_id ++ "/.index".toList) INDEX).read INDEX),
            (".beargit/".toList ++ commit_id ++ "/".toList ++ l).length + 1 ≤ sz.FILENAME_SIZE)
      then some (checkout_commit_effect sz fs commit_id) else none := by
  unfold checkout_commit
  by_cases hidx : (".beargit/".toList ++ commit_id ++ "/.index".toList).length + 1 ≤
      sz.FILENAME_SIZE
  · simp only [sprintf_of_fits _ _ hidx, Option.bind_eq_bind, Option.some_bind]
    by_cases hroot : commit_id = ROOT_ID
    · rw [if_pos hroot, if_pos ⟨hidx, fun h => absurd hroot h⟩]
      simp only [Option.some_bind, Option.pure_def]
      unfold checkout_commit_effect
      simp only [if_pos hroot]
    · rw [if_neg hroot, checkout_cp_loop_eq]
      by_cases hl : ∀ l ∈ read_lines sz.FILENAME_SIZE
          ((fs_cp (checkout_rm_loop (read_lines sz.FILENAME_SIZE (fs.read INDEX)) fs)
            (".beargit/".toList ++ commit_id ++ "/.index".toList) INDEX).read INDEX),
          (".beargit/".toList ++ commit_id ++ "/".toList ++ l).length + 1 ≤ sz.FILENAME_SIZE
      · rw [if_pos hl, if_pos ⟨hidx, fun _ => hl⟩]
        simp only [Option.some_bind, Option.pure_def]
        unfold checkout_commit_effect
        simp only [if_neg hroot]
      · rw [if_neg hl, if_neg (fun h => hl (h.2 hroot))]
        rfl
  · simp only [sprintf_of_not_fits _ _ hidx, Option.bind_eq_bind, Option.none_bind]
    rw [if_neg (fun h => hidx h.1)]

theorem checkout_commit_eq_some (sz : Sizes) (fs : FS) (commit_id : Str) (r : Res)
    (h : checkout_commit sz fs commit_id = some r) : r = checkout_commit_effect sz fs commit_id := by
  rw [checkout_commit_eq] at h
  split at h
  · exact (Option.some.inj h).symm
  · cases h

/-- The staging index that the second loop of `checkout_commit` reads. -/
theorem checkout_commit_new_index (sz : Sizes) (fs : FS) (commit_id : Str)
    (h0 : ∀ l ∈ index_lines sz fs, '/' ∉ l) :
    (fs_cp (checkout_rm_loop (read_lines sz.FILENAME_SIZE (fs.read INDEX)) fs)
      (".beargit/".toList ++ commit_id ++ "/.index".toList) INDEX).read INDEX =
      (checkout_index fs commit_id).getD [] := by
  have hidx : read_lines sz.FILENAME_SIZE (fs.read INDEX) = index_lines sz fs := rfl
  rw [hidx, commit_file_index_eq]
  unfold FS.read
  rw [fs_cp_file, checkout_rm_loop_file, checkout_rm_loop_file,
    if_neg (not_mem_of_slash h0 (slash_mem_commit_file _ _)),
    if_neg (not_mem_of_slash h0 slash_mem_INDEX)]
  unfold checkout_index
  cases fs.file (commit_file commit_id ".index".toList) <;> simp

theorem commit_path_length (commit_id name : Str) :
    (".beargit/".toList ++ commit_id ++ "/".toList ++ name).length =
      commit_id.length + name.length + 10 := by
  simp
  omega

/-- The function `checkout_commit` is defined when the identifier has 40
symbols, the old index lists names without `/`, and the names of the new
index are short enough. -/
theorem checkout_commit_of_short (sz : Sizes) (hsz : sz.ok) (fs : FS) (commit_id : Str)
    (hlen : commit_id.length = 40)
    (h0 : ∀ l ∈ index_lines sz fs, '/' ∉ l)
    (h1 : commit_id ≠ ROOT_ID →
      ∀ l ∈ read_lines sz.FILENAME_SIZE ((checkout_index fs commit_id).getD []),
        l.length + 51 ≤ sz.FILENAME_SIZE) :
    checkout_commit sz fs commit_id = some (checkout_commit_effect sz fs commit_id) := by
  rw [checkout_commit_eq, if_pos]
  refine ⟨?_, ?_⟩
  · have := hsz.1
    simp only [List.length_append, hlen]
    have h9 : ".beargit/".toList.length = 9 := rfl
    have h7 : "/.index".toList.length = 7 := rfl
    omega
  · intro hroot l hl
    rw [checkout_commit_new_index sz fs commit_id h0] at hl
    rw [commit_path_length, hlen]
    have := h1 hroot l hl
    omega

/-! ## The identifier and the record of a new commit -/

theorem digits_at_mod (n : Nat) : digits_at (Int.tmod (n : Int) 3) = some (trit_symbol (n % 3)) := by
  have h3 : n % 3 < 3 := Nat.mod_lt _ (by decide)
  have hmod : Int.tmod (n : Int) 3 = ((n % 3 : Nat) : Int) := (Int.ofNat_tmod n 3).symm
  rw [hmod]
  unfold digits_at trit_symbol
  simp only [Int.ofNat_zero_le, if_true, Int.toNat_ofNat]
  interval_cases h : n % 3 <;> rfl

theorem next_commit_id_loop_nat (k : Nat) :
    ∀ n : Nat, next_commit_id_loop k (n : Int) = some (branch_symbols k n) := by
  induction k with
  | zero => intro n; rfl
  | succ k ih =>
    intro n
    have hdiv : Int.tdiv (n : Int) 3 = ((n / 3 : Nat) : Int) := (Int.ofNat_tdiv n 3).symm
    simp only [next_commit_id_loop, digits_at_mod, hdiv, ih, branch_symbols]

theorem branch_symbols_length (k n : Nat) : (branch_symbols k n).length = k := by
  induction k generalizing n with
  | zero => rfl
  | succ k ih => simp [branch_symbols, ih]

theorem trit_symbol_mem (t : Nat) : trit_symbol t = '6' ∨ trit_symbol t = '1' ∨ trit_symbol t = 'c' := by
  unfold trit_symbol
  by_cases h0 : t = 0
  · simp [h0]
  · by_cases h1 : t = 1 <;> simp [h0, h1]

theorem next_commit_id_of_registered (sz : Sizes) (fs : FS) (commit_id : Str) (n : Nat)
    (hn : get_branch_number sz fs (read_string_from_file fs CURRENT_BRANCH sz.BRANCHNAME_SIZE) = n)
    (hlen : 10 ≤ commit_id.length) :
    next_commit_id sz fs commit_id =
      some (branch_symbols 10 n ++ (next_commit_id_hw1 (commit_id.drop 10)).1,
        next_commit_id_hw1_err (next_commit_id_hw1 (commit_id.drop 10)).1
          (next_commit_id_hw1 (commit_id.drop 10)).2) := by
  unfold next_commit_id
  simp only [hn, COMMIT_ID_BRANCH_BYTES, next_commit_id_loop_nat]
  rw [if_neg (by omega)]

theorem commit_dir_length (commit_id : Str) :
    (commit_dir commit_id).length = commit_id.length + 9 := by
  simp [commit_dir]

/-- A commit that is carried out under identifier `commit_id`: the record is
stored when the paths of its files fit `file_name`, and the behaviour is
undefined otherwise. -/
theorem beargit_commit_eq_ite (sz : Sizes) (fs : FS) (msg commit_id err : Str)
    (hcur : read_string_from_file fs CURRENT_BRANCH sz.BRANCHNAME_SIZE ≠ [])
    (hmsg : is_commit_msg_ok msg ≠ 0)
    (hid : next_commit_id sz fs (read_string_from_file fs PREV sz.COMMIT_ID_SIZE) =
      some (commit_id, err)) :
    beargit_commit sz fs msg =
      if commit_id.length + 17 ≤ sz.FILENAME_SIZE ∧
          ∀ l ∈ index_lines sz fs, commit_id.length + l.length + 11 ≤ sz.FILENAME_SIZE
      then some { ret := 0, err := err, fs := commit_result_fs sz fs msg commit_id }
      else none := by
  have hlen : (read_string_from_file fs CURRENT_BRANCH sz.BRANCHNAME_SIZE).length ≠ 0 := by
    intro h; exact hcur (List.length_eq_zero.mp h)
  unfold beargit_commit
  rw [if_neg hlen]
  unfold beargit_commit_hw1
  rw [if_neg hmsg]
  simp only [hid, commit_dir_eq]
  have hread : (fs_cp (fs_cp (fs_mkdir fs (commit_dir commit_id)) INDEX
      (commit_file commit_id ".index".toList)) PREV
      (commit_file commit_id ".prev".toList)).read INDEX = fs.read INDEX := by
    unfold FS.read
    rw [fs_cp_file_of_ne _ _ _ _ (commit_file_ne_INDEX _ _).symm,
      fs_cp_file_of_ne _ _ _ _ (commit_file_ne_INDEX _ _).symm, fs_mkdir_file]
  have hidx : read_lines sz.FILENAME_SIZE (fs.read INDEX) = index_lines sz fs := rfl
  have hdl := commit_dir_length commit_id
  by_cases hdir : commit_id.length + 17 ≤ sz.FILENAME_SIZE
  · have h1 : (commit_dir commit_id).length + 1 ≤ sz.FILENAME_SIZE := by omega
    have h2 : (commit_dir commit_id ++ "/.index".toList).length + 1 ≤ sz.FILENAME_SIZE := by
      rw [List.length_append, hdl]
      have : "/.index".toList.length = 7 := rfl
      omega
    have h3 : (commit_dir commit_id ++ "/.prev".toList).length + 1 ≤ sz.FILENAME_SIZE := by
      rw [List.length_append, hdl]
      have : "/.prev".toList.length = 6 := rfl
      omega
    have h4 : (commit_dir commit_id ++ "/.msg".toList).length + 1 ≤ sz.FILENAME_SIZE := by
      rw [List.length_append, hdl]
      have : "/.msg".toList.length = 5 := rfl
      omega
    simp only [Option.bind_eq_bind, Option.some_bind, sprintf_of_fits _ _ h1,
      sprintf_of_fits _ _ h2, sprintf_of_fits _ _ h3, sprintf_of_fits _ _ h4,
      beargit_commit_loop_eq]
    simp only [commit_dir_index_eq, commit_dir_prev_eq, commit_dir_msg_eq, hread, hidx]
    have hiff : (∀ l ∈ index_lines sz fs,
        (commit_dir commit_id ++ "/".toList ++ l).length + 1 ≤ sz.FILENAME_SIZE) ↔
        ∀ l ∈ index_lines sz fs, commit_id.length + l.length + 11 ≤ sz.FILENAME_SIZE := by
      have hl : ∀ l : Str, (commit_dir commit_id ++ "/".toList ++ l).length + 1 =
          commit_id.length + l.length + 11 := by
        intro l
        rw [List.length_append, List.length_append, hdl]
        have : "/".toList.length = 1 := rfl
        omega
      simp only [hl]
    by_cases hlines : ∀ l ∈ index_lines sz fs,
        commit_id.length + l.length + 11 ≤ sz.FILENAME_SIZE
    · rw [if_pos (hiff.mpr hlines), if_pos ⟨hdir, hlines⟩]
      rfl
    · rw [if_neg (fun h => hlines (hiff.mp h)), if_neg (fun h => hlines h.2)]
      rfl
  · rw [if_neg (fun h => hdir h.1)]
    have h2 : ¬ (commit_dir commit_id ++ "/.index".toList).length + 1 ≤ sz.FILENAME_SIZE := by
      rw [List.length_append, hdl]
      have : "/.index".toList.length = 7 := rfl
      omega
    by_cases h1 : (commit_dir commit_id).length + 1 ≤ sz.FILENAME_SIZE
    · simp only [Option.bind_eq_bind, Option.some_bind, Option.none_bind,
        sprintf_of_fits _ _ h1, sprintf_of_not_fits _ _ h2]
    · simp only [Option.bind_eq_bind, Option.none_bind, sprintf_of_not_fits _ _ h1]

/-- The file system after a commit that is carried out under identifier
`commit_id`, when the paths of its files fit `file_name`. -/
theorem beargit_commit_eq (sz : Sizes) (fs : FS) (msg commit_id err : Str)
    (hcur : read_string_from_file fs CURRENT_BRANCH sz.BRANCHNAME_SIZE ≠ [])
    (hmsg : is_commit_msg_ok msg ≠ 0)
    (hid : next_commit_id sz fs (read_string_from_file fs PREV sz.COMMIT_ID_SIZE) =
      some (commit_id, err))
    (hdir : commit_id.length + 17 ≤ sz.FILENAME_SIZE)
    (hlines : ∀ l ∈ index_lines sz fs, commit_id.length + l.length + 11 ≤ sz.FILENAME_SIZE) :
    beargit_commit sz fs msg = some
      { ret := 0, err := err, fs := commit_result_fs sz fs msg commit_id } := by
  rw [beargit_commit_eq_ite sz fs msg commit_id err hcur hmsg hid, if_pos ⟨hdir, hlines⟩]

/-- The files of the file system after the loop of `beargit_commit_hw1`,
outside the new commit record. -/
theorem commit_copies_file_outside (commit_id : Str) (lines : List Str) (q : Str)
    (h : ∀ n, q ≠ commit_file commit_id n) (fs : FS) :
    (commit_copies (commit_dir commit_id) lines fs).file q = fs.file q :=
  commit_copies_file_of_ne _ _ _ (fun l _ => h l) fs

theorem commit_file_ne_of_name_ne (c n m : Str) (h : n ≠ m) : commit_file c n ≠ commit_file c m :=
  fun e => h ((commit_file_inj_name c n m).mp e)

theorem commit_result_fs_dir (sz : Sizes) (fs : FS) (msg commit_id q : Str) :
    (commit_result_fs sz fs msg commit_id).dir q =
      if q = commit_dir commit_id then true else fs.dir q := by
  simp [commit_result_fs]

theorem commit_result_fs_file_PREV (sz : Sizes) (fs : FS) (msg commit_id : Str) :
    (commit_result_fs sz fs msg commit_id).file PREV = some commit_id := by
  simp [commit_result_fs]

/-- Outside the new record and HEAD's commit pointer a commit changes no
file. -/
theorem commit_result_fs_file_outside (sz : Sizes) (fs : FS) (msg commit_id q : Str)
    (hq : q ≠ PREV) (h : ∀ n, q ≠ commit_file commit_id n) :
    (commit_result_fs sz fs msg commit_id).file q = fs.file q := by
  unfold commit_result_fs
  rw [write_string_to_file_file, if_neg hq, write_string_to_file_file, if_neg (h _),
    commit_copies_file_outside _ _ _ h, fs_cp_file_of_ne _ _ _ _ (h _),
    fs_cp_file_of_ne _ _ _ _ (h _), fs_mkdir_file]

theorem commit_result_fs_file_index (sz : Sizes) (fs : FS) (msg commit_id index : Str)
    (hindex : fs.file INDEX = some index) (hnot : ".index".toList ∉ index_lines sz fs) :
    (commit_result_fs sz fs msg commit_id).file (commit_file commit_id ".index".toList) =
      some index := by
  unfold commit_result_fs
  rw [write_string_to_file_file, if_neg (commit_file_ne_PREV _ _),
    write_string_to_file_file, if_neg (commit_file_ne_of_name_ne _ _ _ (by decide)),
    commit_copies_file_of_ne _ _ _ (by
      intro l hl
      exact commit_file_ne_of_name_ne _ _ _ (fun e => hnot (e ▸ hl))),
    fs_cp_file_of_ne _ _ _ _ (commit_file_ne_of_name_ne _ _ _ (by decide))]
  apply fs_cp_file_dst
  rw [fs_mkdir_file, hindex]

theorem commit_result_fs_file_prev (sz : Sizes) (fs : FS) (msg commit_id prev : Str)
    (hprev : fs.file PREV = some prev) (hnot : ".prev".toList ∉ index_lines sz fs) :
    (commit_result_fs sz fs msg commit_id).file (commit_file commit_id ".prev".toList) =
      some prev := by
  unfold commit_result_fs
  rw [write_string_to_file_file, if_neg (commit_file_ne_PREV _ _),
    write_string_to_file_file, if_neg (commit_file_ne_of_name_ne _ _ _ (by decide)),
    commit_copies_file_of_ne _ _ _ (by
      intro l hl
      exact commit_file_ne_of_name_ne _ _ _ (fun e => hnot (e ▸ hl)))]
  apply fs_cp_file_dst
  rw [fs_cp_file_of_ne _ _ _ _ (commit_file_ne_PREV _ _).symm, fs_mkdir_file, hprev]

theorem is_it_a_commit_id_loop_eq_one (s : Str) :
    is_it_a_commit_id_loop s = 1 ↔ ∀ c ∈ s, IsCommitSymbol c := by
  induction s with
  | nil => simp [is_it_a_commit_id_loop]
  | cons c rest ih =>
    unfold is_it_a_commit_id_loop
    by_cases hc : c = '6' ∨ c = '1' ∨ c = 'c'
    · rw [if_neg (not_not.mpr hc), ih]
      simp [IsCommitSymbol, hc]
    · rw [if_pos hc]
      simp [IsCommitSymbol, hc]

theorem is_it_a_commit_id_loop_range (s : Str) :
    is_it_a_commit_id_loop s = 0 ∨ is_it_a_commit_id_loop s = 1 := by
  induction s with
  | nil => right; rfl
  | cons c rest ih =>
    unfold is_it_a_commit_id_loop
    split
    · left; rfl
    · exact ih

theorem is_it_a_commit_id_ne_zero (s : Str) :
    is_it_a_commit_id s ≠ 0 ↔ s.length = 40 ∧ ∀ c ∈ s, IsCommitSymbol c := by
  unfold is_it_a_commit_id
  by_cases hlen : s.length = 40
  · rw [if_neg (not_not.mpr hlen), ← is_it_a_commit_id_loop_eq_one]
    rcases is_it_a_commit_id_loop_range s with h | h <;> simp [h, hlen]
  · simp [hlen]

theorem is_it_a_commit_id_eq_one (s : Str) :
    is_it_a_commit_id s = 1 ↔ s.length = 40 ∧ ∀ c ∈ s, IsCommitSymbol c := by
  rw [← is_it_a_commit_id_ne_zero]
  unfold is_it_a_commit_id
  by_cases hlen : s.length = 40
  · rw [if_neg (not_not.mpr hlen)]
    rcases is_it_a_commit_id_loop_range s with h | h <;> simp [h]
  · simp [hlen]

theorem next_commit_id_hw1_length (s : Str) : (next_commit_id_hw1 s).1.length = s.length := by
  induction s with
  | nil => rfl
  | cons c rest ih =>
    unfold next_commit_id_hw1
    split
    · simp [ih]
    · split
      · simp
      · split <;> simp

theorem next_commit_id_hw1_symbols (s : Str) (h : ∀ c ∈ s, IsCommitSymbol c) :
    ∀ c ∈ (next_commit_id_hw1 s).1, IsCommitSymbol c := by
  induction s with
  | nil => simp [next_commit_id_hw1]
  | cons c rest ih =>
    have hrest : ∀ x ∈ rest, IsCommitSymbol x := fun x hx => h x (List.mem_cons_of_mem _ hx)
    unfold next_commit_id_hw1
    split
    · intro x hx
      rcases List.mem_cons.mp hx with rfl | hx
      · left; rfl
      · exact ih hrest x hx
    · split
      · intro x hx
        rcases List.mem_cons.mp hx with rfl | hx
        · right; left; rfl
        · exact hrest x hx
      · split
        · intro x hx
          rcases List.mem_cons.mp hx with rfl | hx
          · right; right; rfl
          · exact hrest x hx
        · exact h

theorem next_commit_id_hw1_zeros (s : Str) (h : ∀ c ∈ s, c = '0') :
    ∀ c ∈ (next_commit_id_hw1 s).1, IsCommitSymbol c := by
  induction s with
  | nil => simp [next_commit_id_hw1]
  | cons c rest ih =>
    have hc : c = '0' := h c (by simp)
    have hrest : ∀ x ∈ rest, x = '0' := fun x hx => h x (List.mem_cons_of_mem _ hx)
    unfold next_commit_id_hw1
    rw [if_pos (Or.inl hc)]
    intro x hx
    rcases List.mem_cons.mp hx with rfl | hx
    · left; rfl
    · exact ih hrest x hx

theorem branch_symbols_symbols (k n : Nat) : ∀ c ∈ branch_symbols k n, IsCommitSymbol c := by
  induction k generalizing n with
  | zero => simp [branch_symbols]
  | succ k ih =>
    intro c hc
    rcases List.mem_cons.mp hc with rfl | hc
    · exact trit_symbol_mem _
    · exact ih _ c hc

/-- The identifier made from the root identifier or from a well-formed
identifier is well formed. -/
theorem new_commit_id_valid (n : Nat) (head : Str)
    (hhead : head = ROOT_ID ∨ is_it_a_commit_id head ≠ 0) :
    is_it_a_commit_id (branch_symbols 10 n ++ (next_commit_id_hw1 (head.drop 10)).1) ≠ 0 := by
  rw [is_it_a_commit_id_ne_zero]
  have hlen : head.length = 40 := by
    rcases hhead with rfl | h
    · rfl
    · exact ((is_it_a_commit_id_ne_zero _).mp h).1
  refine ⟨by simp [branch_symbols_length, next_commit_id_hw1_length, hlen], ?_⟩
  intro c hc
  rcases List.mem_append.mp hc with hc | hc
  · exact branch_symbols_symbols _ _ c hc
  · rcases hhead with rfl | h
    · exact next_commit_id_hw1_zeros _ (by decide) c hc
    · exact next_commit_id_hw1_symbols _
        (fun x hx => ((is_it_a_commit_id_ne_zero _).mp h).2 x (List.mem_of_mem_drop hx)) c hc

theorem valid_id_ne_root (s : Str) (h : is_it_a_commit_id s ≠ 0) : s ≠ ROOT_ID := by
  rintro rfl
  exact h (by decide)

theorem valid_id_head (s : Str) (h : is_it_a_commit_id s ≠ 0) :
    ∃ d rest, s = d :: rest ∧ IsCommitSymbol d := by
  obtain ⟨hlen, hsym⟩ := (is_it_a_commit_id_ne_zero s).mp h
  cases s with
  | nil => simp at hlen
  | cons d rest => exact ⟨d, rest, rfl, hsym d (by simp)⟩

theorem commit_file_ne_branch_file_of_valid (c n b : Str) (h : is_it_a_commit_id c ≠ 0) :
    commit_file c n ≠ branch_file b := by
  obtain ⟨d, rest, rfl, hd⟩ := valid_id_head c h
  have hdot : d ≠ '.' := by
    rcases hd with rfl | rfl | rfl <;> decide
  simp [commit_file, branch_file, hdot]

/-! ## The steps of `beargit_checkout_effect` -/

@[simp] theorem checkout_saved_dir (sz : Sizes) (fs : FS) : (checkout_saved sz fs).dir = fs.dir := by
  unfold checkout_saved
  split <;> simp

theorem checkout_saved_file_of_ne (sz : Sizes) (fs : FS) (q : Str)
    (h : q ≠ branch_file (current_branch sz fs)) :
    (checkout_saved sz fs).file q = fs.file q := by
  unfold checkout_saved
  split
  · exact fs_cp_file_of_ne _ _ _ _ h
  · rfl

theorem checkout_saved_file_INDEX (sz : Sizes) (fs : FS) :
    (checkout_saved sz fs).file INDEX = fs.file INDEX :=
  checkout_saved_file_of_ne sz fs _ (branch_file_ne_INDEX _).symm

theorem checkout_saved_file_PREV (sz : Sizes) (fs : FS) :
    (checkout_saved sz fs).file PREV = fs.file PREV :=
  checkout_saved_file_of_ne sz fs _ (branch_file_ne_PREV _).symm

theorem checkout_saved_file_BRANCHES (sz : Sizes) (fs : FS) :
    (checkout_saved sz fs).file BRANCHES = fs.file BRANCHES :=
  checkout_saved_file_of_ne sz fs _ (branch_file_ne_BRANCHES _).symm

theorem checkout_saved_file_CURRENT_BRANCH (sz : Sizes) (fs : FS) :
    (checkout_saved sz fs).file CURRENT_BRANCH = fs.file CURRENT_BRANCH :=
  checkout_saved_file_of_ne sz fs _ (branch_file_ne_CURRENT_BRANCH _).symm

theorem checkout_saved_file_name (sz : Sizes) (fs : FS) (l : Str) (hl : '/' ∉ l) :
    (checkout_saved sz fs).file l = fs.file l :=
  checkout_saved_file_of_ne sz fs _ (ne_of_slash hl (slash_mem_branch_file _))

theorem checkout_saved_file_commit (sz : Sizes) (fs : FS) (c n : Str)
    (hc : is_it_a_commit_id c ≠ 0) :
    (checkout_saved sz fs).file (commit_file c n) = fs.file (commit_file c n) :=
  checkout_saved_file_of_ne sz fs _ (commit_file_ne_branch_file_of_valid c n _ hc)

/-- The function `beargit_checkout_effect` after its first step. -/
theorem beargit_checkout_effect_eq (sz : Sizes) (fs : FS) (arg : Str) (new_branch : Int) :
    beargit_checkout_effect sz fs arg new_branch =
      if is_it_a_commit_id arg ≠ 0 then
        if !(checkout_saved sz fs).dir (commit_dir arg) then
          { ret := 1
            err := "ERROR: Commit ".toList ++ arg ++ " does not exist\n".toList
            fs := checkout_saved sz fs }
        else
          checkout_commit_effect sz (write_string_to_file (checkout_saved sz fs) CURRENT_BRANCH []) arg
      else
        if new_branch ≠ 0 ∧ decide (get_branch_number sz (checkout_saved sz fs) arg ≥ 0) then
          { ret := 1
            err := "ERROR: A branch named ".toList ++ arg ++ " already exists\n".toList
            fs := checkout_saved sz fs }
        else if new_branch = 0 ∧ !decide (get_branch_number sz (checkout_saved sz fs) arg ≥ 0) then
          { ret := 1
            err := "ERROR: No branch ".toList ++ arg ++ " exists\n".toList
            fs := checkout_saved sz fs }
        else
          checkout_commit_effect sz
            (write_string_to_file
              (if new_branch ≠ 0 then
                fs_cp ((checkout_saved sz fs).write BRANCHES
                  ((checkout_saved sz fs).read BRANCHES ++ (arg ++ "\n".toList)))
                  PREV (branch_file arg)
              else checkout_saved sz fs) CURRENT_BRANCH arg)
            (read_string_from_file
              (write_string_to_file
                (if new_branch ≠ 0 then
                  fs_cp ((checkout_saved sz fs).write BRANCHES
                    ((checkout_saved sz fs).read BRANCHES ++ (arg ++ "\n".toList)))
                    PREV (branch_file arg)
                else checkout_saved sz fs) CURRENT_BRANCH arg)
              (branch_file arg) sz.COMMIT_ID_SIZE) := rfl

/-- A checkout of a well-formed identifier that names no commit directory. -/
theorem beargit_checkout_effect_id_missing (sz : Sizes) (fs : FS) (arg : Str) (new_branch : Int)
    (harg : is_it_a_commit_id arg ≠ 0) (hdir : fs.dir (commit_dir arg) = false) :
    beargit_checkout_effect sz fs arg new_branch =
      { ret := 1
        err := "ERROR: Commit ".toList ++ arg ++ " does not exist\n".toList
        fs := checkout_saved sz fs } := by
  rw [beargit_checkout_effect_eq, if_pos harg, checkout_saved_dir, hdir]
  rfl

/-- A checkout of a well-formed identifier that names a commit directory. -/
theorem beargit_checkout_effect_id_stored (sz : Sizes) (fs : FS) (arg : Str) (new_branch : Int)
    (harg : is_it_a_commit_id arg ≠ 0) (hdir : fs.dir (commit_dir arg) = true) :
    beargit_checkout_effect sz fs arg new_branch =
      checkout_commit_effect sz (write_string_to_file (checkout_saved sz fs) CURRENT_BRANCH []) arg := by
  rw [beargit_checkout_effect_eq, if_pos harg, checkout_saved_dir, hdir]
  rfl

/-! ## Checkout of a branch name -/

theorem get_branch_number_checkout_saved (sz : Sizes) (fs : FS) (b : Str) :
    get_branch_number sz (checkout_saved sz fs) b = get_branch_number sz fs b := by
  unfold get_branch_number FS.read
  rw [checkout_saved_file_BRANCHES]

/-- A checkout of a name that is not an identifier, when neither error
applies. -/
theorem beargit_checkout_effect_branch_eq (sz : Sizes) (fs : FS) (arg : Str) (new_branch : Int)
    (hnotid : is_it_a_commit_id arg = 0)
    (hok : (new_branch ≠ 0 ∧ get_branch_number sz fs arg < 0) ∨
      (new_branch = 0 ∧ 0 ≤ get_branch_number sz fs arg)) :
    beargit_checkout_effect sz fs arg new_branch =
      checkout_commit_effect sz (checkout_target sz fs arg new_branch)
        (read_string_from_file (checkout_target sz fs arg new_branch) (branch_file arg)
          sz.COMMIT_ID_SIZE) := by
  rw [beargit_checkout_effect_eq, if_neg (not_not.mpr hnotid), get_branch_number_checkout_saved]
  rcases hok with ⟨hn, hb⟩ | ⟨hn, hb⟩
  · rw [if_neg (by simp; intro _; omega), if_neg (by simp [hn])]
    rfl
  · rw [if_neg (by simp [hn]), if_neg (by simp; intro _; omega)]
    rfl

theorem beargit_checkout_effect_branch_exists (sz : Sizes) (fs : FS) (arg : Str) (new_branch : Int)
    (hnotid : is_it_a_commit_id arg = 0) (hnew : new_branch ≠ 0)
    (hreg : 0 ≤ get_branch_number sz fs arg) :
    beargit_checkout_effect sz fs arg new_branch =
      { ret := 1
        err := "ERROR: A branch named ".toList ++ arg ++ " already exists\n".toList
        fs := checkout_saved sz fs } := by
  rw [beargit_checkout_effect_eq, if_neg (not_not.mpr hnotid), get_branch_number_checkout_saved,
    if_pos ⟨hnew, by simpa using hreg⟩]

theorem beargit_checkout_effect_branch_missing (sz : Sizes) (fs : FS) (arg : Str) (new_branch : Int)
    (hnotid : is_it_a_commit_id arg = 0) (hnew : new_branch = 0)
    (hreg : get_branch_number sz fs arg < 0) :
    beargit_checkout_effect sz fs arg new_branch =
      { ret := 1
        err := "ERROR: No branch ".toList ++ arg ++ " exists\n".toList
        fs := checkout_saved sz fs } := by
  rw [beargit_checkout_effect_eq, if_neg (not_not.mpr hnotid), get_branch_number_checkout_saved,
    if_neg (by simp [hnew]), if_pos ⟨hnew, by simp; omega⟩]

/-! ### The files of the state `checkout_commit_effect` is called on -/

theorem checkout_target_file_CURRENT_BRANCH (sz : Sizes) (fs : FS) (b : Str) (nb : Int) :
    (checkout_target sz fs b nb).file CURRENT_BRANCH = some b := by
  simp [checkout_target]

theorem checkout_target_file_of_ne (sz : Sizes) (fs : FS) (b : Str) (nb : Int) (q : Str)
    (h1 : q ≠ CURRENT_BRANCH) (h2 : q ≠ BRANCHES) (h3 : ∀ x, q ≠ branch_file x) :
    (checkout_target sz fs b nb).file q = fs.file q := by
  unfold checkout_target
  rw [write_string_to_file_file, if_neg h1]
  split
  · rw [fs_cp_file_of_ne _ _ _ _ (h3 _), write_file, if_neg h2,
      checkout_saved_file_of_ne _ _ _ (h3 _)]
  · exact checkout_saved_file_of_ne _ _ _ (h3 _)

theorem checkout_target_file_INDEX (sz : Sizes) (fs : FS) (b : Str) (nb : Int) :
    (checkout_target sz fs b nb).file INDEX = fs.file INDEX :=
  checkout_target_file_of_ne sz fs b nb INDEX (by decide) (by decide)
    (fun x => (branch_file_ne_INDEX x).symm)

theorem checkout_target_file_PREV (sz : Sizes) (fs : FS) (b : Str) (nb : Int) :
    (checkout_target sz fs b nb).file PREV = fs.file PREV :=
  checkout_target_file_of_ne sz fs b nb PREV (by decide) (by decide)
    (fun x => (branch_file_ne_PREV x).symm)

theorem checkout_target_file_name (sz : Sizes) (fs : FS) (b : Str) (nb : Int) (l : Str)
    (hl : '/' ∉ l) : (checkout_target sz fs b nb).file l = fs.file l :=
  checkout_target_file_of_ne sz fs b nb l (ne_of_slash hl slash_mem_CURRENT_BRANCH)
    (ne_of_slash hl slash_mem_BRANCHES) (fun x => ne_of_slash hl (slash_mem_branch_file x))

theorem commit_file_ne_branch_file_of_head (d : Char) (rest n b : Str) (hd : d ≠ '.') :
    commit_file (d :: rest) n ≠ branch_file b := by
  simp [commit_file, branch_file, hd]

theorem commit_file_ne_branch_file_of_root_or_valid (c n b : Str)
    (hc : c = ROOT_ID ∨ is_it_a_commit_id c ≠ 0) : commit_file c n ≠ branch_file b := by
  rcases hc with rfl | hc
  · exact commit_file_ne_branch_file_of_head '0' _ n b (by decide)
  · exact commit_file_ne_branch_file_of_valid c n b hc

theorem checkout_target_file_commit (sz : Sizes) (fs : FS) (b : Str) (nb : Int) (c n : Str)
    (hc : c = ROOT_ID ∨ is_it_a_commit_id c ≠ 0) :
    (checkout_target sz fs b nb).file (commit_file c n) = fs.file (commit_file c n) :=
  checkout_target_file_of_ne sz fs b nb _ (commit_file_ne_CURRENT_BRANCH _ _)
    (commit_file_ne_BRANCHES _ _) (fun x => commit_file_ne_branch_file_of_root_or_valid c n x hc)

@[simp] theorem checkout_target_dir (sz : Sizes) (fs : FS) (b : Str) (nb : Int) :
    (checkout_target sz fs b nb).dir = fs.dir := by
  unfold checkout_target
  split <;> simp

theorem checkout_target_file_BRANCHES_new (sz : Sizes) (fs : FS) (b : Str) (nb : Int)
    (hnb : nb ≠ 0) :
    (checkout_target sz fs b nb).file BRANCHES =
      some (fs.read BRANCHES ++ (b ++ "\n".toList)) := by
  unfold checkout_target
  rw [write_string_to_file_file, if_neg (by decide), if_pos hnb,
    fs_cp_file_of_ne _ _ _ _ (branch_file_ne_BRANCHES _).symm, write_file, if_pos rfl]
  unfold FS.read
  rw [checkout_saved_file_BRANCHES]

theorem checkout_target_file_BRANCHES_old (sz : Sizes) (fs : FS) (b : Str) :
    (checkout_target sz fs b 0).file BRANCHES = fs.file BRANCHES := by
  unfold checkout_target
  rw [write_string_to_file_file, if_neg (by decide), if_neg (by simp),
    checkout_saved_file_BRANCHES]

theorem checkout_target_file_branch_new (sz : Sizes) (fs : FS) (b : Str) (nb : Int)
    (hnb : nb ≠ 0) (p : Str) (hp : fs.file PREV = some p) :
    (checkout_target sz fs b nb).file (branch_file b) = some p := by
  unfold checkout_target
  rw [write_string_to_file_file, if_neg (branch_file_ne_CURRENT_BRANCH _), if_pos hnb]
  apply fs_cp_file_dst
  rw [write_file, if_neg (by decide), checkout_saved_file_PREV, hp]

/-! ## Branch numbers and strings read from files -/

theorem get_branch_number_loop_append (b : Str) (l1 l2 : List Str) :
    ∀ i c : Int, get_branch_number_loop b (l1 ++ l2) i c =
      get_branch_number_loop b l2 (get_branch_number_loop b l1 i c) (c + l1.length) := by
  induction l1 with
  | nil => intro i c; simp [get_branch_number_loop]
  | cons x rest ih =>
    intro i c
    have hsplit : (x :: rest) ++ l2 = x :: (rest ++ l2) := rfl
    rw [hsplit, get_branch_number_loop, ih, get_branch_number_loop, List.length_cons]
    have hc : c + 1 + (rest.length : Int) = c + ((rest.length + 1 : Nat) : Int) := by
      push_cast; ring
    rw [hc]

theorem get_branch_number_loop_of_not_mem (b : Str) (l : List Str) (h : b ∉ l) :
    ∀ i c : Int, get_branch_number_loop b l i c = i := by
  induction l with
  | nil => intro i c; rfl
  | cons x rest ih =>
    intro i c
    have hx : x ≠ b := fun e => h (by simp [e])
    simp only [get_branch_number_loop, if_neg hx]
    exact ih (fun hmem => h (List.mem_cons_of_mem _ hmem)) i (c + 1)

theorem get_branch_number_loop_lower (b : Str) (l : List Str) :
    ∀ i c : Int, 0 ≤ c → -1 ≤ i → -1 ≤ get_branch_number_loop b l i c := by
  induction l with
  | nil => intro i c _ hi; exact hi
  | cons x rest ih =>
    intro i c hc hi
    simp only [get_branch_number_loop]
    apply ih _ _ (by omega)
    split <;> omega

theorem get_branch_number_loop_of_mem (b : Str) (l : List Str) (h : b ∈ l) :
    ∀ i c : Int, 0 ≤ c → c ≤ get_branch_number_loop b l i c := by
  induction l with
  | nil => simp at h
  | cons x rest ih =>
    intro i c hc
    simp only [get_branch_number_loop]
    by_cases hrest : b ∈ rest
    · have := ih hrest (if x = b then c else i) (c + 1) (by omega)
      omega
    · have hx : x = b := by
        rcases List.mem_cons.mp h with h | h
        · exact h.symm
        · exact absurd h hrest
      rw [get_branch_number_loop_of_not_mem b rest hrest, if_pos hx]

theorem get_branch_number_of_lines (sz : Sizes) (fs : FS) (b : Str) :
    get_branch_number sz fs b = get_branch_number_loop b (registry_lines sz fs) (-1) 0 := rfl

theorem get_branch_number_nonneg_iff (sz : Sizes) (fs : FS) (b : Str) :
    0 ≤ get_branch_number sz fs b ↔ b ∈ registry_lines sz fs := by
  rw [get_branch_number_of_lines]
  constructor
  · intro h
    by_contra hmem
    rw [get_branch_number_loop_of_not_mem b _ hmem] at h
    omega
  · intro h
    exact get_branch_number_loop_of_mem b _ h (-1) 0 (le_refl _)

theorem get_branch_number_lt_length (b : Str) (l : List Str) :
    ∀ i c : Int, i < c + l.length → get_branch_number_loop b l i c < c + l.length := by
  induction l with
  | nil => intro i c h; simpa using h
  | cons x rest ih =>
    intro i c h
    simp only [get_branch_number_loop, List.length_cons]
    have hlen : ((x :: rest).length : Int) = (rest.length : Int) + 1 := by simp
    have := ih (if x = b then c else i) (c + 1) (by
      split
      · omega
      · omega)
    push_cast
    omega

theorem c_str_idem (s : Str) : c_str (c_str s) = c_str s := by
  unfold c_str
  rw [List.takeWhile_takeWhile]
  congr 1
  funext a
  by_cases ha : a = Char.ofNat 0 <;> simp [bne, ha]

theorem c_str_length_le (s : Str) : (c_str s).length ≤ s.length := by
  unfold c_str
  exact (List.takeWhile_sublist _).length_le

/-- Reading a string that was read with the same size gives it back. -/
theorem c_str_take_idem (s : Str) (k : Nat) :
    c_str ((c_str (s.take k)).take k) = c_str (s.take k) := by
  rw [List.take_of_length_le, c_str_idem]
  exact le_trans (c_str_length_le _) (List.length_take_le _ _)

theorem read_string_from_file_of_file (fs : FS) (p c : Str) (size : Nat)
    (h : fs.file p = some c) :
    read_string_from_file fs p size = c_str (c.take (size - 1)) := by
  simp [read_string_from_file, FS.read, h]

theorem read_string_from_file_congr (fs1 fs2 : FS) (p1 p2 : Str) (size : Nat)
    (h : fs1.file p1 = fs2.file p2) :
    read_string_from_file fs1 p1 size = read_string_from_file fs2 p2 size := by
  simp [read_string_from_file, FS.read, h]

/-- A string without NUL that fits the buffer is read back whole. -/
theorem read_string_from_file_whole (fs : FS) (p c : Str) (size : Nat)
    (h : fs.file p = some c) (hnul : Char.ofNat 0 ∉ c) (hlen : c.length + 1 ≤ size) :
    read_string_from_file fs p size = c := by
  rw [read_string_from_file_of_file fs p c size h, List.take_of_length_le (by omega),
    c_str_of_no_nul c hnul]

/-- Reading a file that holds a string read with the same size. -/
theorem read_string_from_file_read (fs fs0 : FS) (p p0 : Str) (size : Nat)
    (h : fs.file p = some (read_string_from_file fs0 p0 size)) :
    read_string_from_file fs p size = read_string_from_file fs0 p0 size := by
  rw [read_string_from_file_of_file fs p _ size h]
  unfold read_string_from_file
  exact c_str_take_idem _ _

/-! ## `beargit_checkout` and its buffers -/

theorem read_string_from_file_length (fs : FS) (p : Str) (size : Nat) :
    (read_string_from_file fs p size).length ≤ size - 1 := by
  unfold read_string_from_file
  exact le_trans (c_str_length_le _) (List.length_take_le _ _)

theorem sprintf_current_branch_file (sz : Sizes) (fs : FS) :
    sprintf (sz.BRANCHNAME_SIZE + 50) (".beargit/.branch_".toList ++ current_branch sz fs) =
      some (branch_file (current_branch sz fs)) := by
  apply sprintf_of_fits
  have := read_string_from_file_length fs CURRENT_BRANCH sz.BRANCHNAME_SIZE
  have h17 : ".beargit/.branch_".toList.length = 17 := rfl
  rw [List.length_append, h17]
  unfold current_branch
  omega

theorem sprintf_commit_dir (sz : Sizes) (arg : Str) :
    sprintf sz.FILENAME_SIZE (".beargit/".toList ++ arg) =
      if arg.length + 10 ≤ sz.FILENAME_SIZE then some (commit_dir arg) else none := by
  unfold sprintf
  have h9 : (".beargit/".toList ++ arg).length + 1 = arg.length + 10 := by
    rw [List.length_append]
    have : ".beargit/".toList.length = 9 := rfl
    omega
  rw [h9]
  rfl

theorem sprintf_branch_file (sz : Sizes) (arg : Str) :
    sprintf (sz.BRANCHNAME_SIZE + 50) (".beargit/.branch_".toList ++ arg) =
      if arg.length + 18 ≤ sz.BRANCHNAME_SIZE + 50 then some (branch_file arg) else none := by
  unfold sprintf
  have h : (".beargit/.branch_".toList ++ arg).length + 1 = arg.length + 18 := by
    rw [List.length_append]
    have : ".beargit/.branch_".toList.length = 17 := rfl
    omega
  rw [h]
  rfl

/-- The function `beargit_checkout` after its first step. -/
theorem beargit_checkout_eq (sz : Sizes) (fs : FS) (arg : Str) (new_branch : Int) :
    beargit_checkout sz fs arg new_branch =
      if is_it_a_commit_id arg ≠ 0 then
        if arg.length + 10 ≤ sz.FILENAME_SIZE then
          if !(checkout_saved sz fs).dir (commit_dir arg) then
            some { ret := 1
                   err := "ERROR: Commit ".toList ++ arg ++ " does not exist\n".toList
                   fs := checkout_saved sz fs }
          else
            checkout_commit sz (write_string_to_file (checkout_saved sz fs) CURRENT_BRANCH []) arg
        else none
      else
        if new_branch ≠ 0 ∧ decide (get_branch_number sz (checkout_saved sz fs) arg ≥ 0) then
          some { ret := 1
                 err := "ERROR: A branch named ".toList ++ arg ++ " already exists\n".toList
                 fs := checkout_saved sz fs }
        else if new_branch = 0 ∧ !decide (get_branch_number sz (checkout_saved sz fs) arg ≥ 0) then
          some { ret := 1
                 err := "ERROR: No branch ".toList ++ arg ++ " exists\n".toList
                 fs := checkout_saved sz fs }
        else if arg.length + 18 ≤ sz.BRANCHNAME_SIZE + 50 then
          checkout_commit sz (checkout_target sz fs arg new_branch)
            (read_string_from_file (checkout_target sz fs arg new_branch) (branch_file arg)
              sz.COMMIT_ID_SIZE)
        else none := by
  have hcur : read_string_from_file fs CURRENT_BRANCH sz.BRANCHNAME_SIZE = current_branch sz fs :=
    rfl
  unfold beargit_checkout checkout_target
  simp only [hcur, sprintf_current_branch_file, Option.bind_eq_bind, Option.pure_def,
    Option.some_bind]
  simp only [sprintf_commit_dir, sprintf_branch_file]
  by_cases hcb : (current_branch sz fs).length ≠ 0
  · have hs : checkout_saved sz fs = fs_cp fs PREV (branch_file (current_branch sz fs)) := by
      unfold checkout_saved; rw [if_pos hcb]
    rw [if_pos hcb, hs]
    by_cases hid : is_it_a_commit_id arg ≠ 0
    · rw [if_pos hid, if_pos hid]
      by_cases hfit : arg.length + 10 ≤ sz.FILENAME_SIZE
      · rw [if_pos hfit, if_pos hfit]; rfl
      · rw [if_neg hfit, if_neg hfit]; rfl
    · rw [if_neg hid, if_neg hid]
      by_cases hfit : arg.length + 18 ≤ sz.BRANCHNAME_SIZE + 50
      · simp only [if_pos hfit, Option.some_bind]
      · simp only [if_neg hfit, Option.none_bind]
  · have hs : checkout_saved sz fs = fs := by
      unfold checkout_saved; rw [if_neg hcb]
    rw [if_neg hcb, hs]
    by_cases hid : is_it_a_commit_id arg ≠ 0
    · rw [if_pos hid, if_pos hid]
      by_cases hfit : arg.length + 10 ≤ sz.FILENAME_SIZE
      · rw [if_pos hfit, if_pos hfit]; rfl
      · rw [if_neg hfit, if_neg hfit]; rfl
    · rw [if_neg hid, if_neg hid]
      by_cases hfit : arg.length + 18 ≤ sz.BRANCHNAME_SIZE + 50
      · simp only [if_pos hfit, Option.some_bind]
      · simp only [if_neg hfit, Option.none_bind]

/-- Whatever `beargit_checkout` returns is the result `beargit_checkout_effect`. -/
theorem beargit_checkout_eq_some (sz : Sizes) (fs : FS) (arg : Str) (new_branch : Int) (r : Res)
    (h : beargit_checkout sz fs arg new_branch = some r) :
    r = beargit_checkout_effect sz fs arg new_branch := by
  rw [beargit_checkout_eq] at h
  rw [beargit_checkout_effect_eq]
  split_ifs at h ⊢
  all_goals first
    | exact (Option.some.inj h).symm
    | exact checkout_commit_eq_some _ _ _ _ h
    | cases h
    | (have h2 := checkout_commit_eq_some _ _ _ _ h
       unfold checkout_target at h2
       rw [if_pos (by assumption)] at h2
       exact h2)
    | (have h2 := checkout_commit_eq_some _ _ _ _ h
       unfold checkout_target at h2
       rw [if_neg (by assumption)] at h2
       exact h2)

theorem beargit_checkout_of_effect (sz : Sizes) (fs : FS) (arg : Str) (new_branch : Int)
    (h : (beargit_checkout sz fs arg new_branch).isSome = true) :
    beargit_checkout sz fs arg new_branch = some (beargit_checkout_effect sz fs arg new_branch) := by
  cases hr : beargit_checkout sz fs arg new_branch with
  | none => rw [hr] at h; cases h
  | some r => rw [beargit_checkout_eq_some sz fs arg new_branch r hr]

/-- A checkout of a well-formed identifier that names no commit directory. -/
theorem beargit_checkout_id_missing (sz : Sizes) (fs : FS) (arg : Str) (new_branch : Int)
    (harg : is_it_a_commit_id arg ≠ 0) (hdir : fs.dir (commit_dir arg) = false)
    (hfit : 50 ≤ sz.FILENAME_SIZE) :
    beargit_checkout sz fs arg new_branch = some
      { ret := 1
        err := "ERROR: Commit ".toList ++ arg ++ " does not exist\n".toList
        fs := checkout_saved sz fs } := by
  have hlen := ((is_it_a_commit_id_ne_zero arg).mp harg).1
  rw [beargit_checkout_eq, if_pos harg, if_pos (by omega), checkout_saved_dir, hdir]
  rfl

/-- A checkout of a well-formed identifier that names a commit directory. -/
theorem beargit_checkout_id_stored (sz : Sizes) (fs : FS) (arg : Str) (new_branch : Int)
    (harg : is_it_a_commit_id arg ≠ 0) (hdir : fs.dir (commit_dir arg) = true)
    (hfit : 50 ≤ sz.FILENAME_SIZE) :
    beargit_checkout sz fs arg new_branch =
      checkout_commit sz (write_string_to_file (checkout_saved sz fs) CURRENT_BRANCH []) arg := by
  have hlen := ((is_it_a_commit_id_ne_zero arg).mp harg).1
  rw [beargit_checkout_eq, if_pos harg, if_pos (by omega), checkout_saved_dir, hdir]
  rfl

/-- A checkout of a name that is not an identifier, when neither error
applies and the path of the head-pointer record fits `branch_file`. -/
theorem beargit_checkout_branch_eq (sz : Sizes) (fs : FS) (arg : Str) (new_branch : Int)
    (hnotid : is_it_a_commit_id arg = 0)
    (hok : (new_branch ≠ 0 ∧ get_branch_number sz fs arg < 0) ∨
      (new_branch = 0 ∧ 0 ≤ get_branch_number sz fs arg))
    (hfit : arg.length + 18 ≤ sz.BRANCHNAME_SIZE + 50) :
    beargit_checkout sz fs arg new_branch =
      checkout_commit sz (checkout_target sz fs arg new_branch)
        (read_string_from_file (checkout_target sz fs arg new_branch) (branch_file arg)
          sz.COMMIT_ID_SIZE) := by
  rw [beargit_checkout_eq, if_neg (by rw [hnotid]; simp), get_branch_number_checkout_saved]
  rcases hok with ⟨hnb, hreg⟩ | ⟨hnb, hreg⟩
  · rw [if_neg (by simp; intro _; omega), if_neg (by simp [hnb]), if_pos hfit]
  · rw [if_neg (by simp [hnb]), if_neg (by simp; intro _; omega), if_pos hfit]

theorem beargit_checkout_branch_exists (sz : Sizes) (fs : FS) (arg : Str) (new_branch : Int)
    (hnotid : is_it_a_commit_id arg = 0) (hnew : new_branch ≠ 0)
    (hreg : 0 ≤ get_branch_number sz fs arg) :
    beargit_checkout sz fs arg new_branch = some
      { ret := 1
        err := "ERROR: A branch named ".toList ++ arg ++ " already exists\n".toList
        fs := checkout_saved sz fs } := by
  rw [beargit_checkout_eq, if_neg (by rw [hnotid]; simp), get_branch_number_checkout_saved,
    if_pos (by simp [hnew, hreg])]

theorem beargit_checkout_branch_missing (sz : Sizes) (fs : FS) (arg : Str) (new_branch : Int)
    (hnotid : is_it_a_commit_id arg = 0) (hnew : new_branch = 0)
    (hreg : get_branch_number sz fs arg < 0) :
    beargit_checkout sz fs arg new_branch = some
      { ret := 1
        err := "ERROR: No branch ".toList ++ arg ++ " exists\n".toList
        fs := checkout_saved sz fs } := by
  rw [beargit_checkout_eq, if_neg (by rw [hnotid]; simp), get_branch_number_checkout_saved,
    if_neg (by simp [hnew]), if_pos (by simp [hnew]; omega)]

/-! ## The commit message check -/

theorem take_succ_of_getElem? {α : Type} (l : List α) (j : Nat) (c : α) (h : l[j]? = some c) :
    l.take (j + 1) = l.take j ++ [c] := by
  induction l generalizing j with
  | nil => simp at h
  | cons x xs ih =>
    cases j with
    | zero => simp at h; simp [h]
    | succ j => simp at h; simp [ih j h]

theorem is_commit_msg_ok_loop_sound (msg : Str) :
    ∀ (j : Nat) (acc : Str), (∃ a, acc = a ++ go_bears.take j) →
      is_commit_msg_ok_loop msg j = 1 → contains_go_bears (acc ++ msg) := by
  induction msg with
  | nil => intro j acc _ h; simp [is_commit_msg_ok_loop] at h
  | cons c rest ih =>
    intro j acc hacc h
    obtain ⟨a, ha⟩ := hacc
    have hstep : acc ++ c :: rest = (acc ++ [c]) ++ rest := by simp
    unfold is_commit_msg_ok_loop at h
    by_cases hc : go_bears[j]? = some c
    · have htake := take_succ_of_getElem? go_bears j c hc
      rw [if_pos hc] at h
      by_cases hlast : j + 1 = go_bears.length
      · refine ⟨a, rest, ?_⟩
        have : go_bears = go_bears.take j ++ [c] := by
          rw [← htake, hlast, List.take_length]
        rw [hstep, ha]
        conv_rhs => rw [this]
        simp
      · rw [if_neg hlast] at h
        rw [hstep]
        exact ih (j + 1) (acc ++ [c]) ⟨a, by rw [ha, htake]; simp⟩ h
    · rw [if_neg hc] at h
      rw [hstep]
      exact ih 0 (acc ++ [c]) ⟨acc ++ [c], by simp⟩ h

theorem is_commit_msg_ok_sound (msg : Str) (h : is_commit_msg_ok msg = 1) :
    contains_go_bears msg := by
  have := is_commit_msg_ok_loop_sound msg 0 [] ⟨[], by simp⟩ h
  simpa using this

theorem is_commit_msg_ok_loop_range (msg : Str) :
    ∀ j, is_commit_msg_ok_loop msg j = 0 ∨ is_commit_msg_ok_loop msg j = 1 := by
  induction msg with
  | nil => intro j; simp [is_commit_msg_ok_loop]
  | cons c rest ih =>
    intro j
    unfold is_commit_msg_ok_loop
    split
    · split
      · right; rfl
      · exact ih _
    · exact ih _

/-- C5: when HEAD is detached (the current-branch marker reads as the empty
string) or the message does not hold `GO BEARS!` as a contiguous substring,
`beargit_commit` returns a non-zero value and the file system after the call
is the one before it: no commit record is created, and HEAD, the staging
index, the branch registry and the working tree are unchanged. -/
theorem beargit_commit_rejected_no_effect (sz : Sizes) (fs : FS) (msg : Str)
    (h : read_string_from_file fs CURRENT_BRANCH sz.BRANCHNAME_SIZE = [] ∨
      ¬ contains_go_bears msg) :
    ∃ r, beargit_commit sz fs msg = some r ∧ r.ret ≠ 0 ∧ r.fs = fs := by
  unfold beargit_commit
  by_cases hd : (read_string_from_file fs CURRENT_BRANCH sz.BRANCHNAME_SIZE).length = 0
  · simp only [hd, if_true]
    exact ⟨_, rfl, by simp, rfl⟩
  · simp only [hd, if_false]
    have hmsg : ¬ contains_go_bears msg := by
      rcases h with h | h
      · rw [h] at hd; simp at hd
      · exact h
    have h0 : is_commit_msg_ok msg = 0 := by
      rcases is_commit_msg_ok_loop_range msg 0 with h0 | h1
      · exact h0
      · exact absurd (is_commit_msg_ok_sound msg h1) hmsg
    unfold beargit_commit_hw1
    simp only [h0, if_true]
    exact ⟨_, rfl, by simp, rfl⟩

theorem beargit_commit_rejected_no_effect_witness :
    (read_string_from_file (beargit_init empty_fs).fs CURRENT_BRANCH
        header_sizes.BRANCHNAME_SIZE = [] ∨
      ¬ contains_go_bears []) ∧
    ∃ r, beargit_commit header_sizes (beargit_init empty_fs).fs [] = some r ∧
      r.ret ≠ 0 ∧ r.fs = (beargit_init empty_fs).fs :=
  ⟨Or.inr (by rintro ⟨a, b, h⟩; simp [go_bears] at h),
   beargit_commit_rejected_no_effect ⟨512, 41, 512, 128⟩ _ []
     (Or.inr (by rintro ⟨a, b, h⟩; simp [go_bears] at h))⟩

/-- C4: the message `GGO BEARS!` holds `GO BEARS!` as a contiguous substring
and `is_commit_msg_ok` returns 0 on it: after the mismatch at the second `G`
the loop restarts at `j = 0` without comparing that `G` again. -/
theorem is_commit_msg_ok_misses_repeated_start :
    "GGO BEARS!".toList = "G".toList ++ go_bears ++ [] ∧
      is_commit_msg_ok "GGO BEARS!".toList = 0 := by
  decide

/-! ## The staging index refines the ordered set of the spec -/

theorem beargit_index_run_refines_from (sz : Sizes) (ops : List IndexOp) :
    ∀ (fs : FS) (names : List Str),
      fs.file INDEX = some (encode_lines names) →
      (∀ s ∈ names, LineName sz.FILENAME_SIZE s) → names.Nodup →
      (∀ p, IndexOp.add p ∈ ops → LineName sz.FILENAME_SIZE p) →
      (beargit_index_run sz ops fs).1 = (ref_index_run ops names).1 ∧
      (beargit_index_run sz ops fs).2.file INDEX =
        some (encode_lines (ref_index_run ops names).2) ∧
      (∀ s ∈ (ref_index_run ops names).2, LineName sz.FILENAME_SIZE s) := by
  induction ops with
  | nil => intro fs names hidx hnames _ _; exact ⟨rfl, hidx, hnames⟩
  | cons op ops ih =>
    intro fs names hidx hnames hnd hops
    have hops2 : ∀ p, IndexOp.add p ∈ ops → LineName sz.FILENAME_SIZE p :=
      fun p hp => hops p (List.mem_cons_of_mem _ hp)
    cases op with
    | add p =>
      by_cases hin : p ∈ names
      · obtain ⟨hret, hfile⟩ := beargit_add_present sz fs p names hidx hnames hin
        obtain ⟨h1, h2, h3⟩ := ih (beargit_add sz fs p).fs names hfile hnames hnd hops2
        simp only [beargit_index_run, ref_index_run, ref_index_step, hin, if_true, hret]
        exact ⟨by rw [h1]; simp, h2, h3⟩
      · obtain ⟨hret, hfile⟩ := beargit_add_absent sz fs p names hidx hnames hin
        have hp : LineName sz.FILENAME_SIZE p := hops p (by simp)
        have hnames2 : ∀ s ∈ names ++ [p], LineName sz.FILENAME_SIZE s := by
          intro s hs
          rcases List.mem_append.mp hs with hs | hs
          · exact hnames s hs
          · rw [List.mem_singleton.mp hs]; exact hp
        have hnd2 : (names ++ [p]).Nodup := by
          rw [List.nodup_append]
          exact ⟨hnd, List.nodup_singleton p, by
            intro a ha hb
            rw [List.mem_singleton.mp hb] at ha
            exact hin ha⟩
        obtain ⟨h1, h2, h3⟩ := ih (beargit_add sz fs p).fs (names ++ [p]) hfile hnames2 hnd2 hops2
        simp only [beargit_index_run, ref_index_run, ref_index_step, hin, if_false, hret]
        exact ⟨by rw [h1]; simp, h2, h3⟩
    | rm p =>
      by_cases hin : p ∈ names
      · obtain ⟨hret, hfile⟩ := beargit_rm_present sz fs p names hidx hnames hin
        have herase : names.filter (fun s => decide (s ≠ p)) = names.erase p := by
          rw [hnd.erase_eq_filter]
          congr 1
          funext s
          by_cases hs : s = p <;> simp [bne, hs]
        rw [herase] at hfile
        have hnames2 : ∀ s ∈ names.erase p, LineName sz.FILENAME_SIZE s :=
          fun s hs => hnames s (List.mem_of_mem_erase hs)
        obtain ⟨h1, h2, h3⟩ :=
          ih (beargit_rm sz fs p).fs (names.erase p) hfile hnames2 (hnd.erase p) hops2
        simp only [beargit_index_run, ref_index_run, ref_index_step, hin, if_true, hret]
        exact ⟨by rw [h1]; simp, h2, h3⟩
      · obtain ⟨hret, hfile⟩ := beargit_rm_absent sz fs p names hidx hnames hin
        obtain ⟨h1, h2, h3⟩ := ih (beargit_rm sz fs p).fs names hfile hnames hnd hops2
        simp only [beargit_index_run, ref_index_run, ref_index_step, hin, if_false, hret]
        exact ⟨by rw [h1]; simp, h2, h3⟩

/-- C6, as amended: for every sequence of `beargit_add` and `beargit_rm`
calls applied to the empty index in which every added path is not empty,
holds no newline and is at most `FILENAME_SIZE - 2` characters long, each call
returns a non-zero value exactly when the operation of the reference ordered
set fails, and the index at the end holds, one per line and in order, the
paths of the reference ordered set; the loop that reads the index reads back
exactly these paths. -/
theorem beargit_index_run_refines (sz : Sizes) (ops : List IndexOp) (fs : FS)
    (hempty : fs.file INDEX = some [])
    (hops : ∀ p, IndexOp.add p ∈ ops → LineName sz.FILENAME_SIZE p) :
    (beargit_index_run sz ops fs).1 = (ref_index_run ops []).1 ∧
    (beargit_index_run sz ops fs).2.file INDEX =
      some (encode_lines (ref_index_run ops []).2) ∧
    read_lines sz.FILENAME_SIZE ((beargit_index_run sz ops fs).2.read INDEX) =
      (ref_index_run ops []).2 := by
  obtain ⟨h1, h2, h3⟩ := beargit_index_run_refines_from sz ops fs [] hempty
    (by simp) List.nodup_nil hops
  exact ⟨h1, h2, by rw [read_of_file _ _ _ h2, read_lines_encode _ _ h3]⟩

theorem beargit_index_run_refines_witness :
    (beargit_init empty_fs).fs.file INDEX = some [] ∧
    (beargit_index_run header_sizes
        [.add "a".toList, .add "b".toList, .add "a".toList, .rm "a".toList, .rm "c".toList]
        (beargit_init empty_fs).fs).1 =
      (ref_index_run
        [.add "a".toList, .add "b".toList, .add "a".toList, .rm "a".toList, .rm "c".toList]
        []).1 ∧
    (beargit_index_run header_sizes
        [.add "a".toList, .add "b".toList, .add "a".toList, .rm "a".toList, .rm "c".toList]
        (beargit_init empty_fs).fs).2.file INDEX =
      some (encode_lines (ref_index_run
        [.add "a".toList, .add "b".toList, .add "a".toList, .rm "a".toList, .rm "c".toList]
        []).2) ∧
    read_lines header_sizes.FILENAME_SIZE ((beargit_index_run header_sizes
        [.add "a".toList, .add "b".toList, .add "a".toList, .rm "a".toList, .rm "c".toList]
        (beargit_init empty_fs).fs).2.read INDEX) =
      (ref_index_run
        [.add "a".toList, .add "b".toList, .add "a".toList, .rm "a".toList, .rm "c".toList]
        []).2 :=
  ⟨by decide,
   beargit_index_run_refines header_sizes _ (beargit_init empty_fs).fs (by decide) (by
     intro p hp
     simp only [List.mem_cons, IndexOp.add.injEq, List.mem_singleton, reduceCtorEq, or_false,
       List.not_mem_nil] at hp
     rcases hp with rfl | rfl | rfl <;> decide)⟩

set_option maxRecDepth 100000 in
/-- C6 fails as stated: with `FILENAME_SIZE` 512, the path of 512 letters `a`
is not empty and holds no newline; after it is added, adding it again returns
0, where the reference ordered set fails. The loop of `beargit_add` reads the
line of the index in two pieces, neither of which equals the path. -/
theorem beargit_add_twice_long_path :
    List.replicate 512 'a' ≠ [] ∧ '\n' ∉ List.replicate 512 'a' ∧
    (beargit_index_run header_sizes
        [.add (List.replicate 512 'a'), .add (List.replicate 512 'a')]
        (beargit_init empty_fs).fs).1 = [false, false] ∧
    (ref_index_run [.add (List.replicate 512 'a'), .add (List.replicate 512 'a')] []).1 =
      [false, true] := by
  decide

/-! ## The record a commit stores -/

theorem next_commit_id_length (sz : Sizes) (fs : FS) (commit_id id err : Str)
    (h : next_commit_id sz fs commit_id = some (id, err)) : id.length = commit_id.length := by
  unfold next_commit_id at h
  simp only at h
  split at h
  · cases h
  · rename_i hlen
    cases hloop : next_commit_id_loop COMMIT_ID_BRANCH_BYTES
        (get_branch_number sz fs (read_string_from_file fs CURRENT_BRANCH sz.BRANCHNAME_SIZE)) with
    | none => rw [hloop] at h; cases h
    | some bytes =>
      rw [hloop] at h
      simp only [Option.some.injEq, Prod.mk.injEq] at h
      have hb : bytes.length = COMMIT_ID_BRANCH_BYTES := by
        have : ∀ (k : Nat) (n : Int) (l : Str), next_commit_id_loop k n = some l → l.length = k := by
          intro k
          induction k with
          | zero => intro n l hl; cases hl; rfl
          | succ k ih =>
            intro n l hl
            unfold next_commit_id_loop at hl
            cases hd : digits_at (Int.tmod n 3) with
            | none => rw [hd] at hl; cases hl
            | some d =>
              cases hr : next_commit_id_loop k (Int.tdiv n 3) with
              | none => rw [hd, hr] at hl; cases hl
              | some ds =>
                rw [hd, hr] at hl
                cases hl
                simp [ih _ _ hr]
        exact this _ _ _ hloop
      rw [← h.1, List.length_append, hb, next_commit_id_hw1_length, List.length_drop]
      omega

theorem InControlDir_INDEX : InControlDir INDEX := ⟨".index".toList, by decide⟩

theorem read_string_from_file_empty (fs : FS) (p : Str) (size : Nat)
    (h : fs.file p = some []) : read_string_from_file fs p size = [] := by
  simp [read_string_from_file, FS.read, h, c_str]

/-- C7, as amended: with sizes that hold the paths of the control files of a
commit record, for every argument `is_it_a_commit_id` accepts and either
value of the new-branch flag, `beargit_checkout` does not treat the argument
as a branch name. If no directory of a commit with that identifier exists it
returns 1 with the commit-not-found message. If the directory exists, the
name of the current branch holds no `/`, the staging index exists, the commit
record holds an index, both list only names without `/` other than `.` and
`..`, and the names of the stored index have at most `FILENAME_SIZE - 51`
characters, it returns 0 with HEAD detached (the
current-branch marker is empty), HEAD's commit pointer equal to the argument,
the staging index equal to the stored index of the commit, and the branch
registry unchanged. -/
theorem beargit_checkout_commit_id (sz : Sizes) (hsz : sz.ok) (fs : FS) (arg : Str)
    (new_branch : Int) (harg : is_it_a_commit_id arg ≠ 0) :
    (fs.dir (commit_dir arg) = false →
      ∃ r, beargit_checkout sz fs arg new_branch = some r ∧ r.ret = 1 ∧
        r.err = "ERROR: Commit ".toList ++ arg ++ " does not exist\n".toList) ∧
    (fs.dir (commit_dir arg) = true →
      ∀ index stored, '/' ∉ current_branch sz fs → fs.file INDEX = some index →
      fs.file (commit_file arg ".index".toList) = some stored →
      (∀ l ∈ index_lines sz fs, '/' ∉ l ∧ l ≠ ".".toList ∧ l ≠ "..".toList) →
      (∀ l ∈ stored_index_lines sz fs arg, '/' ∉ l ∧ l ≠ ".".toList ∧ l ≠ "..".toList ∧
        l.length + 51 ≤ sz.FILENAME_SIZE) →
      ∃ r, beargit_checkout sz fs arg new_branch = some r ∧ r.ret = 0 ∧
        r.fs.file CURRENT_BRANCH = some [] ∧
        current_branch sz r.fs = [] ∧
        r.fs.file PREV = some arg ∧
        r.fs.file INDEX = some stored ∧
        r.fs.file BRANCHES = fs.file BRANCHES) := by
  have h57 := hsz.1
  have hlen := ((is_it_a_commit_id_ne_zero arg).mp harg).1
  constructor
  · intro hdir
    exact ⟨_, beargit_checkout_id_missing sz fs arg new_branch harg hdir (by omega), rfl, rfl⟩
  · intro hdir index stored _ _ hstored h0 h1
    have hlines : index_lines sz (write_string_to_file (checkout_saved sz fs) CURRENT_BRANCH []) =
        index_lines sz fs := by
      unfold index_lines FS.read
      rw [write_string_to_file_file, if_neg (by decide), checkout_saved_file_INDEX]
    have hci : checkout_index (write_string_to_file (checkout_saved sz fs) CURRENT_BRANCH []) arg =
        some stored := by
      unfold checkout_index
      rw [write_string_to_file_file, if_neg (commit_file_ne_CURRENT_BRANCH _ _),
        checkout_saved_file_commit sz fs _ _ harg, hstored]
    have h0' : ∀ l ∈ index_lines sz (write_string_to_file (checkout_saved sz fs) CURRENT_BRANCH []),
        '/' ∉ l := by rw [hlines]; exact fun l hl => (h0 l hl).1
    have hstl : stored_index_lines sz fs arg = read_lines sz.FILENAME_SIZE stored := by
      unfold stored_index_lines
      rw [read_of_file _ _ _ hstored]
    have h1' : arg ≠ ROOT_ID → ∀ l ∈ read_lines sz.FILENAME_SIZE ((checkout_index
        (write_string_to_file (checkout_saved sz fs) CURRENT_BRANCH []) arg).getD []), '/' ∉ l := by
      intro _
      rw [hci]
      rw [hstl] at h1
      exact fun l hl => (h1 l hl).1
    have hshort : arg ≠ ROOT_ID → ∀ l ∈ read_lines sz.FILENAME_SIZE ((checkout_index
        (write_string_to_file (checkout_saved sz fs) CURRENT_BRANCH []) arg).getD []),
        l.length + 51 ≤ sz.FILENAME_SIZE := by
      intro _
      rw [hci]
      rw [hstl] at h1
      exact fun l hl => (h1 l hl).2.2.2
    have hdef : beargit_checkout sz fs arg new_branch = some (checkout_commit_effect sz
        (write_string_to_file (checkout_saved sz fs) CURRENT_BRANCH []) arg) := by
      rw [beargit_checkout_id_stored sz fs arg new_branch harg hdir (by omega)]
      exact checkout_commit_of_short sz hsz _ arg hlen h0' hshort
    have hcur : (checkout_commit_effect sz (write_string_to_file (checkout_saved sz fs) CURRENT_BRANCH [])
        arg).fs.file CURRENT_BRANCH = some [] := by
      rw [checkout_commit_effect_file_slash sz _ arg _ h0' h1' slash_mem_CURRENT_BRANCH (by decide)
        (by decide), write_string_to_file_file, if_pos rfl]
    refine ⟨_, hdef, rfl, hcur, read_string_from_file_empty _ _ _ hcur,
      checkout_commit_effect_prev _ _ _, ?_, ?_⟩
    · rw [checkout_commit_effect_file_INDEX sz _ arg h0' h1', if_neg (valid_id_ne_root _ harg), hci]
    · rw [checkout_commit_effect_file_slash sz _ arg _ h0' h1' slash_mem_BRANCHES (by decide)
        (by decide), write_string_to_file_file, if_neg (by decide), checkout_saved_file_BRANCHES]

theorem beargit_checkout_commit_id_witness :
    ∃ r, beargit_checkout header_sizes committed_file_repo FIRST_ID 1 = some r ∧ r.ret = 0 ∧
      r.fs.file CURRENT_BRANCH = some [] ∧
      current_branch header_sizes r.fs = [] ∧
      r.fs.file PREV = some FIRST_ID ∧
      r.fs.file INDEX = some "f.txt\n".toList ∧
      r.fs.file BRANCHES = committed_file_repo.file BRANCHES :=
  (beargit_checkout_commit_id header_sizes (by decide) committed_file_repo FIRST_ID 1
    (by decide)).2 (by decide) "f.txt\n".toList "f.txt\n".toList (by decide) (by decide)
    (by decide) (by decide) (by decide)

/-- C7 fails as stated: in a repository whose first commit (identifier of
forty `6`) stores the index `f.txt`, `beargit_add` of the path of that stored
index, `.beargit/666...6/.index`, puts the path in the staging index. The
checkout of the identifier then returns 0, but the first loop of
`checkout_commit` deletes the stored index before it is copied, and the
staging index is not the index the commit stored. -/
theorem beargit_checkout_deletes_stored_index :
    is_it_a_commit_id FIRST_ID = 1 ∧
    (beargit_add header_sizes committed_file_repo (commit_file FIRST_ID ".index".toList)).ret = 0 ∧
    (beargit_add header_sizes committed_file_repo (commit_file FIRST_ID ".index".toList)).fs.dir
      (commit_dir FIRST_ID) = true ∧
    (beargit_add header_sizes committed_file_repo (commit_file FIRST_ID ".index".toList)).fs.file
      (commit_file FIRST_ID ".index".toList) = some "f.txt\n".toList ∧
    (beargit_checkout header_sizes
      (beargit_add header_sizes committed_file_repo (commit_file FIRST_ID ".index".toList)).fs
      FIRST_ID 0).map Res.ret = some 0 ∧
    (checkout_fs header_sizes
      (beargit_add header_sizes committed_file_repo (commit_file FIRST_ID ".index".toList)).fs
      FIRST_ID 0).file INDEX =
      some ("f.txt\n".toList ++
        ".beargit/6666666666666666666666666666666666666666/.index".toList ++ "\n".toList) ∧
    (checkout_fs header_sizes
      (beargit_add header_sizes committed_file_repo (commit_file FIRST_ID ".index".toList)).fs
      FIRST_ID 0).file (commit_file FIRST_ID ".index".toList) = none := by
  decide

/-! ## Checkout that creates a branch -/

theorem checkout_target_index_lines (sz : Sizes) (fs : FS) (b : Str) (nb : Int) :
    index_lines sz (checkout_target sz fs b nb) = index_lines sz fs := by
  unfold index_lines FS.read
  rw [checkout_target_file_INDEX]

theorem checkout_target_checkout_index (sz : Sizes) (fs : FS) (b : Str) (nb : Int) (c : Str)
    (hc : c = ROOT_ID ∨ is_it_a_commit_id c ≠ 0) :
    checkout_index (checkout_target sz fs b nb) c = checkout_index fs c := by
  unfold checkout_index
  rw [checkout_target_file_commit sz fs b nb c _ hc, checkout_target_file_INDEX]

/-- The names the second loop of `checkout_commit_effect` copies hold no `/` when the
staging index and the stored index hold none. -/
theorem checkout_index_lines_no_slash (sz : Sizes) (fs : FS) (c : Str)
    (h0 : ∀ l ∈ index_lines sz fs, '/' ∉ l)
    (h1 : ∀ l ∈ stored_index_lines sz fs c, '/' ∉ l) :
    ∀ l ∈ read_lines sz.FILENAME_SIZE ((checkout_index fs c).getD []), '/' ∉ l := by
  unfold checkout_index
  unfold stored_index_lines FS.read at h1
  unfold index_lines FS.read at h0
  cases hs : fs.file (commit_file c ".index".toList) with
  | none => exact h0
  | some stored =>
    rw [hs] at h1
    exact h1

/-- C9, as amended: with sizes that hold the paths of the control files of a
commit record, for every name that is not a valid commit identifier,
`beargit_checkout` with the new-branch flag returns 1 with the branch-exists
message if the name is registered. Otherwise, when the control files exist,
the name of the current branch holds no `/`, the registry holds one name per
line, the name is not empty, holds neither a newline nor `/` and fits the line
buffer and the branch-name buffer, HEAD's commit pointer is the root
identifier or a well-formed identifier whose record holds an index, the
staging index and the index stored in HEAD's commit list only names without
`/` other than `.` and `..`, and the names of the stored index have at most
`FILENAME_SIZE - 51` characters, it returns 0, appends the name at the end of
the registry so that `get_branch_number(name)` is the number of branches
registered before the call, leaves the number of every registered branch
unchanged, sets the head of the new branch to HEAD's commit pointer, leaves
HEAD's commit pointer unchanged, and ends attached to the new branch. -/
theorem beargit_checkout_new_branch (sz : Sizes) (hsz : sz.ok) (fs : FS) (name : Str)
    (new_branch : Int) (hnotid : is_it_a_commit_id name = 0) (hnew : new_branch ≠ 0) :
    (0 ≤ get_branch_number sz fs name →
      ∃ r, beargit_checkout sz fs name new_branch = some r ∧ r.ret = 1 ∧
        r.err = "ERROR: A branch named ".toList ++ name ++ " already exists\n".toList) ∧
    (get_branch_number sz fs name < 0 →
      ∀ (bs : List Str) (p index cur : Str),
        fs.file BRANCHES = some (encode_lines bs) →
        (∀ b ∈ bs, LineName sz.FILENAME_SIZE b) →
        LineName sz.FILENAME_SIZE name → '/' ∉ name → name.length + 1 ≤ sz.BRANCHNAME_SIZE →
        fs.file PREV = some p → fs.file INDEX = some index →
        fs.file CURRENT_BRANCH = some cur → '/' ∉ current_branch sz fs →
        (head_commit sz fs = ROOT_ID ∨ is_it_a_commit_id (head_commit sz fs) ≠ 0) →
        (head_commit sz fs ≠ ROOT_ID →
          fs.file (commit_file (head_commit sz fs) ".index".toList) ≠ none) →
        (∀ l ∈ index_lines sz fs, '/' ∉ l ∧ l ≠ ".".toList ∧ l ≠ "..".toList) →
        (∀ l ∈ stored_index_lines sz fs (head_commit sz fs),
          '/' ∉ l ∧ l ≠ ".".toList ∧ l ≠ "..".toList ∧ l.length + 51 ≤ sz.FILENAME_SIZE) →
        ∃ r, beargit_checkout sz fs name new_branch = some r ∧ r.ret = 0 ∧
          r.fs.file BRANCHES = some (encode_lines (bs ++ [name])) ∧
          get_branch_number sz r.fs name = bs.length ∧
          (∀ b ∈ bs, get_branch_number sz r.fs b = get_branch_number sz fs b) ∧
          read_string_from_file r.fs (branch_file name) sz.COMMIT_ID_SIZE = head_commit sz fs ∧
          head_commit sz r.fs = head_commit sz fs ∧
          current_branch sz r.fs = name) := by
  constructor
  · intro hreg
    exact ⟨_, beargit_checkout_branch_exists sz fs name new_branch hnotid hnew hreg, rfl, rfl⟩
  · intro hreg bs p index cur hbs hgood hname _ hfit hprev _ _ _ hhead hstored h0s h1s
    have h0 : ∀ l ∈ index_lines sz fs, '/' ∉ l := fun l hl => (h0s l hl).1
    have h1 : ∀ l ∈ stored_index_lines sz fs (head_commit sz fs), '/' ∉ l :=
      fun l hl => (h1s l hl).1
    have hT : read_string_from_file (checkout_target sz fs name new_branch) (branch_file name)
        sz.COMMIT_ID_SIZE = head_commit sz fs :=
      read_string_from_file_congr _ _ _ _ _
        ((checkout_target_file_branch_new sz fs name new_branch hnew p hprev).trans hprev.symm)
    have h0' : ∀ l ∈ index_lines sz (checkout_target sz fs name new_branch), '/' ∉ l := by
      rw [checkout_target_index_lines]; exact h0
    have h1' : head_commit sz fs ≠ ROOT_ID → ∀ l ∈ read_lines sz.FILENAME_SIZE
        ((checkout_index (checkout_target sz fs name new_branch) (head_commit sz fs)).getD []),
        '/' ∉ l := by
      intro _
      rw [checkout_target_checkout_index sz fs name new_branch _ hhead]
      exact checkout_index_lines_no_slash sz fs _ h0 h1
    have hreglines : registry_lines sz fs = bs := by
      unfold registry_lines
      rw [read_of_file _ _ _ hbs, read_lines_encode _ _ hgood]
    have hnotmem : name ∉ bs := by
      intro hmem
      have := (get_branch_number_nonneg_iff sz fs name).mpr (hreglines ▸ hmem)
      omega
    have hB : (checkout_commit_effect sz (checkout_target sz fs name new_branch)
        (head_commit sz fs)).fs.file BRANCHES = some (encode_lines (bs ++ [name])) := by
      rw [checkout_commit_effect_file_slash sz _ _ _ h0' h1' slash_mem_BRANCHES (by decide) (by decide),
        checkout_target_file_BRANCHES_new sz fs name new_branch hnew, read_of_file _ _ _ hbs,
        encode_lines_append]
      simp [encode_lines]
    have hgood2 : ∀ b ∈ bs ++ [name], LineName sz.FILENAME_SIZE b := by
      intro b hb
      rcases List.mem_append.mp hb with hb | hb
      · exact hgood b hb
      · rw [List.mem_singleton.mp hb]; exact hname
    have hreglines2 : registry_lines sz (checkout_commit_effect sz (checkout_target sz fs name new_branch)
        (head_commit sz fs)).fs = bs ++ [name] := by
      unfold registry_lines
      rw [read_of_file _ _ _ hB, read_lines_encode _ _ hgood2]
    have hbranch : (checkout_commit_effect sz (checkout_target sz fs name new_branch)
        (head_commit sz fs)).fs.file (branch_file name) = some p := by
      rw [checkout_commit_effect_file_slash sz _ _ _ h0' h1' (slash_mem_branch_file _)
        (branch_file_ne_PREV _) (branch_file_ne_INDEX _),
        checkout_target_file_branch_new sz fs name new_branch hnew p hprev]
    have hcur : (checkout_commit_effect sz (checkout_target sz fs name new_branch)
        (head_commit sz fs)).fs.file CURRENT_BRANCH = some name := by
      rw [checkout_commit_effect_file_slash sz _ _ _ h0' h1' slash_mem_CURRENT_BRANCH (by decide)
        (by decide), checkout_target_file_CURRENT_BRANCH]
    have hshort : head_commit sz fs ≠ ROOT_ID → ∀ l ∈ read_lines sz.FILENAME_SIZE
        ((checkout_index (checkout_target sz fs name new_branch) (head_commit sz fs)).getD []),
        l.length + 51 ≤ sz.FILENAME_SIZE := by
      intro hroot l hl
      rw [checkout_target_checkout_index sz fs name new_branch _ hhead] at hl
      unfold checkout_index at hl
      cases hs : fs.file (commit_file (head_commit sz fs) ".index".toList) with
      | none => exact absurd hs (hstored hroot)
      | some stored =>
        rw [hs] at hl
        have hst : stored_index_lines sz fs (head_commit sz fs) =
            read_lines sz.FILENAME_SIZE stored := by
          unfold stored_index_lines
          rw [read_of_file _ _ _ hs]
        exact (h1s l (by rw [hst]; exact hl)).2.2.2
    have hdef : beargit_checkout sz fs name new_branch = some (checkout_commit_effect sz
        (checkout_target sz fs name new_branch) (head_commit sz fs)) := by
      rw [beargit_checkout_branch_eq sz fs name new_branch hnotid (Or.inl ⟨hnew, hreg⟩)
        (by omega), hT]
      have hlen40 : (head_commit sz fs).length = 40 := by
        rcases hhead with h | h
        · rw [h]; rfl
        · exact ((is_it_a_commit_id_ne_zero _).mp h).1
      exact checkout_commit_of_short sz hsz _ _ hlen40 h0' hshort
    refine ⟨_, hdef, rfl, hB, ?_, ?_, ?_, ?_, ?_⟩
    · rw [get_branch_number_of_lines, hreglines2, get_branch_number_loop_append,
        get_branch_number_loop_of_not_mem name bs hnotmem]
      simp [get_branch_number_loop]
    · intro b hb
      have hne : name ≠ b := fun e => hnotmem (e ▸ hb)
      rw [get_branch_number_of_lines, hreglines2, get_branch_number_loop_append,
        get_branch_number_of_lines, hreglines]
      simp [get_branch_number_loop, hne]
    · exact read_string_from_file_congr _ _ _ _ _ (hbranch.trans hprev.symm)
    · exact read_string_from_file_read _ fs PREV PREV _ (checkout_commit_effect_prev _ _ _)
    · exact read_string_from_file_whole _ _ _ _ hcur hname.2.2.1 hfit

theorem beargit_checkout_new_branch_witness :
    ∃ r, beargit_checkout header_sizes committed_file_repo "feature".toList 1 = some r ∧
      r.ret = 0 ∧
      r.fs.file BRANCHES = some (encode_lines (["master".toList] ++ ["feature".toList])) ∧
      get_branch_number header_sizes r.fs "feature".toList =
        (["master".toList] : List Str).length ∧
      (∀ b ∈ ["master".toList], get_branch_number header_sizes r.fs b =
        get_branch_number header_sizes committed_file_repo b) ∧
      read_string_from_file r.fs (branch_file "feature".toList) header_sizes.COMMIT_ID_SIZE =
        head_commit header_sizes committed_file_repo ∧
      head_commit header_sizes r.fs = head_commit header_sizes committed_file_repo ∧
      current_branch header_sizes r.fs = "feature".toList :=
  (beargit_checkout_new_branch header_sizes (by decide) committed_file_repo "feature".toList 1
    (by decide) (by decide)).2 (by decide) ["master".toList] FIRST_ID "f.txt\n".toList
    "master".toList (by decide) (by decide) (by decide) (by decide) (by decide) (by decide)
    (by decide) (by decide) (by decide) (by decide) (by decide) (by decide) (by decide)

/-- C9 fails as stated: the name `a`, newline, `b` is not a valid commit
identifier and is not registered after `beargit_init`, where one branch is
registered. `beargit_checkout` with the new-branch flag returns 0 and appends
the name to the registry, where it makes the two lines `a` and `b`; after the
call `get_branch_number` of the name is -1, not 1. -/
theorem beargit_checkout_new_branch_newline :
    is_it_a_commit_id "a\nb".toList = 0 ∧
    get_branch_number header_sizes (beargit_init empty_fs).fs "a\nb".toList = -1 ∧
    registry_lines header_sizes (beargit_init empty_fs).fs = ["master".toList] ∧
    (beargit_checkout header_sizes (beargit_init empty_fs).fs "a\nb".toList 1).map Res.ret =
      some 0 ∧
    registry_lines header_sizes
      (checkout_fs header_sizes (beargit_init empty_fs).fs "a\nb".toList 1) =
        ["master".toList, "a".toList, "b".toList] ∧
    get_branch_number header_sizes
      (checkout_fs header_sizes (beargit_init empty_fs).fs "a\nb".toList 1)
      "a\nb".toList = -1 := by
  decide

/-! ## Checkout of the current branch -/

theorem not_in_control_of_no_slash (q : Str) (h : '/' ∉ q) : ¬ InControlDir q := by
  rintro ⟨r, rfl⟩
  simp at h

theorem InControlDir_PREV : InControlDir PREV := ⟨".prev".toList, by decide⟩
theorem InControlDir_BRANCHES : InControlDir BRANCHES := ⟨".branches".toList, by decide⟩
theorem InControlDir_CURRENT_BRANCH : InControlDir CURRENT_BRANCH :=
  ⟨".current_branch".toList, by decide⟩
theorem InControlDir_branch_file (b : Str) : InControlDir (branch_file b) :=
  ⟨".branch_".toList ++ b, by simp [branch_file]⟩

/-- C10, as amended: with sizes that hold the paths of the control files of
a commit record, for every state attached to a registered branch `b`, whose
name holds no `/` and is not a commit identifier, in which the control files
`.prev` and `.index` exist, with HEAD's commit pointer the root identifier or
a well-formed identifier, a staging index that lists only names without `/`,
other than `.` and `..`, of at most `FILENAME_SIZE - 51` characters, and a
clean working tree (the staging index is the index stored in HEAD's commit and
every file it lists has the content stored in that commit; no file is tracked
when HEAD is the root identifier), `beargit_checkout(b)` without the
new-branch flag returns 0 and leaves every file outside the control directory
and HEAD (current branch and commit pointer) unchanged. -/
theorem beargit_checkout_current_branch_clean (sz : Sizes) (hsz : sz.ok) (fs : FS)
    (p index : Str)
    (hcur : current_branch sz fs ≠ [])
    (_hnoslash : '/' ∉ current_branch sz fs)
    (hnotid : is_it_a_commit_id (current_branch sz fs) = 0)
    (hreg : 0 ≤ get_branch_number sz fs (current_branch sz fs))
    (hprev : fs.file PREV = some p) (_hindex : fs.file INDEX = some index)
    (hhead : head_commit sz fs = ROOT_ID ∨ is_it_a_commit_id (head_commit sz fs) ≠ 0)
    (h0s : ∀ l ∈ index_lines sz fs, '/' ∉ l ∧ l ≠ ".".toList ∧ l ≠ "..".toList ∧
      l.length + 51 ≤ sz.FILENAME_SIZE)
    (hclean_root : head_commit sz fs = ROOT_ID → index_lines sz fs = [])
    (hclean : head_commit sz fs ≠ ROOT_ID →
      fs.file (commit_file (head_commit sz fs) ".index".toList) = fs.file INDEX ∧
      ∀ l ∈ index_lines sz fs, fs.file l = fs.file (commit_file (head_commit sz fs) l)) :
    ∃ r, beargit_checkout sz fs (current_branch sz fs) 0 = some r ∧ r.ret = 0 ∧
      (∀ q, ¬ InControlDir q → r.fs.file q = fs.file q) ∧
      current_branch sz r.fs = current_branch sz fs ∧
      head_commit sz r.fs = head_commit sz fs := by
  have h0 : ∀ l ∈ index_lines sz fs, '/' ∉ l := fun l hl => (h0s l hl).1
  have hlen : (current_branch sz fs).length ≠ 0 := fun h => hcur (List.length_eq_zero.mp h)
  have hTb : (checkout_target sz fs (current_branch sz fs) 0).file
      (branch_file (current_branch sz fs)) = some p := by
    unfold checkout_target checkout_saved
    rw [write_string_to_file_file, if_neg (branch_file_ne_CURRENT_BRANCH _),
      if_neg (by simp), if_pos hlen]
    exact fs_cp_file_dst _ _ _ _ hprev
  have hT : read_string_from_file (checkout_target sz fs (current_branch sz fs) 0)
      (branch_file (current_branch sz fs)) sz.COMMIT_ID_SIZE = head_commit sz fs :=
    read_string_from_file_congr _ _ _ _ _ (hTb.trans hprev.symm)
  have hTlines := checkout_target_index_lines sz fs (current_branch sz fs) 0
  have hTci := checkout_target_checkout_index sz fs (current_branch sz fs) 0 _ hhead
  have hci : head_commit sz fs ≠ ROOT_ID →
      checkout_index fs (head_commit sz fs) = fs.file INDEX := by
    intro hne
    unfold checkout_index
    rw [(hclean hne).1]
    cases fs.file INDEX <;> rfl
  have hnew : head_commit sz fs ≠ ROOT_ID → read_lines sz.FILENAME_SIZE
      ((checkout_index (checkout_target sz fs (current_branch sz fs) 0)
        (head_commit sz fs)).getD []) = index_lines sz fs := by
    intro hne
    rw [hTci, hci hne]
    rfl
  have h0' : ∀ l ∈ index_lines sz (checkout_target sz fs (current_branch sz fs) 0), '/' ∉ l := by
    rw [hTlines]; exact h0
  have h1' : head_commit sz fs ≠ ROOT_ID → ∀ l ∈ read_lines sz.FILENAME_SIZE
      ((checkout_index (checkout_target sz fs (current_branch sz fs) 0)
        (head_commit sz fs)).getD []), '/' ∉ l := by
    intro hne
    rw [hnew hne]; exact h0
  have hdef : beargit_checkout sz fs (current_branch sz fs) 0 = some (checkout_commit_effect sz
      (checkout_target sz fs (current_branch sz fs) 0) (head_commit sz fs)) := by
    have hcl := read_string_from_file_length fs CURRENT_BRANCH sz.BRANCHNAME_SIZE
    have hcl2 : (current_branch sz fs).length ≤ sz.BRANCHNAME_SIZE - 1 := hcl
    rw [beargit_checkout_branch_eq sz fs _ 0 hnotid (Or.inr ⟨rfl, hreg⟩) (by omega), hT]
    have hlen40 : (head_commit sz fs).length = 40 := by
      rcases hhead with h | h
      · rw [h]; rfl
      · exact ((is_it_a_commit_id_ne_zero _).mp h).1
    exact checkout_commit_of_short sz hsz _ _ hlen40 h0'
      (fun hne => by rw [hnew hne]; exact fun l hl => (h0s l hl).2.2.2)
  refine ⟨_, hdef, rfl, ?_, ?_, ?_⟩
  · intro q hq
    by_cases hsl : '/' ∈ q
    · rw [checkout_commit_effect_file_slash sz _ _ _ h0' h1' hsl
        (fun e => hq (e ▸ InControlDir_PREV)) (fun e => hq (e ▸ InControlDir_INDEX))]
      exact checkout_target_file_of_ne sz fs _ 0 q (fun e => hq (e ▸ InControlDir_CURRENT_BRANCH))
        (fun e => hq (e ▸ InControlDir_BRANCHES))
        (fun x e => hq (e ▸ InControlDir_branch_file x))
    · rw [checkout_commit_effect_file sz _ _ q h0' h1', if_neg (ne_of_slash hsl slash_mem_PREV),
        if_neg (ne_of_slash hsl slash_mem_INDEX), hTlines,
        checkout_target_file_commit sz fs _ 0 _ _ hhead, checkout_target_file_name sz fs _ 0 q hsl]
      by_cases hroot : head_commit sz fs = ROOT_ID
      · rw [if_neg (fun h => h.1 hroot), hclean_root hroot]
        simp
      · rw [hnew hroot]
        by_cases hmem : q ∈ index_lines sz fs
        · rw [← (hclean hroot).2 q hmem]
          cases hfq : fs.file q <;> simp [hmem, hroot]
        · simp [hmem]
  · exact read_string_from_file_read _ fs CURRENT_BRANCH CURRENT_BRANCH _
      ((checkout_commit_effect_file_slash sz _ _ _ h0' h1' slash_mem_CURRENT_BRANCH (by decide)
        (by decide)).trans (checkout_target_file_CURRENT_BRANCH sz fs _ 0))
  · exact read_string_from_file_read _ fs PREV PREV _ (checkout_commit_effect_prev _ _ _)

theorem beargit_checkout_current_branch_clean_witness :
    ∃ r, beargit_checkout header_sizes committed_file_repo
        (current_branch header_sizes committed_file_repo) 0 = some r ∧ r.ret = 0 ∧
      (∀ q, ¬ InControlDir q → r.fs.file q = committed_file_repo.file q) ∧
      current_branch header_sizes r.fs = current_branch header_sizes committed_file_repo ∧
      head_commit header_sizes r.fs = head_commit header_sizes committed_file_repo :=
  beargit_checkout_current_branch_clean header_sizes (by decide) committed_file_repo FIRST_ID
    "f.txt\n".toList
    (by decide) (by decide) (by decide) (by decide) (by decide) (by decide) (by decide)
    (by decide) (by decide) (by decide)

/-- C10 fails as stated: after `beargit_init` in a directory that holds the
file `f.txt` and `beargit_add("f.txt")`, HEAD is attached to `master`;
`beargit_checkout("master")` without the new-branch flag returns 0 and deletes
`f.txt` from the working tree: `checkout_commit` removes every file of the
staging index and restores the files of HEAD's commit, here the root
identifier, which has none. -/
theorem beargit_checkout_current_branch_drops_uncommitted :
    current_branch header_sizes (one_file_repo "f.txt".toList "hi".toList) = "master".toList ∧
    (one_file_repo "f.txt".toList "hi".toList).file "f.txt".toList = some "hi".toList ∧
    (beargit_checkout header_sizes (one_file_repo "f.txt".toList "hi".toList)
      "master".toList 0).map Res.ret = some 0 ∧
    (checkout_fs header_sizes (one_file_repo "f.txt".toList "hi".toList)
      "master".toList 0).file "f.txt".toList = none := by
  decide

/-! ## What the program reads in a well-formed repository -/

theorem get_branch_number_loop_last (b : Str) (s t : List Str) (ht : b ∉ t) (i c : Int) :
    get_branch_number_loop b (s ++ b :: t) i c = c + s.length := by
  rw [get_branch_number_loop_append]
  simp only [get_branch_number_loop, if_true]
  exact get_branch_number_loop_of_not_mem b t ht _ _

theorem symbols_no_nul (s : Str) (h : ∀ c ∈ s, IsCommitSymbol c) : Char.ofNat 0 ∉ s := by
  intro hmem
  rcases h _ hmem with h | h | h <;> exact absurd h (by decide)

theorem root_or_valid_length (h : Str) (hh : h = ROOT_ID ∨ is_it_a_commit_id h ≠ 0) :
    h.length = 40 := by
  rcases hh with rfl | hh
  · rfl
  · exact ((is_it_a_commit_id_ne_zero h).mp hh).1

theorem root_or_valid_no_nul (h : Str) (hh : h = ROOT_ID ∨ is_it_a_commit_id h ≠ 0) :
    Char.ofNat 0 ∉ h := by
  rcases hh with rfl | hh
  · decide
  · exact symbols_no_nul h ((is_it_a_commit_id_ne_zero h).mp hh).2

theorem HeadOk.root_or_valid {fs : FS} {h : Str} (hh : HeadOk fs h) :
    h = ROOT_ID ∨ is_it_a_commit_id h ≠ 0 := by
  rcases hh with hh | hh
  · exact Or.inl hh
  · exact Or.inr hh.1

theorem HeadOk.mono {fs fs2 : FS} {h : Str} (hh : HeadOk fs h)
    (hdir : ∀ c, fs.dir (commit_dir c) = true → fs2.dir (commit_dir c) = true) : HeadOk fs2 h := by
  rcases hh with hh | hh
  · exact Or.inl hh
  · exact Or.inr ⟨hh.1, hdir _ hh.2⟩

/-- A head that is the root or a well-formed identifier is read back whole. -/
theorem read_head_whole (sz : Sizes) (hsz : sz.ok) (fs : FS) (p h : Str)
    (hfile : fs.file p = some h) (hh : h = ROOT_ID ∨ is_it_a_commit_id h ≠ 0) :
    read_string_from_file fs p sz.COMMIT_ID_SIZE = h := by
  apply read_string_from_file_whole fs p h _ hfile (root_or_valid_no_nul h hh)
  rw [root_or_valid_length h hh]
  have := hsz.2.2
  omega

theorem read_branch_whole (sz : Sizes) (fs : FS) (p b : Str)
    (hfile : fs.file p = some b) (hb : b = [] ∨ GoodBranch sz b) :
    read_string_from_file fs p sz.BRANCHNAME_SIZE = b := by
  rcases hb with rfl | hb
  · exact read_string_from_file_empty fs p _ hfile
  · exact read_string_from_file_whole fs p b _ hfile hb.1.2.2.1 hb.2.2.1

section
variable {sz : Sizes} {fs : FS} {names bs : List Str} {cur head : Str}

theorem Inv.cur_good (h : Inv sz fs names bs cur head) : cur = [] ∨ GoodBranch sz cur := by
  rcases h.cur_mem with hc | hc
  · exact Or.inl hc
  · exact Or.inr (h.bs_good cur hc)

theorem Inv.current_branch_eq (h : Inv sz fs names bs cur head) : current_branch sz fs = cur :=
  read_branch_whole sz fs _ cur h.current h.cur_good

theorem Inv.head_commit_eq (hsz : sz.ok) (h : Inv sz fs names bs cur head) :
    head_commit sz fs = head :=
  read_head_whole sz hsz fs _ head h.prev h.head_ok.root_or_valid

theorem Inv.index_lines_eq (h : Inv sz fs names bs cur head) : index_lines sz fs = names := by
  unfold index_lines
  rw [read_of_file _ _ _ h.index, read_lines_encode _ _ (fun n hn => (h.names_good n hn).1)]

theorem Inv.registry_lines_eq (h : Inv sz fs names bs cur head) : registry_lines sz fs = bs := by
  unfold registry_lines
  rw [read_of_file _ _ _ h.registry, read_lines_encode _ _ (fun n hn => (h.bs_good n hn).1)]

theorem Inv.names_no_slash (h : Inv sz fs names bs cur head) :
    ∀ l ∈ index_lines sz fs, '/' ∉ l := by
  rw [h.index_lines_eq]
  exact fun l hl => (h.names_good l hl).2.1

/-- The number of a registered branch is its position in the registry. -/
theorem Inv.branch_number (h : Inv sz fs names bs cur head) (b : Str) (hb : b ∈ bs) :
    ∃ j : Nat, get_branch_number sz fs b = j ∧ bs[j]? = some b := by
  obtain ⟨s, t, hst⟩ := List.append_of_mem hb
  have hnd := h.bs_nodup
  rw [hst] at hnd
  have ht : b ∉ t := by
    have := (List.nodup_append.mp hnd).2.1
    exact (List.nodup_cons.mp this).1
  refine ⟨s.length, ?_, ?_⟩
  · rw [get_branch_number_of_lines, h.registry_lines_eq, hst,
      get_branch_number_loop_last b s t ht]
    simp
  · rw [hst, List.getElem?_append_right (le_refl _)]
    simp

theorem Inv.stored_lines (h : Inv sz fs names bs cur head) (c : Str)
    (hc : fs.dir (commit_dir c) = true) : ∀ l ∈ stored_index_lines sz fs c, '/' ∉ l := by
  obtain ⟨_, ns, hns, hgood⟩ := h.stored c hc
  unfold stored_index_lines
  rw [read_of_file _ _ _ hns, read_lines_encode _ _ (fun n hn => (hgood n hn).1)]
  exact fun l hl => (hgood l hl).2.1

end

/-! ## `beargit_init`, `beargit_add` and `beargit_rm` keep the repository well formed -/

theorem beargit_add_file_of_ne (sz : Sizes) (fs : FS) (p q : Str)
    (h1 : q ≠ INDEX) (h2 : q ≠ NEWINDEX) : (beargit_add sz fs p).fs.file q = fs.file q := by
  unfold beargit_add
  dsimp only
  split
  · simp [h2]
  · simp [fs_mv_file, h1, h2]

@[simp] theorem beargit_add_dir (sz : Sizes) (fs : FS) (p : Str) :
    (beargit_add sz fs p).fs.dir = fs.dir := by
  unfold beargit_add
  dsimp only
  split <;> simp

theorem beargit_rm_file_of_ne (sz : Sizes) (fs : FS) (p q : Str)
    (h1 : q ≠ INDEX) (h2 : q ≠ NEWINDEX) : (beargit_rm sz fs p).fs.file q = fs.file q := by
  unfold beargit_rm
  simp only
  split
  · simp [h2]
  · simp [fs_mv_file, h1, h2]

@[simp] theorem beargit_rm_dir (sz : Sizes) (fs : FS) (p : Str) :
    (beargit_rm sz fs p).fs.dir = fs.dir := by
  unfold beargit_rm
  simp only
  split <;> simp

theorem commit_dir_ne_control (c : Str) : commit_dir c ≠ ".beargit".toList := by
  intro h
  have := congrArg List.length h
  simp [commit_dir] at this

theorem Inv.init (sz : Sizes) (hsz : sz.ok) (fs0 : FS) (h : ∀ c, fs0.dir (commit_dir c) = false) :
    Inv sz (beargit_init fs0).fs [] ["master".toList] "master".toList ROOT_ID := by
  have hdir : ∀ c, (beargit_init fs0).fs.dir (commit_dir c) = false := by
    intro c
    show (if commit_dir c = ".beargit".toList then true else fs0.dir (commit_dir c)) = false
    rw [if_neg (commit_dir_ne_control c)]
    exact h c
  have hmaster : GoodBranch sz "master".toList := by
    refine ⟨⟨by decide, by decide, by decide, ?_⟩, by decide, ?_, by decide⟩
    · have := hsz.1
      simp only [String.toList, String.length, List.length]
      omega
    · have := hsz.2.1
      simpa using this
  refine
    { index := by simp [beargit_init, INDEX, CURRENT_BRANCH, PREV, BRANCHES, encode_lines]
      names_good := by simp
      registry := by simp [beargit_init, CURRENT_BRANCH, PREV, BRANCHES, encode_lines]
      bs_good := by
        intro b hb
        rw [List.mem_singleton.mp hb]
        exact hmaster
      bs_nodup := List.nodup_singleton _
      current := by simp [beargit_init]
      cur_mem := Or.inr (by simp)
      prev := by simp [beargit_init, CURRENT_BRANCH, PREV]
      head_ok := Or.inl rfl
      heads := by
        intro b hb hne
        exact absurd (List.mem_singleton.mp hb) hne
      stored := by
        intro c hc
        rw [hdir c] at hc
        exact absurd hc (by decide) }

section
variable {sz : Sizes} {fs : FS} {names bs : List Str} {cur head : Str}

/-- A change of the file system that keeps the directories, the control files
other than the index, the head-pointer records and the stored indexes keeps
the repository well formed, with the new index. -/
theorem Inv.of_same (h : Inv sz fs names bs cur head) (fs2 : FS) (names2 : List Str)
    (hindex : fs2.file INDEX = some (encode_lines names2))
    (hgood : ∀ n ∈ names2, GoodPath sz n)
    (hdir : fs2.dir = fs.dir)
    (hfile : ∀ q, q ≠ INDEX → q ≠ NEWINDEX → fs2.file q = fs.file q) :
    Inv sz fs2 names2 bs cur head := by
  have hmono : ∀ c, fs.dir (commit_dir c) = true → fs2.dir (commit_dir c) = true := by
    intro c hc; rw [hdir]; exact hc
  refine
    { index := hindex
      names_good := hgood
      registry := by rw [hfile _ (by decide) (by decide)]; exact h.registry
      bs_good := h.bs_good
      bs_nodup := h.bs_nodup
      current := by rw [hfile _ (by decide) (by decide)]; exact h.current
      cur_mem := h.cur_mem
      prev := by rw [hfile _ (by decide) (by decide)]; exact h.prev
      head_ok := h.head_ok.mono hmono
      heads := by
        intro b hb hne
        obtain ⟨x, hx, hok⟩ := h.heads b hb hne
        exact ⟨x, by rw [hfile _ (branch_file_ne_INDEX _) (branch_file_ne_NEWINDEX _)]; exact hx,
          hok.mono hmono⟩
      stored := by
        intro c hc
        rw [hdir] at hc
        obtain ⟨hv, ns, hns, hg⟩ := h.stored c hc
        exact ⟨hv, ns,
          by rw [hfile _ (commit_file_ne_INDEX _ _) (commit_file_ne_NEWINDEX _ _)]; exact hns, hg⟩ }

theorem Inv.add (h : Inv sz fs names bs cur head) (p : Str) (hp : GoodPath sz p) :
    Inv sz (beargit_add sz fs p).fs (if p ∈ names then names else names ++ [p]) bs cur head := by
  have hnames : ∀ s ∈ names, LineName sz.FILENAME_SIZE s := fun s hs => (h.names_good s hs).1
  apply h.of_same _ _ _ _ (beargit_add_dir sz fs p) (fun q => beargit_add_file_of_ne sz fs p q)
  · by_cases hin : p ∈ names
    · rw [if_pos hin]
      exact (beargit_add_present sz fs p names h.index hnames hin).2
    · rw [if_neg hin]
      exact (beargit_add_absent sz fs p names h.index hnames hin).2
  · intro n hn
    by_cases hin : p ∈ names
    · rw [if_pos hin] at hn
      exact h.names_good n hn
    · rw [if_neg hin] at hn
      rcases List.mem_append.mp hn with hn | hn
      · exact h.names_good n hn
      · rw [List.mem_singleton.mp hn]; exact hp

theorem Inv.rm (h : Inv sz fs names bs cur head) (p : Str) :
    Inv sz (beargit_rm sz fs p).fs (names.filter (fun s => decide (s ≠ p))) bs cur head := by
  have hnames : ∀ s ∈ names, LineName sz.FILENAME_SIZE s := fun s hs => (h.names_good s hs).1
  apply h.of_same _ _ _ _ (beargit_rm_dir sz fs p) (fun q => beargit_rm_file_of_ne sz fs p q)
  · by_cases hin : p ∈ names
    · exact (beargit_rm_present sz fs p names h.index hnames hin).2
    · have hfil : names.filter (fun s => decide (s ≠ p)) = names := by
        rw [List.filter_eq_self]
        intro a ha
        simp only [ne_eq, decide_eq_true_eq]
        rintro rfl
        exact hin ha
      rw [hfil]
      exact (beargit_rm_absent sz fs p names h.index hnames hin).2
  · intro n hn
    exact h.names_good n (List.mem_of_mem_filter hn)

end

/-! ## `beargit_commit` keeps the repository well formed -/

/-- A commit either is rejected and changes nothing, or stores a record under
the identifier `next_commit_id` gives. -/
theorem beargit_commit_cases (sz : Sizes) (fs : FS) (msg : Str) (r : Res)
    (h : beargit_commit sz fs msg = some r) :
    (r.ret = 1 ∧ r.fs = fs) ∨
    (r.ret = 0 ∧ current_branch sz fs ≠ [] ∧ is_commit_msg_ok msg ≠ 0 ∧
      ∃ id err, next_commit_id sz fs (head_commit sz fs) = some (id, err) ∧
        r.fs = commit_result_fs sz fs msg id) := by
  by_cases hcur : current_branch sz fs = []
  · left
    have hlen : (read_string_from_file fs CURRENT_BRANCH sz.BRANCHNAME_SIZE).length = 0 := by
      change (current_branch sz fs).length = 0
      rw [hcur]; rfl
    unfold beargit_commit at h
    rw [if_pos hlen] at h
    cases h
    exact ⟨rfl, rfl⟩
  · by_cases hmsg : is_commit_msg_ok msg = 0
    · left
      have hlen : (read_string_from_file fs CURRENT_BRANCH sz.BRANCHNAME_SIZE).length ≠ 0 :=
        fun e => hcur (List.length_eq_zero.mp e)
      unfold beargit_commit at h
      rw [if_neg hlen] at h
      unfold beargit_commit_hw1 at h
      rw [if_pos hmsg] at h
      cases h
      exact ⟨rfl, rfl⟩
    · right
      cases hid : next_commit_id sz fs (head_commit sz fs) with
      | none =>
        have hlen : (read_string_from_file fs CURRENT_BRANCH sz.BRANCHNAME_SIZE).length ≠ 0 :=
          fun e => hcur (List.length_eq_zero.mp e)
        unfold beargit_commit at h
        rw [if_neg hlen] at h
        unfold beargit_commit_hw1 at h
        rw [if_neg hmsg] at h
        change next_commit_id sz fs (read_string_from_file fs PREV sz.COMMIT_ID_SIZE) = none at hid
        simp only [hid] at h
        cases h
      | some p =>
        obtain ⟨id, err⟩ := p
        rw [beargit_commit_eq_ite sz fs msg id err hcur hmsg hid] at h
        split at h
        · cases h
          exact ⟨rfl, hcur, hmsg, id, err, rfl, rfl⟩
        · cases h

/-- A commit that returns 0 has found room for the paths of its record. -/
theorem beargit_commit_fits (sz : Sizes) (fs : FS) (msg : Str) (r : Res) (id err : Str)
    (h : beargit_commit sz fs msg = some r) (hret : r.ret = 0)
    (hid : next_commit_id sz fs (head_commit sz fs) = some (id, err)) :
    id.length + 17 ≤ sz.FILENAME_SIZE ∧
      ∀ l ∈ index_lines sz fs, id.length + l.length + 11 ≤ sz.FILENAME_SIZE := by
  by_cases hcur : current_branch sz fs = []
  · have hlen : (read_string_from_file fs CURRENT_BRANCH sz.BRANCHNAME_SIZE).length = 0 := by
      change (current_branch sz fs).length = 0
      rw [hcur]; rfl
    unfold beargit_commit at h
    rw [if_pos hlen] at h
    cases h
    simp at hret
  · by_cases hmsg : is_commit_msg_ok msg = 0
    · have hlen : (read_string_from_file fs CURRENT_BRANCH sz.BRANCHNAME_SIZE).length ≠ 0 :=
        fun e => hcur (List.length_eq_zero.mp e)
      unfold beargit_commit at h
      rw [if_neg hlen] at h
      unfold beargit_commit_hw1 at h
      rw [if_pos hmsg] at h
      cases h
      simp at hret
    · rw [beargit_commit_eq_ite sz fs msg id err hcur hmsg hid] at h
      split at h
      · assumption
      · cases h

section
variable {sz : Sizes} {fs : FS} {names bs : List Str} {cur head : Str}

/-- The identifier of a commit made in a well-formed repository. -/
theorem Inv.new_commit_id (hsz : sz.ok) (h : Inv sz fs names bs cur head) (hcur : cur ≠ [])
    (id err : Str) (hid : next_commit_id sz fs (head_commit sz fs) = some (id, err)) :
    ∃ j : Nat, bs[j]? = some cur ∧
      id = branch_symbols 10 j ++ (next_commit_id_hw1 (head.drop 10)).1 ∧
      is_it_a_commit_id id ≠ 0 := by
  have hmem : cur ∈ bs := by
    rcases h.cur_mem with hc | hc
    · exact absurd hc hcur
    · exact hc
  obtain ⟨j, hj, hget⟩ := h.branch_number cur hmem
  have hlen : 10 ≤ (head_commit sz fs).length := by
    rw [h.head_commit_eq hsz, root_or_valid_length head h.head_ok.root_or_valid]
    decide
  have hcb : read_string_from_file fs CURRENT_BRANCH sz.BRANCHNAME_SIZE = cur :=
    h.current_branch_eq
  have := next_commit_id_of_registered sz fs (head_commit sz fs) j (by rw [hcb]; exact hj) hlen
  rw [this] at hid
  simp only [Option.some.injEq, Prod.mk.injEq] at hid
  rw [h.head_commit_eq hsz] at hid
  exact ⟨j, hget, hid.1.symm, hid.1 ▸ new_commit_id_valid j head h.head_ok.root_or_valid⟩

theorem Inv.commit_result (h : Inv sz fs names bs cur head) (msg id : Str)
    (hvalid : is_it_a_commit_id id ≠ 0) :
    Inv sz (commit_result_fs sz fs msg id) names bs cur id := by
  have hmono : ∀ c, fs.dir (commit_dir c) = true →
      (commit_result_fs sz fs msg id).dir (commit_dir c) = true := by
    intro c hc
    rw [commit_result_fs_dir]
    split
    · rfl
    · exact hc
  have hout : ∀ q, q ≠ PREV → (∀ n, q ≠ commit_file id n) →
      (commit_result_fs sz fs msg id).file q = fs.file q :=
    fun q h1 h2 => commit_result_fs_file_outside sz fs msg id q h1 h2
  have hnoindex : ".index".toList ∉ index_lines sz fs := by
    rw [h.index_lines_eq]
    exact fun hmem => (h.names_good _ hmem).2.2.1 rfl
  refine
    { index := by
        rw [hout _ (by decide) (fun n => (commit_file_ne_INDEX _ n).symm)]; exact h.index
      names_good := h.names_good
      registry := by
        rw [hout _ (by decide) (fun n => (commit_file_ne_BRANCHES _ n).symm)]; exact h.registry
      bs_good := h.bs_good
      bs_nodup := h.bs_nodup
      current := by
        rw [hout _ (by decide) (fun n => (commit_file_ne_CURRENT_BRANCH _ n).symm)]
        exact h.current
      cur_mem := h.cur_mem
      prev := commit_result_fs_file_PREV sz fs msg id
      head_ok := Or.inr ⟨hvalid, by rw [commit_result_fs_dir, if_pos rfl]⟩
      heads := by
        intro b hb hne
        obtain ⟨x, hx, hok⟩ := h.heads b hb hne
        refine ⟨x, ?_, hok.mono hmono⟩
        rw [hout _ (branch_file_ne_PREV _)
          (fun n => (commit_file_ne_branch_file_of_valid id n b hvalid).symm)]
        exact hx
      stored := by
        intro c hc
        by_cases hcid : c = id
        · subst hcid
          exact ⟨hvalid, names,
            commit_result_fs_file_index sz fs msg c _ h.index hnoindex, h.names_good⟩
        · rw [commit_result_fs_dir, if_neg (fun e => hcid ((commit_dir_inj _ _).mp e))] at hc
          obtain ⟨hv, ns, hns, hg⟩ := h.stored c hc
          refine ⟨hv, ns, ?_, hg⟩
          rw [hout _ (commit_file_ne_PREV _ _) (fun n e => hcid
            (((commit_file_inj c id _ n (by
              rw [((is_it_a_commit_id_ne_zero c).mp hv).1,
                ((is_it_a_commit_id_ne_zero id).mp hvalid).1])).mp e).1))]
          exact hns }

/-- The well-formedness of the repository after any `beargit_commit`. -/
theorem Inv.commit (hsz : sz.ok) (h : Inv sz fs names bs cur head) (msg : Str) (r : Res)
    (hr : beargit_commit sz fs msg = some r) :
    ∃ head2, Inv sz r.fs names bs cur head2 := by
  rcases beargit_commit_cases sz fs msg r hr with ⟨_, hfs⟩ | ⟨_, hcur, _, id, err, hid, hfs⟩
  · rw [hfs]; exact ⟨head, h⟩
  · rw [h.current_branch_eq] at hcur
    obtain ⟨j, _, _, hvalid⟩ := h.new_commit_id hsz hcur id err hid
    rw [hfs]
    exact ⟨id, h.commit_result msg id hvalid⟩

end

/-! ## `beargit_checkout_effect` keeps the repository well formed -/

section
variable {sz : Sizes} {fs : FS} {names bs : List Str} {cur head : Str}

theorem Inv.head_of_ok (h : Inv sz fs names bs cur head) (b : Str) (hb : b ∈ bs) :
    HeadOk fs (head_of fs cur head b) := by
  unfold head_of
  by_cases hc : b = cur
  · rw [if_pos hc]; exact h.head_ok
  · rw [if_neg hc]
    obtain ⟨x, hx, hok⟩ := h.heads b hb hc
    rw [hx]; exact hok

/-- After the first step of a checkout every registered branch has its head
in its head-pointer record. -/
theorem Inv.saved_heads (h : Inv sz fs names bs cur head) (b : Str) (hb : b ∈ bs) :
    (checkout_saved sz fs).file (branch_file b) = some (head_of fs cur head b) := by
  unfold checkout_saved head_of
  rw [h.current_branch_eq]
  by_cases hc : b = cur
  · subst hc
    have hne : b.length ≠ 0 := by
      have := (h.bs_good b hb).1.1
      exact fun e => this (List.length_eq_zero.mp e)
    rw [if_pos hne, if_pos rfl]
    exact fs_cp_file_dst _ _ _ _ h.prev
  · rw [if_neg hc]
    obtain ⟨x, hx, _⟩ := h.heads b hb hc
    split
    · rw [fs_cp_file_of_ne _ _ _ _ (fun e => hc ((branch_file_inj _ _).mp e)), hx]; rfl
    · rw [hx]; rfl

theorem Inv.saved (h : Inv sz fs names bs cur head) :
    Inv sz (checkout_saved sz fs) names bs cur head := by
  refine
    { index := by rw [checkout_saved_file_INDEX]; exact h.index
      names_good := h.names_good
      registry := by rw [checkout_saved_file_BRANCHES]; exact h.registry
      bs_good := h.bs_good
      bs_nodup := h.bs_nodup
      current := by rw [checkout_saved_file_CURRENT_BRANCH]; exact h.current
      cur_mem := h.cur_mem
      prev := by rw [checkout_saved_file_PREV]; exact h.prev
      head_ok := h.head_ok.mono (by simp)
      heads := by
        intro b hb _
        exact ⟨_, h.saved_heads b hb, (h.head_of_ok b hb).mono (by simp)⟩
      stored := by
        intro c hc
        rw [checkout_saved_dir] at hc
        obtain ⟨hv, ns, hns, hg⟩ := h.stored c hc
        exact ⟨hv, ns, by rw [checkout_saved_file_commit sz fs c _ hv]; exact hns, hg⟩ }

/-- Writing the current-branch marker, when every registered branch has its
head-pointer record. -/
theorem Inv.set_current (h : Inv sz fs names bs cur head) (cur2 : Str)
    (hall : ∀ b ∈ bs, ∃ x, fs.file (branch_file b) = some x ∧ HeadOk fs x)
    (hcur2 : cur2 = [] ∨ cur2 ∈ bs) :
    Inv sz (write_string_to_file fs CURRENT_BRANCH cur2) names bs cur2 head := by
  refine
    { index := by rw [write_string_to_file_file, if_neg (by decide)]; exact h.index
      names_good := h.names_good
      registry := by rw [write_string_to_file_file, if_neg (by decide)]; exact h.registry
      bs_good := h.bs_good
      bs_nodup := h.bs_nodup
      current := by rw [write_string_to_file_file, if_pos rfl]
      cur_mem := hcur2
      prev := by rw [write_string_to_file_file, if_neg (by decide)]; exact h.prev
      head_ok := h.head_ok
      heads := by
        intro b hb _
        obtain ⟨x, hx, hok⟩ := hall b hb
        exact ⟨x, by rw [write_string_to_file_file, if_neg (branch_file_ne_CURRENT_BRANCH _)]; exact hx,
          hok⟩
      stored := by
        intro c hc
        obtain ⟨hv, ns, hns, hg⟩ := h.stored c hc
        exact ⟨hv, ns, by
          rw [write_string_to_file_file, if_neg (commit_file_ne_CURRENT_BRANCH _ _)]; exact hns, hg⟩ }

/-- The effect of `checkout_commit_effect` on a well-formed repository, for a target
that is the root or a stored commit. -/
theorem Inv.after_checkout_commit (h : Inv sz fs names bs cur head) (target : Str)
    (ht : HeadOk fs target) :
    (∃ names2, Inv sz (checkout_commit_effect sz fs target).fs names2 bs cur target) ∧
    (checkout_commit_effect sz fs target).fs.file INDEX =
      (if target = ROOT_ID then some [] else fs.file (commit_file target ".index".toList)) ∧
    (∀ q, '/' ∈ q → q ≠ PREV → q ≠ INDEX → (checkout_commit_effect sz fs target).fs.file q = fs.file q) := by
  have h0 := h.names_no_slash
  -- the index stored in the target
  have hstored : target ≠ ROOT_ID → ∃ ns, fs.file (commit_file target ".index".toList) =
      some (encode_lines ns) ∧ ∀ n ∈ ns, GoodPath sz n := by
    intro hne
    rcases ht with ht | ht
    · exact absurd ht hne
    · exact (h.stored target ht.2).2
  have hci : target ≠ ROOT_ID →
      checkout_index fs target = fs.file (commit_file target ".index".toList) := by
    intro hne
    obtain ⟨ns, hns, _⟩ := hstored hne
    unfold checkout_index
    rw [hns]
  have h1 : target ≠ ROOT_ID → ∀ l ∈ read_lines sz.FILENAME_SIZE
      ((checkout_index fs target).getD []), '/' ∉ l := by
    intro hne
    obtain ⟨ns, hns, hg⟩ := hstored hne
    rw [hci hne, hns]
    simp only [Option.getD_some]
    rw [read_lines_encode _ _ (fun n hn => (hg n hn).1)]
    exact fun l hl => (hg l hl).2.1
  have hslash : ∀ q, '/' ∈ q → q ≠ PREV → q ≠ INDEX →
      (checkout_commit_effect sz fs target).fs.file q = fs.file q :=
    fun q hq hp hi => checkout_commit_effect_file_slash sz fs target q h0 h1 hq hp hi
  have hindex : (checkout_commit_effect sz fs target).fs.file INDEX =
      (if target = ROOT_ID then some [] else fs.file (commit_file target ".index".toList)) := by
    rw [checkout_commit_effect_file_INDEX sz fs target h0 h1]
    by_cases hroot : target = ROOT_ID
    · rw [if_pos hroot, if_pos hroot]
    · rw [if_neg hroot, if_neg hroot, hci hroot]
  have hinv : ∀ names2, (checkout_commit_effect sz fs target).fs.file INDEX = some (encode_lines names2) →
      (∀ n ∈ names2, GoodPath sz n) →
      Inv sz (checkout_commit_effect sz fs target).fs names2 bs cur target := by
    intro names2 hidx hgood
    refine
      { index := hidx
        names_good := hgood
        registry := by
          rw [hslash _ slash_mem_BRANCHES (by decide) (by decide)]; exact h.registry
        bs_good := h.bs_good
        bs_nodup := h.bs_nodup
        current := by
          rw [hslash _ slash_mem_CURRENT_BRANCH (by decide) (by decide)]; exact h.current
        cur_mem := h.cur_mem
        prev := checkout_commit_effect_prev sz fs target
        head_ok := ht.mono (by simp)
        heads := by
          intro b hb hne
          obtain ⟨x, hx, hok⟩ := h.heads b hb hne
          exact ⟨x, by
            rw [hslash _ (slash_mem_branch_file _) (branch_file_ne_PREV _) (branch_file_ne_INDEX _)]
            exact hx, hok.mono (by simp)⟩
        stored := by
          intro c hc
          rw [checkout_commit_effect_dir] at hc
          obtain ⟨hv, ns, hns, hg⟩ := h.stored c hc
          exact ⟨hv, ns, by
            rw [hslash _ (slash_mem_commit_file _ _) (commit_file_ne_PREV _ _)
              (commit_file_ne_INDEX _ _)]
            exact hns, hg⟩ }
  refine ⟨?_, hindex, hslash⟩
  by_cases hroot : target = ROOT_ID
  · exact ⟨[], hinv [] (by rw [hindex, if_pos hroot]; rfl) (by simp)⟩
  · obtain ⟨ns, hns, hg⟩ := hstored hroot
    exact ⟨ns, hinv ns (by rw [hindex, if_neg hroot, hns]) hg⟩

end

section
variable {sz : Sizes} {fs : FS} {names bs : List Str} {cur head : Str}

/-- Appending a new branch to the registry and giving it HEAD's commit
pointer as its head. -/
theorem Inv.register (h : Inv sz fs names bs cur head) (f : Str → Str)
    (hall : ∀ b ∈ bs, fs.file (branch_file b) = some (f b) ∧ HeadOk fs (f b))
    (arg : Str) (hg : GoodBranch sz arg) (hnew : arg ∉ bs) :
    Inv sz (fs_cp (fs.write BRANCHES (fs.read BRANCHES ++ (arg ++ "\n".toList))) PREV
      (branch_file arg)) names (bs ++ [arg]) cur head ∧
    (∀ b ∈ bs, (fs_cp (fs.write BRANCHES (fs.read BRANCHES ++ (arg ++ "\n".toList))) PREV
      (branch_file arg)).file (branch_file b) = some (f b)) ∧
    (fs_cp (fs.write BRANCHES (fs.read BRANCHES ++ (arg ++ "\n".toList))) PREV
      (branch_file arg)).file (branch_file arg) = some head := by
  have hprev : (fs.write BRANCHES (fs.read BRANCHES ++ (arg ++ "\n".toList))).file PREV =
      some head := by
    rw [write_file, if_neg (by decide)]; exact h.prev
  have hnew_file : (fs_cp (fs.write BRANCHES (fs.read BRANCHES ++ (arg ++ "\n".toList))) PREV
      (branch_file arg)).file (branch_file arg) = some head :=
    fs_cp_file_dst _ _ _ _ hprev
  have hother : ∀ q, q ≠ branch_file arg → q ≠ BRANCHES →
      (fs_cp (fs.write BRANCHES (fs.read BRANCHES ++ (arg ++ "\n".toList))) PREV
        (branch_file arg)).file q = fs.file q := by
    intro q h1 h2
    rw [fs_cp_file_of_ne _ _ _ _ h1, write_file, if_neg h2]
  have hold : ∀ b ∈ bs, (fs_cp (fs.write BRANCHES (fs.read BRANCHES ++ (arg ++ "\n".toList))) PREV
      (branch_file arg)).file (branch_file b) = some (f b) := by
    intro b hb
    rw [hother _ (fun e => hnew (((branch_file_inj _ _).mp e) ▸ hb)) (branch_file_ne_BRANCHES _)]
    exact (hall b hb).1
  have hmono : ∀ c, fs.dir (commit_dir c) = true →
      (fs_cp (fs.write BRANCHES (fs.read BRANCHES ++ (arg ++ "\n".toList))) PREV
        (branch_file arg)).dir (commit_dir c) = true := by
    intro c hc; simpa using hc
  refine ⟨?_, hold, hnew_file⟩
  refine
    { index := by
        rw [hother _ (branch_file_ne_INDEX _).symm (by decide)]; exact h.index
      names_good := h.names_good
      registry := by
        rw [fs_cp_file_of_ne _ _ _ _ (branch_file_ne_BRANCHES _).symm, write_file, if_pos rfl,
          read_of_file _ _ _ h.registry, encode_lines_append]
        simp [encode_lines]
      bs_good := by
        intro b hb
        rcases List.mem_append.mp hb with hb | hb
        · exact h.bs_good b hb
        · rw [List.mem_singleton.mp hb]; exact hg
      bs_nodup := by
        rw [List.nodup_append]
        exact ⟨h.bs_nodup, List.nodup_singleton _, by
          intro a ha hb
          rw [List.mem_singleton.mp hb] at ha
          exact hnew ha⟩
      current := by
        rw [hother _ (branch_file_ne_CURRENT_BRANCH _).symm (by decide)]; exact h.current
      cur_mem := by
        rcases h.cur_mem with hc | hc
        · exact Or.inl hc
        · exact Or.inr (List.mem_append_left _ hc)
      prev := by
        rw [hother _ (branch_file_ne_PREV _).symm (by decide)]; exact h.prev
      head_ok := h.head_ok.mono hmono
      heads := by
        intro b hb _
        rcases List.mem_append.mp hb with hb | hb
        · exact ⟨_, hold b hb, (hall b hb).2.mono hmono⟩
        · rw [List.mem_singleton.mp hb]
          exact ⟨_, hnew_file, h.head_ok.mono hmono⟩
      stored := by
        intro c hc
        have hc2 : fs.dir (commit_dir c) = true := by simpa using hc
        obtain ⟨hv, ns, hns, hgood⟩ := h.stored c hc2
        refine ⟨hv, ns, ?_, hgood⟩
        rw [hother _ (commit_file_ne_branch_file_of_valid c _ _ hv) (commit_file_ne_BRANCHES _ _)]
        exact hns }

/-- The heads of the branches after `checkout_commit_effect`. -/
theorem head_of_after_checkout_commit (h : Inv sz fs names bs cur head) (target : Str)
    (ht : HeadOk fs target) (b x : Str) (hx : fs.file (branch_file b) = some x) :
    head_of (checkout_commit_effect sz fs target).fs cur target b = if b = cur then target else x := by
  unfold head_of
  rw [(h.after_checkout_commit target ht).2.2 _ (slash_mem_branch_file _) (branch_file_ne_PREV _)
    (branch_file_ne_INDEX _), hx]
  rfl

end

/-! ## The cases of `beargit_checkout_effect` in a well-formed repository -/

section
variable {sz : Sizes} {fs : FS} {names bs : List Str} {cur head : Str}

theorem Inv.saved_all (h : Inv sz fs names bs cur head) :
    ∀ b ∈ bs, (checkout_saved sz fs).file (branch_file b) = some (head_of fs cur head b) ∧
      HeadOk (checkout_saved sz fs) (head_of fs cur head b) :=
  fun b hb => ⟨h.saved_heads b hb, (h.head_of_ok b hb).mono (by simp)⟩

theorem Inv.saved_head_of (h : Inv sz fs names bs cur head) (b : Str) (hb : b ∈ bs) :
    head_of (checkout_saved sz fs) cur head b = head_of fs cur head b := by
  have := h.saved_heads b hb
  unfold head_of at this ⊢
  by_cases hc : b = cur
  · rw [if_pos hc, if_pos hc]
  · rw [if_neg hc] at this ⊢
    rw [this, if_neg hc]; rfl

theorem Inv.mem_bs_ne_nil (h : Inv sz fs names bs cur head) (b : Str) (hb : b ∈ bs) : b ≠ [] :=
  (h.bs_good b hb).1.1

/-- Checkout of a stored commit by its identifier. -/
theorem Inv.checkout_id (h : Inv sz fs names bs cur head) (arg : Str) (nb : Int)
    (harg : is_it_a_commit_id arg ≠ 0) (hdir : fs.dir (commit_dir arg) = true) :
    (∃ names2, Inv sz (beargit_checkout_effect sz fs arg nb).fs names2 bs [] arg) ∧
    (∀ b ∈ bs, head_of (beargit_checkout_effect sz fs arg nb).fs [] arg b = head_of fs cur head b) ∧
    (beargit_checkout_effect sz fs arg nb).fs.dir = fs.dir := by
  rw [beargit_checkout_effect_id_stored sz fs arg nb harg hdir]
  have hT : Inv sz (write_string_to_file (checkout_saved sz fs) CURRENT_BRANCH []) names bs [] head :=
    h.saved.set_current [] (fun b hb => ⟨_, h.saved_all b hb⟩) (Or.inl rfl)
  have ht : HeadOk (write_string_to_file (checkout_saved sz fs) CURRENT_BRANCH []) arg :=
    Or.inr ⟨harg, by simpa using hdir⟩
  refine ⟨(hT.after_checkout_commit arg ht).1, ?_, by simp⟩
  intro b hb
  rw [head_of_after_checkout_commit hT arg ht b (head_of fs cur head b) (by
    rw [write_string_to_file_file, if_neg (branch_file_ne_CURRENT_BRANCH _)]
    exact h.saved_heads b hb), if_neg (h.mem_bs_ne_nil b hb)]

/-- Checkout of a registered branch. -/
theorem Inv.checkout_branch (hsz : sz.ok) (h : Inv sz fs names bs cur head) (b : Str)
    (hb : b ∈ bs) :
    (beargit_checkout_effect sz fs b 0).ret = 0 ∧
    (∃ names2, Inv sz (beargit_checkout_effect sz fs b 0).fs names2 bs b (head_of fs cur head b)) ∧
    (∀ b2 ∈ bs, head_of (beargit_checkout_effect sz fs b 0).fs b (head_of fs cur head b) b2 =
      head_of fs cur head b2) ∧
    (beargit_checkout_effect sz fs b 0).fs.file INDEX =
      (if head_of fs cur head b = ROOT_ID then some []
       else (beargit_checkout_effect sz fs b 0).fs.file
        (commit_file (head_of fs cur head b) ".index".toList)) ∧
    (beargit_checkout_effect sz fs b 0).fs.dir = fs.dir := by
  have hnotid : is_it_a_commit_id b = 0 := (h.bs_good b hb).2.2.2
  have hreg : 0 ≤ get_branch_number sz fs b :=
    (get_branch_number_nonneg_iff sz fs b).mpr (h.registry_lines_eq ▸ hb)
  have hTeq : checkout_target sz fs b 0 =
      write_string_to_file (checkout_saved sz fs) CURRENT_BRANCH b := by
    unfold checkout_target
    rw [if_neg (by simp)]
  have hT : Inv sz (checkout_target sz fs b 0) names bs b head := by
    rw [hTeq]
    exact h.saved.set_current b (fun b2 hb2 => ⟨_, h.saved_all b2 hb2⟩) (Or.inr hb)
  have hfile : ∀ b2 ∈ bs, (checkout_target sz fs b 0).file (branch_file b2) =
      some (head_of fs cur head b2) := by
    intro b2 hb2
    rw [hTeq, write_string_to_file_file, if_neg (branch_file_ne_CURRENT_BRANCH _)]
    exact h.saved_heads b2 hb2
  have ht : HeadOk (checkout_target sz fs b 0) (head_of fs cur head b) :=
    (h.head_of_ok b hb).mono (by simp)
  have hread : read_string_from_file (checkout_target sz fs b 0) (branch_file b)
      sz.COMMIT_ID_SIZE = head_of fs cur head b :=
    read_head_whole sz hsz _ _ _ (hfile b hb) ht.root_or_valid
  rw [beargit_checkout_effect_branch_eq sz fs b 0 hnotid (Or.inr ⟨rfl, hreg⟩), hread]
  obtain ⟨hinv, hindex, hslash⟩ := hT.after_checkout_commit _ ht
  refine ⟨rfl, hinv, ?_, ?_, by simp⟩
  · intro b2 hb2
    rw [head_of_after_checkout_commit hT _ ht b2 _ (hfile b2 hb2)]
    by_cases hc : b2 = b
    · rw [if_pos hc, hc]
    · rw [if_neg hc]
  · rw [hindex, hslash _ (slash_mem_commit_file _ _) (commit_file_ne_PREV _ _)
      (commit_file_ne_INDEX _ _)]

/-- Checkout that creates a branch. -/
theorem Inv.checkout_new (h : Inv sz fs names bs cur head) (arg : Str) (nb : Int)
    (hnb : nb ≠ 0) (hg : GoodBranch sz arg) (hnew : arg ∉ bs) (hsz : sz.ok) :
    (∃ names2, Inv sz (beargit_checkout_effect sz fs arg nb).fs names2 (bs ++ [arg]) arg head) ∧
    (∀ b ∈ bs, head_of (beargit_checkout_effect sz fs arg nb).fs arg head b = head_of fs cur head b) ∧
    (beargit_checkout_effect sz fs arg nb).fs.dir = fs.dir := by
  have hreg : get_branch_number sz fs arg < 0 := by
    by_contra hcon
    exact hnew (h.registry_lines_eq ▸ (get_branch_number_nonneg_iff sz fs arg).mp (by omega))
  have hTeq : checkout_target sz fs arg nb =
      write_string_to_file (fs_cp ((checkout_saved sz fs).write BRANCHES
        ((checkout_saved sz fs).read BRANCHES ++ (arg ++ "\n".toList))) PREV (branch_file arg))
        CURRENT_BRANCH arg := by
    unfold checkout_target
    rw [if_pos hnb]
  obtain ⟨hR, hold, hnewfile⟩ := h.saved.register (head_of fs cur head) h.saved_all arg hg hnew
  have hT : Inv sz (checkout_target sz fs arg nb) names (bs ++ [arg]) arg head := by
    rw [hTeq]
    apply hR.set_current arg _ (Or.inr (by simp))
    intro b hb
    rcases List.mem_append.mp hb with hb | hb
    · exact ⟨_, hold b hb, (h.head_of_ok b hb).mono (by simp)⟩
    · rw [List.mem_singleton.mp hb]
      exact ⟨_, hnewfile, h.head_ok.mono (by simp)⟩
  have ht : HeadOk (checkout_target sz fs arg nb) head := hT.head_ok
  have hread : read_string_from_file (checkout_target sz fs arg nb) (branch_file arg)
      sz.COMMIT_ID_SIZE = head := by
    apply read_head_whole sz hsz _ _ _ _ ht.root_or_valid
    rw [hTeq, write_string_to_file_file, if_neg (branch_file_ne_CURRENT_BRANCH _)]
    exact hnewfile
  rw [beargit_checkout_effect_branch_eq sz fs arg nb hg.2.2.2 (Or.inl ⟨hnb, hreg⟩), hread]
  refine ⟨(hT.after_checkout_commit head ht).1, ?_, by simp⟩
  intro b hb
  rw [head_of_after_checkout_commit hT head ht b (head_of fs cur head b) (by
    rw [hTeq, write_string_to_file_file, if_neg (branch_file_ne_CURRENT_BRANCH _)]
    exact hold b hb), if_neg (fun (e : b = arg) => hnew (e ▸ hb))]

/-- Any checkout of an identifier or of a plain branch name keeps the
repository well formed, keeps the directories, extends the registry at most
by the new branch, and keeps the head of every registered branch. -/
theorem Inv.checkout (hsz : sz.ok) (h : Inv sz fs names bs cur head) (arg : Str) (nb : Int)
    (harg : is_it_a_commit_id arg ≠ 0 ∨ GoodBranch sz arg) :
    ∃ names2 bs2 cur2 head2, Inv sz (beargit_checkout_effect sz fs arg nb).fs names2 bs2 cur2 head2 ∧
      (beargit_checkout_effect sz fs arg nb).fs.dir = fs.dir ∧
      (bs2 = bs ∨ (bs2 = bs ++ [arg] ∧ cur2 = arg ∧ head2 = head)) ∧
      (∀ b ∈ bs, head_of (beargit_checkout_effect sz fs arg nb).fs cur2 head2 b =
        head_of fs cur head b) := by
  have hsaved : ∀ r : Res, beargit_checkout_effect sz fs arg nb = r → r.fs = checkout_saved sz fs →
      ∃ names2 bs2 cur2 head2, Inv sz (beargit_checkout_effect sz fs arg nb).fs names2 bs2 cur2 head2 ∧
        (beargit_checkout_effect sz fs arg nb).fs.dir = fs.dir ∧
        (bs2 = bs ∨ (bs2 = bs ++ [arg] ∧ cur2 = arg ∧ head2 = head)) ∧
        (∀ b ∈ bs, head_of (beargit_checkout_effect sz fs arg nb).fs cur2 head2 b =
          head_of fs cur head b) := by
    intro r hr hfs
    rw [hr, hfs]
    exact ⟨names, bs, cur, head, h.saved, by simp, Or.inl rfl, h.saved_head_of⟩
  by_cases hid : is_it_a_commit_id arg ≠ 0
  · by_cases hdir : fs.dir (commit_dir arg) = true
    · obtain ⟨⟨names2, hinv⟩, hheads, hd⟩ := h.checkout_id arg nb hid hdir
      exact ⟨names2, bs, [], arg, hinv, hd, Or.inl rfl, hheads⟩
    · exact hsaved _ (beargit_checkout_effect_id_missing sz fs arg nb hid (by simpa using hdir)) rfl
  · have hnotid : is_it_a_commit_id arg = 0 := not_not.mp hid
    have hg : GoodBranch sz arg := by
      rcases harg with harg | harg
      · exact absurd harg hid
      · exact harg
    by_cases hmem : arg ∈ bs
    · have hreg : 0 ≤ get_branch_number sz fs arg :=
        (get_branch_number_nonneg_iff sz fs arg).mpr (h.registry_lines_eq ▸ hmem)
      by_cases hnb : nb = 0
      · subst hnb
        obtain ⟨_, ⟨names2, hinv⟩, hheads, _, hd⟩ := h.checkout_branch hsz arg hmem
        exact ⟨names2, bs, arg, _, hinv, hd, Or.inl rfl, hheads⟩
      · exact hsaved _ (beargit_checkout_effect_branch_exists sz fs arg nb hnotid hnb hreg) rfl
    · have hreg : get_branch_number sz fs arg < 0 := by
        by_contra hcon
        exact hmem (h.registry_lines_eq ▸ (get_branch_number_nonneg_iff sz fs arg).mp (by omega))
      by_cases hnb : nb = 0
      · exact hsaved _ (beargit_checkout_effect_branch_missing sz fs arg nb hnotid hnb hreg) rfl
      · obtain ⟨⟨names2, hinv⟩, hheads, hd⟩ := h.checkout_new arg nb hnb hg hmem hsz
        exact ⟨names2, bs ++ [arg], arg, head, hinv, hd, Or.inr ⟨rfl, rfl, rfl⟩, hheads⟩

end

section
variable {sz : Sizes} {fs : FS} {names bs : List Str} {cur head : Str}

/-- In a well-formed repository `checkout_commit` of the root or of a stored
commit overflows no buffer. -/
theorem Inv.checkout_commit_defined (hsz : sz.ok) (h : Inv sz fs names bs cur head)
    (target : Str) (ht : HeadOk fs target) :
    checkout_commit sz fs target = some (checkout_commit_effect sz fs target) := by
  apply checkout_commit_of_short sz hsz fs target (root_or_valid_length target ht.root_or_valid)
    h.names_no_slash
  intro hroot l hl
  rcases ht with ht | ht
  · exact absurd ht hroot
  · obtain ⟨_, ns, hns, hg⟩ := h.stored target ht.2
    unfold checkout_index at hl
    rw [hns] at hl
    simp only [Option.getD_some] at hl
    rw [read_lines_encode _ _ (fun n hn => (hg n hn).1)] at hl
    exact (hg l hl).2.2.2.1

/-- In a well-formed repository a checkout of an identifier or of a plain
branch name overflows no buffer: `beargit_checkout` returns, with the result
`beargit_checkout_effect`. -/
theorem Inv.checkout_defined (hsz : sz.ok) (h : Inv sz fs names bs cur head) (arg : Str)
    (nb : Int) (harg : is_it_a_commit_id arg ≠ 0 ∨ GoodBranch sz arg) :
    beargit_checkout sz fs arg nb = some (beargit_checkout_effect sz fs arg nb) := by
  have h57 := hsz.1
  by_cases hid : is_it_a_commit_id arg ≠ 0
  · by_cases hdir : fs.dir (commit_dir arg) = true
    · rw [beargit_checkout_id_stored sz fs arg nb hid hdir (by omega),
        beargit_checkout_effect_id_stored sz fs arg nb hid hdir]
      have hT : Inv sz (write_string_to_file (checkout_saved sz fs) CURRENT_BRANCH []) names bs []
          head :=
        h.saved.set_current [] (fun b hb => ⟨_, h.saved_all b hb⟩) (Or.inl rfl)
      have ht : HeadOk (write_string_to_file (checkout_saved sz fs) CURRENT_BRANCH []) arg :=
        Or.inr ⟨hid, by simpa using hdir⟩
      exact hT.checkout_commit_defined hsz arg ht
    · rw [beargit_checkout_id_missing sz fs arg nb hid (by simpa using hdir) (by omega),
        beargit_checkout_effect_id_missing sz fs arg nb hid (by simpa using hdir)]
  · have hnotid : is_it_a_commit_id arg = 0 := not_not.mp hid
    have hg : GoodBranch sz arg := by
      rcases harg with harg | harg
      · exact absurd harg hid
      · exact harg
    have hfit : arg.length + 18 ≤ sz.BRANCHNAME_SIZE + 50 := by
      have := hg.2.2.1
      omega
    by_cases hmem : arg ∈ bs
    · have hreg : 0 ≤ get_branch_number sz fs arg :=
        (get_branch_number_nonneg_iff sz fs arg).mpr (h.registry_lines_eq ▸ hmem)
      by_cases hnb : nb = 0
      · subst hnb
        have hTeq : checkout_target sz fs arg 0 =
            write_string_to_file (checkout_saved sz fs) CURRENT_BRANCH arg := by
          unfold checkout_target
          rw [if_neg (by simp)]
        have hT : Inv sz (checkout_target sz fs arg 0) names bs arg head := by
          rw [hTeq]
          exact h.saved.set_current arg (fun b2 hb2 => ⟨_, h.saved_all b2 hb2⟩) (Or.inr hmem)
        have hfile : (checkout_target sz fs arg 0).file (branch_file arg) =
            some (head_of fs cur head arg) := by
          rw [hTeq, write_string_to_file_file, if_neg (branch_file_ne_CURRENT_BRANCH _)]
          exact h.saved_heads arg hmem
        have ht : HeadOk (checkout_target sz fs arg 0) (head_of fs cur head arg) :=
          (h.head_of_ok arg hmem).mono (by simp)
        have hread : read_string_from_file (checkout_target sz fs arg 0) (branch_file arg)
            sz.COMMIT_ID_SIZE = head_of fs cur head arg :=
          read_head_whole sz hsz _ _ _ hfile ht.root_or_valid
        rw [beargit_checkout_branch_eq sz fs arg 0 hnotid (Or.inr ⟨rfl, hreg⟩) hfit,
          beargit_checkout_effect_branch_eq sz fs arg 0 hnotid (Or.inr ⟨rfl, hreg⟩), hread]
        exact hT.checkout_commit_defined hsz _ ht
      · rw [beargit_checkout_branch_exists sz fs arg nb hnotid hnb hreg,
          beargit_checkout_effect_branch_exists sz fs arg nb hnotid hnb hreg]
    · have hreg : get_branch_number sz fs arg < 0 := by
        by_contra hcon
        exact hmem (h.registry_lines_eq ▸ (get_branch_number_nonneg_iff sz fs arg).mp (by omega))
      by_cases hnb : nb = 0
      · rw [beargit_checkout_branch_missing sz fs arg nb hnotid hnb hreg,
          beargit_checkout_effect_branch_missing sz fs arg nb hnotid hnb hreg]
      · have hTeq : checkout_target sz fs arg nb =
            write_string_to_file (fs_cp ((checkout_saved sz fs).write BRANCHES
              ((checkout_saved sz fs).read BRANCHES ++ (arg ++ "\n".toList))) PREV
              (branch_file arg)) CURRENT_BRANCH arg := by
          unfold checkout_target
          rw [if_pos hnb]
        obtain ⟨hR, hold, hnewfile⟩ :=
          h.saved.register (head_of fs cur head) h.saved_all arg hg hmem
        have hT : Inv sz (checkout_target sz fs arg nb) names (bs ++ [arg]) arg head := by
          rw [hTeq]
          apply hR.set_current arg _ (Or.inr (by simp))
          intro b hb
          rcases List.mem_append.mp hb with hb | hb
          · exact ⟨_, hold b hb, (h.head_of_ok b hb).mono (by simp)⟩
          · rw [List.mem_singleton.mp hb]
            exact ⟨_, hnewfile, h.head_ok.mono (by simp)⟩
        have ht : HeadOk (checkout_target sz fs arg nb) head := hT.head_ok
        have hread : read_string_from_file (checkout_target sz fs arg nb) (branch_file arg)
            sz.COMMIT_ID_SIZE = head := by
          apply read_head_whole sz hsz _ _ _ _ ht.root_or_valid
          rw [hTeq, write_string_to_file_file, if_neg (branch_file_ne_CURRENT_BRANCH _)]
          exact hnewfile
        rw [beargit_checkout_branch_eq sz fs arg nb hg.2.2.2 (Or.inl ⟨hnb, hreg⟩) hfit,
          beargit_checkout_effect_branch_eq sz fs arg nb hg.2.2.2 (Or.inl ⟨hnb, hreg⟩), hread]
        exact hT.checkout_commit_defined hsz _ ht

/-- In a well-formed repository a commit on a branch, with an accepted
message, overflows no buffer: `beargit_commit` returns 0. -/
theorem Inv.commit_defined (hsz : sz.ok) (h : Inv sz fs names bs cur head) (msg : Str)
    (hcur : cur ≠ []) (hmsg : is_commit_msg_ok msg ≠ 0) :
    ∃ r, beargit_commit sz fs msg = some r ∧ r.ret = 0 := by
  have hmem : cur ∈ bs := by
    rcases h.cur_mem with hc | hc
    · exact absurd hc hcur
    · exact hc
  obtain ⟨j, hj, _⟩ := h.branch_number cur hmem
  have hlen40 := root_or_valid_length head h.head_ok.root_or_valid
  have hcb : read_string_from_file fs CURRENT_BRANCH sz.BRANCHNAME_SIZE = cur :=
    h.current_branch_eq
  have hhc : read_string_from_file fs PREV sz.COMMIT_ID_SIZE = head := h.head_commit_eq hsz
  have hid := next_commit_id_of_registered sz fs head j (by rw [hcb]; exact hj)
    (by rw [hlen40]; decide)
  have hidlen := next_commit_id_length sz fs _ _ _ hid
  have h57 := hsz.1
  refine ⟨_, beargit_commit_eq sz fs msg _ _ (by rw [hcb]; exact hcur) hmsg
    (by rw [hhc]; exact hid) (by rw [hidlen, hlen40]; omega) ?_, rfl⟩
  intro l hl
  rw [h.index_lines_eq] at hl
  have := (h.names_good l hl).2.2.2.1
  rw [hidlen, hlen40]
  omega

end

/-- Every reachable state is a well-formed repository. -/
theorem Reach.inv {sz : Sizes} (hsz : sz.ok) {guard : FS → Prop} {fs : FS}
    (h : Reach sz guard fs) : ∃ names bs cur head, Inv sz fs names bs cur head := by
  induction h with
  | init fs0 h0 => exact ⟨_, _, _, _, Inv.init sz hsz fs0 h0⟩
  | add fs p _ hp ih =>
    obtain ⟨names, bs, cur, head, hinv⟩ := ih
    exact ⟨_, _, _, _, hinv.add p hp⟩
  | rm fs p _ ih =>
    obtain ⟨names, bs, cur, head, hinv⟩ := ih
    exact ⟨_, _, _, _, hinv.rm p⟩
  | commit fs msg r _ _ hr ih =>
    obtain ⟨names, bs, cur, head, hinv⟩ := ih
    obtain ⟨head2, hinv2⟩ := hinv.commit hsz msg r hr
    exact ⟨_, _, _, _, hinv2⟩
  | checkout fs arg nb r _ harg hr ih =>
    rw [beargit_checkout_eq_some sz fs arg nb r hr]
    obtain ⟨names, bs, cur, head, hinv⟩ := ih
    obtain ⟨names2, bs2, cur2, head2, hinv2, _⟩ := hinv.checkout hsz arg nb harg
    exact ⟨_, _, _, _, hinv2⟩

/-! ## Leaving a branch and returning to it -/

section
variable {sz : Sizes} {fs : FS} {names bs : List Str} {cur head : Str}

/-- A commit leaves the head-pointer records of the branches as they are. -/
theorem Inv.commit_branch_file (hsz : sz.ok) (h : Inv sz fs names bs cur head) (msg : Str)
    (r : Res) (hr : beargit_commit sz fs msg = some r) (b : Str) :
    r.fs.file (branch_file b) = fs.file (branch_file b) := by
  rcases beargit_commit_cases sz fs msg r hr with ⟨_, hfs⟩ | ⟨_, hcur, _, id, err, hid, hfs⟩
  · rw [hfs]
  · rw [h.current_branch_eq] at hcur
    obtain ⟨j, _, _, hvalid⟩ := h.new_commit_id hsz hcur id err hid
    rw [hfs]
    exact commit_result_fs_file_outside sz fs msg id _ (branch_file_ne_PREV _)
      (fun n => (commit_file_ne_branch_file_of_valid id n b hvalid).symm)

end

/-- After any number of commits the repository is well formed, the registry
and the current branch are the same, and so is every head-pointer record. -/
theorem CommitsOn.keeps_inv {sz : Sizes} (hsz : sz.ok) {fs fs2 : FS} (hc : CommitsOn sz fs fs2)
    {names bs : List Str} {cur head : Str} (h : Inv sz fs names bs cur head) :
    (∃ head2, Inv sz fs2 names bs cur head2) ∧
    ∀ b, fs2.file (branch_file b) = fs.file (branch_file b) := by
  induction hc with
  | refl => exact ⟨⟨head, h⟩, fun _ => rfl⟩
  | step fs2 msg r _ hr _ ih =>
    obtain ⟨⟨head2, hinv2⟩, hfiles⟩ := ih
    exact ⟨hinv2.commit hsz msg r hr,
      fun b => (hinv2.commit_branch_file hsz msg r hr b).trans (hfiles b)⟩

/-- C8, as amended: with sizes that hold the paths of the control files of a
commit record, in every state reachable from `beargit_init` (run in a
directory without commit directories) by `beargit_add` of plain file names,
`beargit_rm`, `beargit_commit` and `beargit_checkout` of identifiers and plain
branch names, attached to a branch `a` with HEAD's commit pointer `x`, for
every other registered branch `b`: `beargit_checkout(b)` returns 0, and after
any number of successful commits that follow it, `beargit_checkout(a)` returns
0 and ends attached to `a` with HEAD's commit pointer equal to `x` and the
staging index equal to the index stored in `x` (empty if `x` is the root
identifier). -/
theorem checkout_away_and_back (sz : Sizes) (hsz : sz.ok) (s : FS)
    (hreach : Reach sz (fun _ => True) s) (a b x : Str)
    (ha : current_branch sz s = a) (hane : a ≠ []) (hx : head_commit sz s = x)
    (hb : b ∈ registry_lines sz s) (hab : b ≠ a) :
    ∃ r1, beargit_checkout sz s b 0 = some r1 ∧ r1.ret = 0 ∧
      ∀ s2, CommitsOn sz r1.fs s2 →
        ∃ r3, beargit_checkout sz s2 a 0 = some r3 ∧ r3.ret = 0 ∧
          current_branch sz r3.fs = a ∧
          head_commit sz r3.fs = x ∧
          ∃ index, r3.fs.file INDEX = some index ∧
            (if x = ROOT_ID then index = []
             else r3.fs.file (commit_file x ".index".toList) = some index) := by
  obtain ⟨names, bs, cur, head, hinv⟩ := hreach.inv hsz
  have hcur : cur = a := hinv.current_branch_eq.symm.trans ha
  have hhead : head = x := (hinv.head_commit_eq hsz).symm.trans hx
  subst hcur hhead
  have hbmem : b ∈ bs := hinv.registry_lines_eq ▸ hb
  have hamem : cur ∈ bs := by
    rcases hinv.cur_mem with h | h
    · exact absurd h hane
    · exact h
  -- leaving the branch
  obtain ⟨hret1, ⟨names1, hinv1⟩, hheads1, _, _⟩ := hinv.checkout_branch hsz b hbmem
  have hrec1 : (beargit_checkout_effect sz s b 0).fs.file (branch_file cur) = some head := by
    obtain ⟨y, hy, _⟩ := hinv1.heads cur hamem (fun e => hab e.symm)
    have := hheads1 cur hamem
    unfold head_of at this
    rw [if_neg (fun e => hab e.symm), if_pos rfl, hy] at this
    rw [hy]
    exact congrArg some this
  refine ⟨_, hinv.checkout_defined hsz b 0 (Or.inr (hinv.bs_good b hbmem)), hret1, ?_⟩
  intro s2 hcommits
  -- the commits on the other branch
  obtain ⟨⟨head2, hinv2⟩, hfiles2⟩ := hcommits.keeps_inv hsz hinv1
  have hrec2 : s2.file (branch_file cur) = some head := (hfiles2 cur).trans hrec1
  have hhead2 : head_of s2 b head2 cur = head := by
    unfold head_of
    rw [if_neg (fun e => hab e.symm), hrec2]
    rfl
  -- returning
  obtain ⟨hret3, ⟨names3, hinv3⟩, _, hindex3, _⟩ := hinv2.checkout_branch hsz cur hamem
  rw [hhead2] at hinv3 hindex3
  refine ⟨_, hinv2.checkout_defined hsz cur 0 (Or.inr (hinv2.bs_good cur hamem)), hret3,
    hinv3.current_branch_eq, hinv3.head_commit_eq hsz, _, hinv3.index, ?_⟩
  by_cases hroot : head = ROOT_ID
  · rw [if_pos hroot]
    rw [if_pos hroot, hinv3.index] at hindex3
    exact Option.some.inj hindex3
  · rw [if_neg hroot]
    rw [if_neg hroot, hinv3.index] at hindex3
    exact hindex3.symm

/-! ## The order of the identifiers of a branch -/

theorem next_commit_id_hw1_value (s : Str) (hsym : ∀ c ∈ s, IsCommitSymbol c)
    (hnot : ¬ ∀ c ∈ s, c = 'c') :
    suffix_value (next_commit_id_hw1 s).1 = suffix_value s + 1 := by
  induction s with
  | nil => exact absurd (by simp) hnot
  | cons c rest ih =>
    have hrest : ∀ x ∈ rest, IsCommitSymbol x := fun x hx => hsym x (List.mem_cons_of_mem _ hx)
    rcases hsym c (by simp) with hc | hc | hc
    · subst hc
      simp [next_commit_id_hw1, suffix_value, symbol_value]
      omega
    · subst hc
      simp [next_commit_id_hw1, suffix_value, symbol_value]
      omega
    · subst hc
      have hnot2 : ¬ ∀ x ∈ rest, x = 'c' := by
        intro hall
        apply hnot
        intro x hx
        rcases List.mem_cons.mp hx with rfl | hx
        · rfl
        · exact hall x hx
      have := ih hrest hnot2
      simp only [next_commit_id_hw1, suffix_value, symbol_value, this]
      simp
      omega

theorem next_commit_id_hw1_zeros_value (s : Str) (h : ∀ c ∈ s, c = '0') :
    suffix_value (next_commit_id_hw1 s).1 = 0 := by
  induction s with
  | nil => rfl
  | cons c rest ih =>
    have hc : c = '0' := h c (by simp)
    have hrest : ∀ x ∈ rest, x = '0' := fun x hx => h x (List.mem_cons_of_mem _ hx)
    subst hc
    simp [next_commit_id_hw1, suffix_value, symbol_value, ih hrest]

theorem trit_symbol_inj (a b : Nat) (ha : a < 3) (hb : b < 3)
    (h : trit_symbol a = trit_symbol b) : a = b := by
  interval_cases a <;> interval_cases b <;> first | rfl | (exact absurd h (by decide))

theorem branch_symbols_mod (k : Nat) :
    ∀ n m, branch_symbols k n = branch_symbols k m → n % 3 ^ k = m % 3 ^ k := by
  induction k with
  | zero => intro n m _; simp [Nat.mod_one]
  | succ k ih =>
    intro n m h
    simp only [branch_symbols, List.cons.injEq] at h
    have h1 := trit_symbol_inj _ _ (Nat.mod_lt n (by decide)) (Nat.mod_lt m (by decide)) h.1
    have h2 := ih _ _ h.2
    rw [pow_succ', Nat.mod_mul, Nat.mod_mul, h1, h2]

theorem branch_symbols_inj (n m : Nat) (hn : n < 3 ^ 10) (hm : m < 3 ^ 10)
    (h : branch_symbols 10 n = branch_symbols 10 m) : n = m := by
  have := branch_symbols_mod 10 n m h
  rwa [Nat.mod_eq_of_lt hn, Nat.mod_eq_of_lt hm] at this

/-- The identifier of a new commit is one step after HEAD's commit pointer. -/
theorem new_commit_id_rank (j : Nat) (head : Str)
    (hhead : head = ROOT_ID ∨ is_it_a_commit_id head ≠ 0)
    (hnot : ¬ ∀ c ∈ head.drop 10, c = 'c') :
    commit_rank (branch_symbols 10 j ++ (next_commit_id_hw1 (head.drop 10)).1) =
      commit_rank head + 1 := by
  have hvalid := new_commit_id_valid j head hhead
  have hdrop : (branch_symbols 10 j ++ (next_commit_id_hw1 (head.drop 10)).1).drop 10 =
      (next_commit_id_hw1 (head.drop 10)).1 := by
    rw [List.drop_append_of_le_length (by rw [branch_symbols_length])]
    simp [branch_symbols_length]
  unfold commit_rank
  rw [if_neg (valid_id_ne_root _ hvalid)]
  simp only [COMMIT_ID_BRANCH_BYTES]
  rw [hdrop]
  rcases hhead with rfl | hv
  · rw [if_pos rfl, next_commit_id_hw1_zeros_value _ (by decide)]
  · rw [if_neg (valid_id_ne_root _ hv), next_commit_id_hw1_value _
      (fun x hx => ((is_it_a_commit_id_ne_zero _).mp hv).2 x (List.mem_of_mem_drop hx)) hnot]

theorem new_commit_id_take (j : Nat) (suffix : Str) :
    (branch_symbols 10 j ++ suffix).take COMMIT_ID_BRANCH_BYTES = branch_symbols 10 j := by
  simp only [COMMIT_ID_BRANCH_BYTES]
  rw [List.take_append_of_le_length (by rw [branch_symbols_length])]
  exact List.take_of_length_le (by rw [branch_symbols_length])

/-! ## A commit never takes the identifier of a stored commit -/

section
variable {sz : Sizes} {fs : FS} {names bs : List Str} {cur head : Str}

theorem Ranked.transfer (hr : Ranked fs bs cur head) (fs2 : FS) (bs2 : List Str)
    (cur2 head2 : Str) (hdir : fs2.dir = fs.dir)
    (hbs : ∀ (j : Nat) (b : Str), bs[j]? = some b → bs2[j]? = some b)
    (hheads : ∀ b ∈ bs, head_of fs2 cur2 head2 b = head_of fs cur head b) :
    Ranked fs2 bs2 cur2 head2 := by
  intro c hc
  rw [hdir] at hc
  obtain ⟨j, b, hj, htake, hrank⟩ := hr c hc
  refine ⟨j, b, hbs j b hj, htake, ?_⟩
  rw [hheads b (List.getElem?_mem hj)]
  exact hrank

theorem Ranked.after_add (hr : Ranked fs bs cur head) (p : Str) :
    Ranked (beargit_add sz fs p).fs bs cur head := by
  apply hr.transfer _ _ _ _ (beargit_add_dir sz fs p) (fun _ _ h => h)
  intro b _
  unfold head_of
  rw [beargit_add_file_of_ne sz fs p _ (branch_file_ne_INDEX _) (branch_file_ne_NEWINDEX _)]

theorem Ranked.after_rm (hr : Ranked fs bs cur head) (p : Str) :
    Ranked (beargit_rm sz fs p).fs bs cur head := by
  apply hr.transfer _ _ _ _ (beargit_rm_dir sz fs p) (fun _ _ h => h)
  intro b _
  unfold head_of
  rw [beargit_rm_file_of_ne sz fs p _ (branch_file_ne_INDEX _) (branch_file_ne_NEWINDEX _)]

/-- A commit made from a suffix that is not maximal keeps the order. -/
theorem Ranked.after_commit_result (hsz : sz.ok) (h : Inv sz fs names bs cur head)
    (hr : Ranked fs bs cur head) (hnot : SuffixNotMax sz fs) (msg id err : Str)
    (hcur : cur ≠ []) (hid : next_commit_id sz fs (head_commit sz fs) = some (id, err)) :
    Ranked (commit_result_fs sz fs msg id) bs cur id := by
  obtain ⟨j, hj, hideq, hvalid⟩ := h.new_commit_id hsz hcur id err hid
  have hnot2 : ¬ ∀ c ∈ head.drop 10, c = 'c' := by
    unfold SuffixNotMax at hnot
    rw [h.head_commit_eq hsz] at hnot
    exact hnot
  have hrank : commit_rank id = commit_rank head + 1 := by
    rw [hideq]
    exact new_commit_id_rank j head h.head_ok.root_or_valid hnot2
  have hheads : ∀ b, head_of (commit_result_fs sz fs msg id) cur id b =
      if b = cur then id else head_of fs cur head b := by
    intro b
    unfold head_of
    by_cases hb : b = cur
    · rw [if_pos hb, if_pos hb]
    · rw [if_neg hb, if_neg hb, if_neg hb,
        commit_result_fs_file_outside sz fs msg id _ (branch_file_ne_PREV _)
          (fun n => (commit_file_ne_branch_file_of_valid id n b hvalid).symm)]
  intro c hc
  by_cases hcid : c = id
  · refine ⟨j, cur, hj, ?_, ?_⟩
    · rw [hcid, hideq]
      exact new_commit_id_take j _
    · rw [hheads, if_pos rfl, hcid]
  · rw [commit_result_fs_dir, if_neg (fun e => hcid ((commit_dir_inj _ _).mp e))] at hc
    obtain ⟨j2, b2, hj2, htake, hle⟩ := hr c hc
    refine ⟨j2, b2, hj2, htake, ?_⟩
    rw [hheads]
    by_cases hb : b2 = cur
    · rw [if_pos hb]
      rw [hb] at hle
      unfold head_of at hle
      rw [if_pos rfl] at hle
      omega
    · rw [if_neg hb]
      exact hle

theorem Ranked.after_commit (hsz : sz.ok) (h : Inv sz fs names bs cur head)
    (hr : Ranked fs bs cur head) (hnot : SuffixNotMax sz fs) (msg : Str) (r : Res)
    (hres : beargit_commit sz fs msg = some r) :
    ∃ head2, Inv sz r.fs names bs cur head2 ∧ Ranked r.fs bs cur head2 := by
  rcases beargit_commit_cases sz fs msg r hres with ⟨_, hfs⟩ | ⟨_, hcur, _, id, err, hid, hfs⟩
  · rw [hfs]; exact ⟨head, h, hr⟩
  · rw [h.current_branch_eq] at hcur
    obtain ⟨j, _, _, hvalid⟩ := h.new_commit_id hsz hcur id err hid
    rw [hfs]
    exact ⟨id, h.commit_result msg id hvalid,
      Ranked.after_commit_result hsz h hr hnot msg id err hcur hid⟩

theorem Ranked.after_checkout (hsz : sz.ok) (h : Inv sz fs names bs cur head)
    (hr : Ranked fs bs cur head) (arg : Str) (nb : Int)
    (harg : is_it_a_commit_id arg ≠ 0 ∨ GoodBranch sz arg) :
    ∃ names2 bs2 cur2 head2, Inv sz (beargit_checkout_effect sz fs arg nb).fs names2 bs2 cur2 head2 ∧
      Ranked (beargit_checkout_effect sz fs arg nb).fs bs2 cur2 head2 := by
  obtain ⟨names2, bs2, cur2, head2, hinv2, hdir, hbs, hheads⟩ := h.checkout hsz arg nb harg
  refine ⟨names2, bs2, cur2, head2, hinv2, hr.transfer _ _ _ _ hdir ?_ hheads⟩
  intro j b hj
  rcases hbs with hbs | ⟨hbs, _, _⟩
  · rw [hbs]; exact hj
  · rw [hbs, List.getElem?_append_left (List.getElem?_eq_some_iff.mp hj).1]
    exact hj

end

/-- In every reachable state the repository is well formed and the stored
commits are ordered below the heads of their branches. -/
theorem Reach.ranked {sz : Sizes} (hsz : sz.ok) {fs : FS} (h : Reach sz (SuffixNotMax sz) fs) :
    ∃ names bs cur head, Inv sz fs names bs cur head ∧ Ranked fs bs cur head := by
  induction h with
  | init fs0 h0 =>
    refine ⟨_, _, _, _, Inv.init sz hsz fs0 h0, ?_⟩
    intro c hc
    have : (beargit_init fs0).fs.dir (commit_dir c) = false := by
      show (if commit_dir c = ".beargit".toList then true else fs0.dir (commit_dir c)) = false
      rw [if_neg (commit_dir_ne_control c)]
      exact h0 c
    rw [this] at hc
    exact absurd hc (by decide)
  | add fs p _ hp ih =>
    obtain ⟨names, bs, cur, head, hinv, hr⟩ := ih
    exact ⟨_, _, _, _, hinv.add p hp, hr.after_add p⟩
  | rm fs p _ ih =>
    obtain ⟨names, bs, cur, head, hinv, hr⟩ := ih
    exact ⟨_, _, _, _, hinv.rm p, hr.after_rm p⟩
  | commit fs msg r _ hg hres ih =>
    obtain ⟨names, bs, cur, head, hinv, hr⟩ := ih
    obtain ⟨head2, hinv2, hr2⟩ := Ranked.after_commit hsz hinv hr hg msg r hres
    exact ⟨_, _, _, _, hinv2, hr2⟩
  | checkout fs arg nb r _ harg hr ih =>
    rw [beargit_checkout_eq_some sz fs arg nb r hr]
    obtain ⟨names, bs, cur, head, hinv, hr⟩ := ih
    exact Ranked.after_checkout hsz hinv hr arg nb harg

/-- C2, as amended: with sizes that hold the paths of the control files of a
commit record, in every state reachable from `beargit_init` (run in a
directory without commit directories) by `beargit_add` of plain file names,
`beargit_rm`, `beargit_commit` from suffixes that are not all `c`, and
`beargit_checkout` of identifiers and plain branch names, provided fewer than
3^10 branches are registered and the suffix of HEAD is not all `c`, a
successful `beargit_commit` creates its record under an identifier that names
no previously stored commit. -/
theorem beargit_commit_fresh_identifier (sz : Sizes) (hsz : sz.ok) (fs : FS)
    (hreach : Reach sz (SuffixNotMax sz) fs) (msg : Str) (r : Res)
    (hres : beargit_commit sz fs msg = some r) (hret : r.ret = 0)
    (hcount : (registry_lines sz fs).length < 3 ^ 10) (hnot : SuffixNotMax sz fs) :
    fs.dir (commit_dir (head_commit sz r.fs)) = false ∧
    r.fs.dir (commit_dir (head_commit sz r.fs)) = true := by
  obtain ⟨names, bs, cur, head, hinv, hr⟩ := hreach.ranked hsz
  rcases beargit_commit_cases sz fs msg r hres with ⟨h1, _⟩ | ⟨_, hcur, _, id, err, hid, hfs⟩
  · rw [h1] at hret
    exact absurd hret (by decide)
  · rw [hinv.current_branch_eq] at hcur
    obtain ⟨j, hj, hideq, hvalid⟩ := hinv.new_commit_id hsz hcur id err hid
    have hinv2 : Inv sz r.fs names bs cur id := by
      rw [hfs]; exact hinv.commit_result msg id hvalid
    rw [hinv2.head_commit_eq hsz]
    constructor
    · by_contra hdir
      have hdir2 : fs.dir (commit_dir id) = true := by simpa using hdir
      obtain ⟨j2, b2, hj2, htake, hle⟩ := hr id hdir2
      have hlen : bs.length < 3 ^ 10 := by
        rw [← hinv.registry_lines_eq]; exact hcount
      have hjlt : j < bs.length := (List.getElem?_eq_some_iff.mp hj).1
      have hj2lt : j2 < bs.length := (List.getElem?_eq_some_iff.mp hj2).1
      rw [hideq, new_commit_id_take] at htake
      have hjj : j = j2 := branch_symbols_inj j j2 (by omega) (by omega) htake
      subst hjj
      rw [hj] at hj2
      have hb : cur = b2 := Option.some.inj hj2
      subst hb
      have hnot2 : ¬ ∀ c ∈ head.drop 10, c = 'c' := by
        unfold SuffixNotMax at hnot
        rw [hinv.head_commit_eq hsz] at hnot
        exact hnot
      have hrank := new_commit_id_rank j head hinv.head_ok.root_or_valid hnot2
      rw [← hideq] at hrank
      unfold head_of at hle
      rw [if_pos rfl] at hle
      omega
    · rw [hfs, commit_result_fs_dir, if_pos rfl]

/-! ## Instances and counterexamples for the reachable states -/

/-- The first commit of `first_commit_repo` is a defined call that returns 0. -/
theorem first_commit_repo_defined :
    (beargit_commit header_sizes (beargit_init empty_fs).fs "GO BEARS!".toList).map Res.ret =
      some 0 := by decide

/-- The commit of `committed_file_repo` is a defined call that returns 0. -/
theorem committed_file_repo_defined :
    (beargit_commit header_sizes (one_file_repo "f.txt".toList "hi".toList)
      "GO BEARS!".toList).map Res.ret = some 0 := by decide

/-- The checkout of `feature_repo` is a defined call that returns 0. -/
theorem feature_repo_defined :
    (beargit_checkout header_sizes (beargit_init empty_fs).fs "feature".toList 1).map Res.ret =
      some 0 := by decide

/-- The checkout and the `beargit_add` of `tracked_record_repo` are defined
calls that return 0. -/
theorem tracked_record_repo_defined :
    (beargit_checkout header_sizes feature_repo "master".toList 0).map Res.ret = some 0 ∧
    (beargit_add header_sizes (checkout_fs header_sizes feature_repo "master".toList 0)
      (branch_file "master".toList)).ret = 0 := by decide

set_option maxRecDepth 100000 in
/-- The four calls of `long_name_repo` are defined and return 0. -/
theorem long_name_repo_defined :
    (beargit_checkout header_sizes (beargit_init empty_fs).fs
      (List.replicate 127 'a') 1).map Res.ret = some 0 ∧
    (beargit_checkout header_sizes
      (checkout_fs header_sizes (beargit_init empty_fs).fs (List.replicate 127 'a') 1)
      (List.replicate 128 'a') 1).map Res.ret = some 0 ∧
    (beargit_commit header_sizes
      (checkout_fs header_sizes
        (checkout_fs header_sizes (beargit_init empty_fs).fs (List.replicate 127 'a') 1)
        (List.replicate 128 'a') 1)
      "GO BEARS!".toList).map Res.ret = some 0 ∧
    (beargit_checkout header_sizes
      (commit_fs header_sizes
        (checkout_fs header_sizes
          (checkout_fs header_sizes (beargit_init empty_fs).fs (List.replicate 127 'a') 1)
          (List.replicate 128 'a') 1)
        "GO BEARS!".toList)
      (List.replicate 128 'a') 0).map Res.ret = some 0 :=
  ⟨by decide, by decide, by decide, by decide⟩

theorem beargit_commit_fresh_identifier_witness :
    first_commit_repo.dir (commit_dir FIRST_ID) = true ∧
    first_commit_repo.dir (commit_dir (head_commit header_sizes
      (commit_fs header_sizes first_commit_repo "GO BEARS!".toList))) = false ∧
    (commit_fs header_sizes first_commit_repo "GO BEARS!".toList).dir
      (commit_dir (head_commit header_sizes
        (commit_fs header_sizes first_commit_repo "GO BEARS!".toList))) = true :=
  ⟨by decide,
    beargit_commit_fresh_identifier header_sizes (by decide) first_commit_repo
      (Reach.commit (beargit_init empty_fs).fs "GO BEARS!".toList
        { ret := 0, err := [], fs := first_commit_repo }
        (Reach.init empty_fs (fun _ => rfl)) (by decide) rfl)
      "GO BEARS!".toList
      { ret := 0, err := []
        fs := commit_fs header_sizes first_commit_repo "GO BEARS!".toList }
      rfl rfl (by decide) (by decide)⟩

set_option maxRecDepth 100000 in
/-- C2 fails as stated: with `BRANCHNAME_SIZE` 128, create the branch of 127
letters `a` and then the branch of 128 letters `a`. The current-branch marker
holds 128 letters, and `read_string_from_file` reads 127 of them, the name of
the other branch. A commit is stored under the identifier `1666666666`
followed by thirty `6`; after a checkout of the branch of 128 letters, whose
own head-pointer record still holds the root identifier, three branches are
registered and the suffix of HEAD is not all `c`, and the next commit returns
0 and is stored under the same identifier, whose directory exists. -/
theorem beargit_commit_long_branch_name_collides :
    (registry_lines header_sizes long_name_repo).length = 3 ∧
    SuffixNotMax header_sizes long_name_repo ∧
    head_commit header_sizes long_name_repo = ROOT_ID ∧
    long_name_repo.dir (commit_dir "1666666666666666666666666666666666666666".toList) = true ∧
    ∃ r, beargit_commit header_sizes long_name_repo "GO BEARS!".toList = some r ∧
      r.ret = 0 ∧
      head_commit header_sizes r.fs = "1666666666666666666666666666666666666666".toList :=
  ⟨by decide, by decide, by decide, by decide, _, rfl, by decide, by decide⟩

theorem checkout_away_and_back_witness :
    ∃ r1, beargit_checkout header_sizes feature_repo "master".toList 0 = some r1 ∧ r1.ret = 0 ∧
      ∀ s2, CommitsOn header_sizes r1.fs s2 →
        ∃ r3, beargit_checkout header_sizes s2 "feature".toList 0 = some r3 ∧ r3.ret = 0 ∧
          current_branch header_sizes r3.fs = "feature".toList ∧
          head_commit header_sizes r3.fs = ROOT_ID ∧
          ∃ index, r3.fs.file INDEX = some index ∧
            (if ROOT_ID = ROOT_ID then index = []
             else r3.fs.file (commit_file ROOT_ID ".index".toList) = some index) :=
  checkout_away_and_back header_sizes (by decide) feature_repo
    (Reach.checkout (beargit_init empty_fs).fs "feature".toList 1
      { ret := 0, err := [], fs := feature_repo }
      (Reach.init empty_fs (fun _ => rfl)) (Or.inr (by decide)) rfl)
    "feature".toList "master".toList ROOT_ID (by decide) (by decide) (by decide) (by decide)
    (by decide)

/-- C8 fails as stated: in the reachable state `tracked_record_repo` HEAD is
attached to `master` at the root identifier, `feature` is registered, and the
staging index lists `.beargit/.branch_master`, the head-pointer record of
`master`. `beargit_checkout("feature")` stores the head of `master` in that
record and then deletes the record in the first loop of `checkout_commit`.
After a commit on `feature`, `beargit_checkout("master")` finds no head to
resume: HEAD's commit pointer is not the root identifier it was. -/
theorem checkout_back_after_record_deleted :
    current_branch header_sizes tracked_record_repo = "master".toList ∧
    head_commit header_sizes tracked_record_repo = ROOT_ID ∧
    "feature".toList ∈ registry_lines header_sizes tracked_record_repo ∧
    (beargit_checkout header_sizes tracked_record_repo "feature".toList 0).map Res.ret =
      some 0 ∧
    (checkout_fs header_sizes tracked_record_repo "feature".toList 0).file
      (branch_file "master".toList) = none ∧
    (∃ r, beargit_commit header_sizes
        (checkout_fs header_sizes tracked_record_repo "feature".toList 0)
        "GO BEARS!".toList = some r ∧ r.ret = 0 ∧
      r.fs.file (branch_file "master".toList) = none ∧
      (beargit_checkout header_sizes r.fs "master".toList 0).map Res.ret = some 0 ∧
      current_branch header_sizes (checkout_fs header_sizes r.fs "master".toList 0) =
        "master".toList ∧
      head_commit header_sizes (checkout_fs header_sizes r.fs "master".toList 0) = []) :=
  ⟨by decide, by decide, by decide, by decide, by decide, _, rfl, by decide, by decide,
    by decide, by decide, by decide⟩
/-! ## The increment of the suffix -/

theorem next_commit_id_hw1_no_error (s : Str) (h : ∀ c ∈ s, IsCommitSymbol c) :
    (next_commit_id_hw1 s).2 = false := by
  induction s with
  | nil => rfl
  | cons c rest ih =>
    have hrest : ∀ x ∈ rest, IsCommitSymbol x := fun x hx => h x (List.mem_cons_of_mem _ hx)
    rcases h c (by simp) with hc | hc | hc
    · subst hc; simp [next_commit_id_hw1]
    · subst hc; simp [next_commit_id_hw1]
    · subst hc; simp [next_commit_id_hw1, ih hrest]

/-- C12, as amended: applied to a suffix made of `c` only, of any length and
so to the suffix of thirty `c`, `next_commit_id_hw1` wraps around to the
suffix of as many `6` and reports no error. -/
theorem next_commit_id_hw1_wraps (s : Str) (h : ∀ c ∈ s, c = 'c') :
    next_commit_id_hw1 s = (List.replicate s.length '6', false) := by
  induction s with
  | nil => rfl
  | cons c rest ih =>
    have hc : c = 'c' := h c (by simp)
    have hrest : ∀ x ∈ rest, x = 'c' := fun x hx => h x (List.mem_cons_of_mem _ hx)
    subst hc
    simp [next_commit_id_hw1, ih hrest, List.replicate_succ]

theorem next_commit_id_hw1_wraps_witness :
    (∀ c ∈ List.replicate 30 'c', c = 'c') ∧
    next_commit_id_hw1 (List.replicate 30 'c') =
      (List.replicate (List.replicate 30 'c').length '6', false) :=
  ⟨by decide, next_commit_id_hw1_wraps (List.replicate 30 'c') (by decide)⟩

/-- C12 fails as stated: on the suffix of thirty `c` no error is reported,
neither by `next_commit_id_hw1` nor in the text `next_commit_id` prints; the
suffix of thirty `6` is produced. -/
theorem next_commit_id_hw1_thirty_c_silent :
    (next_commit_id_hw1 (List.replicate 30 'c')).2 = false ∧
    (next_commit_id_hw1 (List.replicate 30 'c')).1 = List.replicate 30 '6' ∧
    next_commit_id_hw1_err (next_commit_id_hw1 (List.replicate 30 'c')).1
      (next_commit_id_hw1 (List.replicate 30 'c')).2 = [] := by
  decide

/-- C13, as amended: `next_commit_id_hw1` reports the corrupt-identifier
error exactly when a symbol outside `6`, `1`, `c`, `0` is preceded by `0` and
`c` symbols only, that is when it stands before the first `6` or `1`. -/
theorem next_commit_id_hw1_reports_iff (s : Str) :
    (next_commit_id_hw1 s).2 = true ↔
      ∃ pre x rest, s = pre ++ x :: rest ∧ (∀ c ∈ pre, c = '0' ∨ c = 'c') ∧
        ¬ (x = '6' ∨ x = '1' ∨ x = 'c' ∨ x = '0') := by
  induction s with
  | nil => simp [next_commit_id_hw1]
  | cons c rest ih =>
    unfold next_commit_id_hw1
    by_cases h0 : c = '0' ∨ c = 'c'
    · rw [if_pos h0]
      show (next_commit_id_hw1 rest).2 = true ↔ _
      rw [ih]
      constructor
      · rintro ⟨pre, x, r, hs, hpre, hx⟩
        refine ⟨c :: pre, x, r, by rw [hs]; rfl, ?_, hx⟩
        intro d hd
        rcases List.mem_cons.mp hd with rfl | hd
        · exact h0
        · exact hpre d hd
      · rintro ⟨pre, x, r, hs, hpre, hx⟩
        cases pre with
        | nil =>
          simp only [List.nil_append, List.cons.injEq] at hs
          exfalso
          apply hx
          rw [← hs.1]
          rcases h0 with h | h
          · exact Or.inr (Or.inr (Or.inr h))
          · exact Or.inr (Or.inr (Or.inl h))
        | cons p pre =>
          simp only [List.cons_append, List.cons.injEq] at hs
          exact ⟨pre, x, r, hs.2, fun d hd => hpre d (List.mem_cons_of_mem _ hd), hx⟩
    · rw [if_neg h0]
      have hstop : ∀ pre x r, c :: rest = pre ++ x :: r → (∀ d ∈ pre, d = '0' ∨ d = 'c') →
          pre = [] ∧ x = c := by
        intro pre x r hs hpre
        cases pre with
        | nil =>
          simp only [List.nil_append, List.cons.injEq] at hs
          exact ⟨rfl, hs.1.symm⟩
        | cons p pre =>
          simp only [List.cons_append, List.cons.injEq] at hs
          exact absurd (hs.1 ▸ hpre p (by simp)) h0
      by_cases h6 : c = '6'
      · rw [if_pos h6]
        simp only [Bool.false_eq_true, false_iff]
        rintro ⟨pre, x, r, hs, hpre, hx⟩
        obtain ⟨_, hxc⟩ := hstop pre x r hs hpre
        exact hx (Or.inl (hxc.trans h6))
      · rw [if_neg h6]
        by_cases h1 : c = '1'
        · rw [if_pos h1]
          simp only [Bool.false_eq_true, false_iff]
          rintro ⟨pre, x, r, hs, hpre, hx⟩
          obtain ⟨_, hxc⟩ := hstop pre x r hs hpre
          exact hx (Or.inr (Or.inl (hxc.trans h1)))
        · rw [if_neg h1]
          simp only [true_iff]
          refine ⟨[], c, rest, rfl, by simp, ?_⟩
          rintro (h | h | h | h)
          · exact h6 h
          · exact h1 h
          · exact h0 (Or.inr h)
          · exact h0 (Or.inl h)

/-- C13 fails as stated: the suffix `6x666…` holds the symbol `x`, yet
`next_commit_id_hw1` stops at the leading `6`, returns `1x666…` and reports no
error. -/
theorem next_commit_id_hw1_misses_later_symbol :
    'x' ∈ '6' :: 'x' :: List.replicate 28 '6' ∧
    ¬ ('x' = '6' ∨ 'x' = '1' ∨ 'x' = 'c' ∨ 'x' = '0') ∧
    next_commit_id_hw1 ('6' :: 'x' :: List.replicate 28 '6') =
      ('1' :: 'x' :: List.replicate 28 '6', false) := by
  decide

/-- C16: for every 30-symbol suffix over `6`, `1`, `c` that is not made of
`c` only, `next_commit_id_hw1` returns a 30-symbol suffix over `6`, `1`, `c`
whose little-endian base-3 value is the value of the input plus one, and
reports no error. -/
theorem next_commit_id_hw1_odometer (s : Str) (hlen : s.length = 30)
    (hsym : ∀ c ∈ s, IsCommitSymbol c) (hnot : ¬ ∀ c ∈ s, c = 'c') :
    (next_commit_id_hw1 s).1.length = 30 ∧
    (∀ c ∈ (next_commit_id_hw1 s).1, IsCommitSymbol c) ∧
    suffix_value (next_commit_id_hw1 s).1 = suffix_value s + 1 ∧
    (next_commit_id_hw1 s).2 = false :=
  ⟨by rw [next_commit_id_hw1_length, hlen], next_commit_id_hw1_symbols s hsym,
    next_commit_id_hw1_value s hsym hnot, next_commit_id_hw1_no_error s hsym⟩

theorem next_commit_id_hw1_odometer_witness :
    ("c16c61c61c61c61c61c61c61c61c61".toList.length = 30 ∧
      (∀ c ∈ "c16c61c61c61c61c61c61c61c61c61".toList, IsCommitSymbol c) ∧
      ¬ ∀ c ∈ "c16c61c61c61c61c61c61c61c61c61".toList, c = 'c') ∧
    (next_commit_id_hw1 "c16c61c61c61c61c61c61c61c61c61".toList).1.length = 30 ∧
    (∀ c ∈ (next_commit_id_hw1 "c16c61c61c61c61c61c61c61c61c61".toList).1, IsCommitSymbol c) ∧
    suffix_value (next_commit_id_hw1 "c16c61c61c61c61c61c61c61c61c61".toList).1 =
      suffix_value "c16c61c61c61c61c61c61c61c61c61".toList + 1 ∧
    (next_commit_id_hw1 "c16c61c61c61c61c61c61c61c61c61".toList).2 = false :=
  ⟨⟨by decide, by decide, by decide⟩,
    next_commit_id_hw1_odometer "c16c61c61c61c61c61c61c61c61c61".toList
      (by decide) (by decide) (by decide)⟩

/-! ## The branch symbols of an identifier -/

theorem symbol_value_trit_symbol (t : Nat) (h : t < 3) : symbol_value (trit_symbol t) = t := by
  interval_cases t <;> rfl

theorem suffix_value_branch_symbols (k : Nat) :
    ∀ n, suffix_value (branch_symbols k n) = n % 3 ^ k := by
  induction k with
  | zero => intro n; simp [branch_symbols, suffix_value, Nat.mod_one]
  | succ k ih =>
    intro n
    simp only [branch_symbols, suffix_value]
    rw [symbol_value_trit_symbol _ (Nat.mod_lt n (by decide)), ih, pow_succ', Nat.mod_mul]

/-- C14, as amended: for all branch numbers `n` and `m` below `3 ^ 10` with
`n` different from `m`, the 10 symbols that the loop of `next_commit_id`
writes for `n` differ from the ones it writes for `m`. -/
theorem next_commit_id_loop_distinct (n m : Nat) (hn : n < 3 ^ 10) (hm : m < 3 ^ 10)
    (hne : n ≠ m) :
    next_commit_id_loop COMMIT_ID_BRANCH_BYTES (n : Int) ≠
      next_commit_id_loop COMMIT_ID_BRANCH_BYTES (m : Int) := by
  simp only [COMMIT_ID_BRANCH_BYTES, next_commit_id_loop_nat]
  intro h
  exact hne (branch_symbols_inj n m hn hm (Option.some.inj h))

theorem next_commit_id_loop_distinct_witness :
    ((4 : Nat) < 3 ^ 10 ∧ (7 : Nat) < 3 ^ 10 ∧ (4 : Nat) ≠ 7) ∧
    next_commit_id_loop COMMIT_ID_BRANCH_BYTES ((4 : Nat) : Int) ≠
      next_commit_id_loop COMMIT_ID_BRANCH_BYTES ((7 : Nat) : Int) :=
  ⟨⟨by decide, by decide, by decide⟩,
    next_commit_id_loop_distinct 4 7 (by decide) (by decide) (by decide)⟩

/-- C14 fails as stated: the branch numbers 0 and `3 ^ 10 = 59049` are
different and get the same 10 symbols, ten `6`. -/
theorem next_commit_id_loop_wraps :
    (0 : Int) ≤ 0 ∧ (0 : Int) ≤ 59049 ∧ (0 : Int) ≠ 59049 ∧
    next_commit_id_loop COMMIT_ID_BRANCH_BYTES 0 = some "6666666666".toList ∧
    next_commit_id_loop COMMIT_ID_BRANCH_BYTES 59049 = some "6666666666".toList := by
  decide

/-- C17: for every branch number `n` below `3 ^ 10` of the current branch
and every 40-symbol previous identifier, `next_commit_id` produces an
identifier whose first 10 symbols are the base-3 digits of `n`, least
significant first, written `6`, `1`, `c`; decoding them gives back `n`, and
every other 40-symbol previous identifier gives the same 10 symbols. -/
theorem next_commit_id_branch_symbols (sz : Sizes) (fs : FS) (commit_id : Str) (n : Nat)
    (hn : get_branch_number sz fs (read_string_from_file fs CURRENT_BRANCH sz.BRANCHNAME_SIZE) = n)
    (hlt : n < 3 ^ 10) (hlen : commit_id.length = 40) :
    ∃ id err, next_commit_id sz fs commit_id = some (id, err) ∧
      id.take COMMIT_ID_BRANCH_BYTES = branch_symbols 10 n ∧
      suffix_value (id.take COMMIT_ID_BRANCH_BYTES) = n ∧
      ∀ other : Str, other.length = 40 →
        ∃ id2 err2, next_commit_id sz fs other = some (id2, err2) ∧
          id2.take COMMIT_ID_BRANCH_BYTES = id.take COMMIT_ID_BRANCH_BYTES := by
  refine ⟨_, _, next_commit_id_of_registered sz fs commit_id n hn (by omega),
    new_commit_id_take n _, ?_, ?_⟩
  · rw [new_commit_id_take, suffix_value_branch_symbols, Nat.mod_eq_of_lt hlt]
  · intro other hother
    refine ⟨_, _, next_commit_id_of_registered sz fs other n hn (by omega), ?_⟩
    rw [new_commit_id_take, new_commit_id_take]


theorem next_commit_id_branch_symbols_witness :
    (get_branch_number header_sizes feature_repo
        (read_string_from_file feature_repo CURRENT_BRANCH header_sizes.BRANCHNAME_SIZE) =
        ((1 : Nat) : Int) ∧
      (1 : Nat) < 3 ^ 10 ∧ FIRST_ID.length = 40) ∧
    ∃ id err, next_commit_id header_sizes feature_repo FIRST_ID = some (id, err) ∧
      id.take COMMIT_ID_BRANCH_BYTES = branch_symbols 10 1 ∧
      suffix_value (id.take COMMIT_ID_BRANCH_BYTES) = 1 ∧
      ∀ other : Str, other.length = 40 →
        ∃ id2 err2, next_commit_id header_sizes feature_repo other = some (id2, err2) ∧
          id2.take COMMIT_ID_BRANCH_BYTES = id.take COMMIT_ID_BRANCH_BYTES :=
  ⟨⟨by decide, by decide, by decide⟩,
    next_commit_id_branch_symbols header_sizes feature_repo FIRST_ID 1 (by decide) (by decide)
      (by decide)⟩
/-! ## The first commit -/

theorem beargit_index_run_file_of_ne (sz : Sizes) (ops : List IndexOp) :
    ∀ (fs : FS) (q : Str), q ≠ INDEX → q ≠ NEWINDEX →
      (beargit_index_run sz ops fs).2.file q = fs.file q := by
  induction ops with
  | nil => intro fs q _ _; rfl
  | cons op ops ih =>
    intro fs q h1 h2
    cases op with
    | add p =>
      show (beargit_index_run sz ops (beargit_add sz fs p).fs).2.file q = _
      rw [ih _ q h1 h2, beargit_add_file_of_ne sz fs p q h1 h2]
    | rm p =>
      show (beargit_index_run sz ops (beargit_rm sz fs p).fs).2.file q = _
      rw [ih _ q h1 h2, beargit_rm_file_of_ne sz fs p q h1 h2]

theorem good_branch_master (sz : Sizes) (hsz : sz.ok) : GoodBranch sz "master".toList :=
  ⟨⟨by decide, by decide, by decide, by have := hsz.1; simp; omega⟩, by decide,
    by have := hsz.2.1; simp; omega, by decide⟩

/-- C15: applied to the suffix of thirty `0`, `next_commit_id_hw1` yields
the suffix of thirty `6` and reports no error; and after `beargit_init`,
followed by any calls of `beargit_add` and `beargit_rm`, the current branch is
`master`, whose number is 0, every commit that returns 0 sets HEAD's commit
pointer to the identifier of forty `6` symbols and creates the directory of
that commit, and a commit with an accepted message does return 0 when the
sizes hold the paths of the control files of a commit record and every name
of the staging index holds no `/` and has at most `FILENAME_SIZE - 51`
characters. -/
theorem first_commit_identifier (sz : Sizes) (hsz : sz.ok) (fs0 : FS) (ops : List IndexOp)
    (msg : Str) (hmsg : is_commit_msg_ok msg ≠ 0) :
    next_commit_id_hw1 (List.replicate 30 '0') = (List.replicate 30 '6', false) ∧
    current_branch sz (beargit_index_run sz ops (beargit_init fs0).fs).2 = "master".toList ∧
    get_branch_number sz (beargit_index_run sz ops (beargit_init fs0).fs).2 "master".toList = 0 ∧
    (∀ r, beargit_commit sz (beargit_index_run sz ops (beargit_init fs0).fs).2 msg = some r →
      r.ret = 0 →
      r.err = [] ∧ r.fs.file PREV = some FIRST_ID ∧ r.fs.dir (commit_dir FIRST_ID) = true) ∧
    ((∀ l ∈ index_lines sz (beargit_index_run sz ops (beargit_init fs0).fs).2,
        '/' ∉ l ∧ l.length + 51 ≤ sz.FILENAME_SIZE) →
      ∃ r, beargit_commit sz (beargit_index_run sz ops (beargit_init fs0).fs).2 msg = some r ∧
        r.ret = 0) := by
  have hcurf : (beargit_index_run sz ops (beargit_init fs0).fs).2.file CURRENT_BRANCH =
      some "master".toList := by
    rw [beargit_index_run_file_of_ne sz ops _ _ (by decide) (by decide)]
    simp [beargit_init, INDEX, PREV, BRANCHES, CURRENT_BRANCH, write_string_to_file]
  have hregf : (beargit_index_run sz ops (beargit_init fs0).fs).2.file BRANCHES =
      some (encode_lines ["master".toList]) := by
    rw [beargit_index_run_file_of_ne sz ops _ _ (by decide) (by decide)]
    simp [beargit_init, INDEX, PREV, BRANCHES, CURRENT_BRANCH, write_string_to_file, encode_lines]
  have hprevf : (beargit_index_run sz ops (beargit_init fs0).fs).2.file PREV = some ROOT_ID := by
    rw [beargit_index_run_file_of_ne sz ops _ _ (by decide) (by decide)]
    simp [beargit_init, INDEX, PREV, BRANCHES, CURRENT_BRANCH, write_string_to_file, ROOT_ID]
  generalize (beargit_index_run sz ops (beargit_init fs0).fs).2 = fs at hcurf hregf hprevf ⊢
  have hcur : read_string_from_file fs CURRENT_BRANCH sz.BRANCHNAME_SIZE = "master".toList :=
    read_branch_whole sz fs _ _ hcurf (Or.inr (good_branch_master sz hsz))
  have hprev : read_string_from_file fs PREV sz.COMMIT_ID_SIZE = ROOT_ID :=
    read_head_whole sz hsz fs _ _ hprevf (Or.inl rfl)
  have hlines : registry_lines sz fs = ["master".toList] := by
    unfold registry_lines
    rw [read_of_file _ _ _ hregf]
    exact read_lines_encode _ _ (by
      intro s hs
      rw [List.mem_singleton] at hs
      subst hs
      exact (good_branch_master sz hsz).1)
  have hnum : get_branch_number sz fs "master".toList = 0 := by
    rw [get_branch_number_of_lines, hlines]
    rfl
  have hid := next_commit_id_of_registered sz fs ROOT_ID 0 (by rw [hcur, hnum]; rfl) (by decide)
  have hpair : next_commit_id_hw1 (ROOT_ID.drop 10) = (List.replicate 30 '6', false) := by decide
  rw [hpair] at hid
  have hid2 : next_commit_id sz fs (read_string_from_file fs PREV sz.COMMIT_ID_SIZE) =
      some (FIRST_ID, []) := by rw [hprev]; exact hid
  have hite := beargit_commit_eq_ite sz fs msg FIRST_ID [] (by rw [hcur]; decide) hmsg hid2
  refine ⟨by decide, hcur, hnum, ?_, ?_⟩
  · intro r hr _
    rw [hite] at hr
    split at hr
    · cases hr
      refine ⟨rfl, commit_result_fs_file_PREV sz fs msg _, ?_⟩
      rw [commit_result_fs_dir]
      exact if_pos rfl
    · cases hr
  · intro hshort
    have h57 := hsz.1
    refine ⟨{ ret := 0, err := [], fs := commit_result_fs sz fs msg FIRST_ID }, ?_, rfl⟩
    rw [hite, if_pos]
    exact ⟨by simp only [FIRST_ID, String.toList, String.length, List.length]; omega,
      fun l hl => by
        have := (hshort l hl).2
        simp only [FIRST_ID, String.toList, String.length, List.length]
        omega⟩

theorem first_commit_identifier_witness :
    (header_sizes.ok ∧ is_commit_msg_ok "GO BEARS!".toList ≠ 0 ∧
      ∀ l ∈ index_lines header_sizes
        (beargit_index_run header_sizes [IndexOp.add "f.txt".toList]
          (beargit_init empty_fs).fs).2,
        '/' ∉ l ∧ l.length + 51 ≤ header_sizes.FILENAME_SIZE) ∧
    next_commit_id_hw1 (List.replicate 30 '0') = (List.replicate 30 '6', false) ∧
    current_branch header_sizes
      (beargit_index_run header_sizes [IndexOp.add "f.txt".toList]
        (beargit_init empty_fs).fs).2 = "master".toList ∧
    get_branch_number header_sizes
      (beargit_index_run header_sizes [IndexOp.add "f.txt".toList]
        (beargit_init empty_fs).fs).2 "master".toList = 0 ∧
    (∀ r, beargit_commit header_sizes
        (beargit_index_run header_sizes [IndexOp.add "f.txt".toList]
          (beargit_init empty_fs).fs).2 "GO BEARS!".toList = some r →
      r.ret = 0 →
      r.err = [] ∧ r.fs.file PREV = some FIRST_ID ∧ r.fs.dir (commit_dir FIRST_ID) = true) ∧
    ∃ r, beargit_commit header_sizes
        (beargit_index_run header_sizes [IndexOp.add "f.txt".toList]
          (beargit_init empty_fs).fs).2 "GO BEARS!".toList = some r ∧
      r.ret = 0 :=
  have h := first_commit_identifier header_sizes (by decide) empty_fs
    [IndexOp.add "f.txt".toList] "GO BEARS!".toList (by decide)
  ⟨⟨by decide, by decide, by decide⟩, h.1, h.2.1, h.2.2.1, h.2.2.2.1, h.2.2.2.2 (by decide)⟩
/-! ## A failed checkout -/

theorem beargit_checkout_effect_failed_fs (sz : Sizes) (fs : FS) (arg : Str) (new_branch : Int)
    (h : (beargit_checkout_effect sz fs arg new_branch).ret ≠ 0) :
    (beargit_checkout_effect sz fs arg new_branch).fs = checkout_saved sz fs := by
  rw [beargit_checkout_effect_eq] at h ⊢
  split_ifs at h ⊢
  all_goals first
    | rfl
    | exact absurd (checkout_commit_effect_ret _ _ _) h

/-- C11, as amended: when `beargit_checkout` returns an error, every
persisted item is the same after the call as before it (the staging index,
the registry, the current-branch marker, HEAD's commit pointer, the
head-pointer record of every other branch, the commit store, the working
tree and the set of directories), except the head-pointer record of the
current branch: when HEAD is attached, the call has stored HEAD's commit
pointer in it. -/
theorem beargit_checkout_failed_effect (sz : Sizes) (fs : FS) (arg : Str) (new_branch : Int)
    (r : Res) (hr : beargit_checkout sz fs arg new_branch = some r) (h : r.ret ≠ 0) :
    r.fs.dir = fs.dir ∧
    (∀ q, q ≠ branch_file (current_branch sz fs) → r.fs.file q = fs.file q) ∧
    r.fs.file INDEX = fs.file INDEX ∧
    r.fs.file BRANCHES = fs.file BRANCHES ∧
    r.fs.file CURRENT_BRANCH = fs.file CURRENT_BRANCH ∧
    r.fs.file PREV = fs.file PREV ∧
    (∀ b, b ≠ current_branch sz fs → r.fs.file (branch_file b) = fs.file (branch_file b)) ∧
    (∀ c n, is_it_a_commit_id c ≠ 0 → r.fs.file (commit_file c n) = fs.file (commit_file c n)) ∧
    (∀ p, ¬ InControlDir p → r.fs.file p = fs.file p) ∧
    (current_branch sz fs = [] → r.fs = fs) ∧
    (current_branch sz fs ≠ [] → ∀ head, fs.file PREV = some head →
      r.fs.file (branch_file (current_branch sz fs)) = some head) := by
  have hre := beargit_checkout_eq_some sz fs arg new_branch r hr
  rw [hre] at h ⊢
  rw [beargit_checkout_effect_failed_fs sz fs arg new_branch h]
  refine ⟨checkout_saved_dir sz fs, checkout_saved_file_of_ne sz fs,
    checkout_saved_file_INDEX sz fs, checkout_saved_file_BRANCHES sz fs,
    checkout_saved_file_CURRENT_BRANCH sz fs, checkout_saved_file_PREV sz fs, ?_,
    fun c n hc => checkout_saved_file_commit sz fs c n hc, ?_, ?_, ?_⟩
  · intro b hb
    exact checkout_saved_file_of_ne sz fs _ (fun e => hb ((branch_file_inj _ _).mp e))
  · intro p hp
    exact checkout_saved_file_of_ne sz fs _ (fun e => hp (e ▸ InControlDir_branch_file _))
  · intro hcur
    unfold checkout_saved
    rw [if_neg (by rw [hcur]; decide)]
  · intro hcur head hhead
    unfold checkout_saved
    rw [if_pos (fun e => hcur (List.length_eq_zero.mp e))]
    exact fs_cp_file_dst _ _ _ _ hhead

set_option maxRecDepth 100000 in
theorem beargit_checkout_failed_effect_witness :
    (beargit_checkout header_sizes first_commit_repo "nosuch".toList 0 =
        some { ret := 1, err := "ERROR: No branch nosuch exists\n".toList
               fs := checkout_fs header_sizes first_commit_repo "nosuch".toList 0 } ∧
      (1 : Int) ≠ 0) ∧
    (checkout_fs header_sizes first_commit_repo "nosuch".toList 0).dir =
      first_commit_repo.dir ∧
    (∀ q, q ≠ branch_file (current_branch header_sizes first_commit_repo) →
      (checkout_fs header_sizes first_commit_repo "nosuch".toList 0).file q =
        first_commit_repo.file q) ∧
    (checkout_fs header_sizes first_commit_repo "nosuch".toList 0).file INDEX =
      first_commit_repo.file INDEX ∧
    (checkout_fs header_sizes first_commit_repo "nosuch".toList 0).file BRANCHES =
      first_commit_repo.file BRANCHES ∧
    (checkout_fs header_sizes first_commit_repo "nosuch".toList 0).file CURRENT_BRANCH =
      first_commit_repo.file CURRENT_BRANCH ∧
    (checkout_fs header_sizes first_commit_repo "nosuch".toList 0).file PREV =
      first_commit_repo.file PREV ∧
    (∀ b, b ≠ current_branch header_sizes first_commit_repo →
      (checkout_fs header_sizes first_commit_repo "nosuch".toList 0).file
        (branch_file b) = first_commit_repo.file (branch_file b)) ∧
    (∀ c n, is_it_a_commit_id c ≠ 0 →
      (checkout_fs header_sizes first_commit_repo "nosuch".toList 0).file
        (commit_file c n) = first_commit_repo.file (commit_file c n)) ∧
    (∀ p, ¬ InControlDir p →
      (checkout_fs header_sizes first_commit_repo "nosuch".toList 0).file p =
        first_commit_repo.file p) ∧
    (current_branch header_sizes first_commit_repo = [] →
      checkout_fs header_sizes first_commit_repo "nosuch".toList 0 = first_commit_repo) ∧
    (current_branch header_sizes first_commit_repo ≠ [] → ∀ head,
      first_commit_repo.file PREV = some head →
      (checkout_fs header_sizes first_commit_repo "nosuch".toList 0).file
        (branch_file (current_branch header_sizes first_commit_repo)) = some head) :=
  ⟨⟨rfl, by decide⟩,
    beargit_checkout_failed_effect header_sizes first_commit_repo "nosuch".toList 0
      { ret := 1, err := "ERROR: No branch nosuch exists\n".toList
        fs := checkout_fs header_sizes first_commit_repo "nosuch".toList 0 } rfl (by decide)⟩

/-- C11 fails as stated: on the new branch `feature` with one commit, the
head-pointer record of `feature` holds the root identifier; the checkout of
the branch `nosuch` fails with "No branch nosuch exists", and after it the
record holds the identifier of the commit. -/
theorem beargit_checkout_failed_writes_head_record :
    (beargit_checkout header_sizes (commit_fs header_sizes feature_repo "GO BEARS!".toList)
      "nosuch".toList 0).map Res.ret = some 1 ∧
    (beargit_checkout header_sizes (commit_fs header_sizes feature_repo "GO BEARS!".toList)
      "nosuch".toList 0).map Res.err = some "ERROR: No branch nosuch exists\n".toList ∧
    (commit_fs header_sizes feature_repo "GO BEARS!".toList).file
      (branch_file "feature".toList) = some ROOT_ID ∧
    (checkout_fs header_sizes (commit_fs header_sizes feature_repo "GO BEARS!".toList)
      "nosuch".toList 0).file (branch_file "feature".toList) =
      some "1666666666666666666666666666666666666666".toList := by
  decide
/-! ## The identifiers of the reachable states -/

/-- C20, as amended: with sizes that hold the paths of the control files of a
commit record, in every state reachable from `beargit_init` (run in a
directory without commit directories) by `beargit_add` of plain file names,
`beargit_rm`, `beargit_commit` and `beargit_checkout` of identifiers and plain
branch names, HEAD's commit pointer is the root identifier or is accepted by
`is_it_a_commit_id`, the current branch, when non-empty, is registered
(`get_branch_number` is not -1), and the identifier of every stored commit is
accepted by `is_it_a_commit_id`. -/
theorem reachable_identifiers_accepted (sz : Sizes) (hsz : sz.ok) (guard : FS → Prop) (fs : FS)
    (hreach : Reach sz guard fs) :
    (head_commit sz fs = ROOT_ID ∨ is_it_a_commit_id (head_commit sz fs) = 1) ∧
    (current_branch sz fs ≠ [] → get_branch_number sz fs (current_branch sz fs) ≠ -1) ∧
    ∀ c, fs.dir (commit_dir c) = true → is_it_a_commit_id c = 1 := by
  obtain ⟨names, bs, cur, head, hinv⟩ := hreach.inv hsz
  refine ⟨?_, ?_, ?_⟩
  · rw [hinv.head_commit_eq hsz]
    rcases hinv.head_ok.root_or_valid with h | h
    · exact Or.inl h
    · exact Or.inr ((is_it_a_commit_id_eq_one _).mpr ((is_it_a_commit_id_ne_zero _).mp h))
  · rw [hinv.current_branch_eq]
    intro hcur
    have hmem : cur ∈ bs := by
      rcases hinv.cur_mem with hc | hc
      · exact absurd hc hcur
      · exact hc
    have : 0 ≤ get_branch_number sz fs cur := by
      rw [get_branch_number_nonneg_iff, hinv.registry_lines_eq]
      exact hmem
    omega
  · intro c hc
    exact (is_it_a_commit_id_eq_one _).mpr ((is_it_a_commit_id_ne_zero _).mp (hinv.stored c hc).1)

theorem reachable_identifiers_accepted_witness :
    (header_sizes.ok ∧ Reach header_sizes (fun _ => True) first_commit_repo) ∧
    (head_commit header_sizes first_commit_repo = ROOT_ID ∨
      is_it_a_commit_id (head_commit header_sizes first_commit_repo) = 1) ∧
    (current_branch header_sizes first_commit_repo ≠ [] →
      get_branch_number header_sizes first_commit_repo
        (current_branch header_sizes first_commit_repo) ≠ -1) ∧
    ∀ c, first_commit_repo.dir (commit_dir c) = true → is_it_a_commit_id c = 1 :=
  ⟨⟨by decide,
      Reach.commit (beargit_init empty_fs).fs "GO BEARS!".toList
        { ret := 0, err := [], fs := first_commit_repo }
        (Reach.init empty_fs (fun _ => rfl)) trivial rfl⟩,
    reachable_identifiers_accepted header_sizes (by decide) (fun _ => True) first_commit_repo
      (Reach.commit (beargit_init empty_fs).fs "GO BEARS!".toList
        { ret := 0, err := [], fs := first_commit_repo }
        (Reach.init empty_fs (fun _ => rfl)) trivial rfl)⟩

/-- C20 fails as stated: after `beargit_init` in an empty directory, the
checkout of the new branch named by the two lines `a` and `b` succeeds; the
current branch is then that name, which is not empty, and `get_branch_number`
returns -1 for it, as the registry holds the lines `master`, `a` and `b`. -/
theorem current_branch_unregistered_after_newline_name :
    (beargit_checkout header_sizes (beargit_init empty_fs).fs "a\nb".toList 1).map Res.ret =
      some 0 ∧
    current_branch header_sizes
      (checkout_fs header_sizes (beargit_init empty_fs).fs "a\nb".toList 1) =
        "a\nb".toList ∧
    current_branch header_sizes
      (checkout_fs header_sizes (beargit_init empty_fs).fs "a\nb".toList 1) ≠ [] ∧
    registry_lines header_sizes
      (checkout_fs header_sizes (beargit_init empty_fs).fs "a\nb".toList 1) =
        ["master".toList, "a".toList, "b".toList] ∧
    get_branch_number header_sizes
      (checkout_fs header_sizes (beargit_init empty_fs).fs "a\nb".toList 1)
      (current_branch header_sizes
        (checkout_fs header_sizes (beargit_init empty_fs).fs "a\nb".toList 1)) = -1 := by
  decide

/-! ## The names of the staging index are distinct -/

section
variable {sz : Sizes} {fs : FS} {names bs : List Str} {cur head : Str}

/-- The commit records and the staging index after `checkout_commit_effect`, run on
a well-formed repository `T` that agrees with `fs` on them. -/
theorem Inv.checkout_commit_files {T : FS} {bs2 : List Str} {cur2 : Str}
    (hT : Inv sz T names bs2 cur2 head) (target : Str) (ht : HeadOk T target)
    (hdir : T.dir = fs.dir)
    (hcommit : ∀ c n, is_it_a_commit_id c ≠ 0 →
      T.file (commit_file c n) = fs.file (commit_file c n)) :
    (∀ c n, is_it_a_commit_id c ≠ 0 →
      (checkout_commit_effect sz T target).fs.file (commit_file c n) = fs.file (commit_file c n)) ∧
    ((checkout_commit_effect sz T target).fs.file INDEX = fs.file INDEX ∨
      (checkout_commit_effect sz T target).fs.file INDEX = some [] ∨
      ∃ c, fs.dir (commit_dir c) = true ∧
        (checkout_commit_effect sz T target).fs.file INDEX =
          fs.file (commit_file c ".index".toList)) := by
  obtain ⟨_, hidx, hslash⟩ := hT.after_checkout_commit target ht
  constructor
  · intro c n hc
    rw [hslash _ (slash_mem_commit_file _ _) (commit_file_ne_PREV _ _) (commit_file_ne_INDEX _ _)]
    exact hcommit c n hc
  · by_cases hroot : target = ROOT_ID
    · right; left; rw [hidx, if_pos hroot]
    · right; right
      rcases ht with ht | ht
      · exact absurd ht hroot
      · exact ⟨target, by rw [← hdir]; exact ht.2, by
          rw [hidx, if_neg hroot]; exact hcommit _ _ ht.1⟩

/-- Any checkout of an identifier or of a plain branch name keeps the files
of the commit records; the staging index is kept, emptied, or replaced by the
index of a stored commit. -/
theorem Inv.checkout_files (hsz : sz.ok) (h : Inv sz fs names bs cur head) (arg : Str) (nb : Int)
    (harg : is_it_a_commit_id arg ≠ 0 ∨ GoodBranch sz arg) :
    (∀ c n, is_it_a_commit_id c ≠ 0 →
      (beargit_checkout_effect sz fs arg nb).fs.file (commit_file c n) = fs.file (commit_file c n)) ∧
    ((beargit_checkout_effect sz fs arg nb).fs.file INDEX = fs.file INDEX ∨
      (beargit_checkout_effect sz fs arg nb).fs.file INDEX = some [] ∨
      ∃ c, fs.dir (commit_dir c) = true ∧
        (beargit_checkout_effect sz fs arg nb).fs.file INDEX =
          fs.file (commit_file c ".index".toList)) := by
  have hsaved : ∀ r : Res, beargit_checkout_effect sz fs arg nb = r → r.fs = checkout_saved sz fs →
      (∀ c n, is_it_a_commit_id c ≠ 0 →
        (beargit_checkout_effect sz fs arg nb).fs.file (commit_file c n) = fs.file (commit_file c n)) ∧
      ((beargit_checkout_effect sz fs arg nb).fs.file INDEX = fs.file INDEX ∨
        (beargit_checkout_effect sz fs arg nb).fs.file INDEX = some [] ∨
        ∃ c, fs.dir (commit_dir c) = true ∧
          (beargit_checkout_effect sz fs arg nb).fs.file INDEX =
            fs.file (commit_file c ".index".toList)) := by
    intro r hr hfs
    rw [hr, hfs]
    exact ⟨fun c n hc => checkout_saved_file_commit sz fs c n hc,
      Or.inl (checkout_saved_file_INDEX sz fs)⟩
  have hwritec : ∀ b c n, is_it_a_commit_id c ≠ 0 →
      (write_string_to_file (checkout_saved sz fs) CURRENT_BRANCH b).file (commit_file c n) =
        fs.file (commit_file c n) := by
    intro b c n hc
    rw [write_string_to_file_file, if_neg (commit_file_ne_CURRENT_BRANCH _ _),
      checkout_saved_file_commit sz fs c n hc]
  by_cases hid : is_it_a_commit_id arg ≠ 0
  · by_cases hdir : fs.dir (commit_dir arg) = true
    · rw [beargit_checkout_effect_id_stored sz fs arg nb hid hdir]
      have hT : Inv sz (write_string_to_file (checkout_saved sz fs) CURRENT_BRANCH []) names bs []
          head :=
        h.saved.set_current [] (fun b hb => ⟨_, h.saved_all b hb⟩) (Or.inl rfl)
      have ht : HeadOk (write_string_to_file (checkout_saved sz fs) CURRENT_BRANCH []) arg :=
        Or.inr ⟨hid, by simpa using hdir⟩
      exact hT.checkout_commit_files arg ht (by simp) (hwritec _)
    · exact hsaved _ (beargit_checkout_effect_id_missing sz fs arg nb hid (by simpa using hdir)) rfl
  · have hnotid : is_it_a_commit_id arg = 0 := not_not.mp hid
    have hg : GoodBranch sz arg := by
      rcases harg with harg | harg
      · exact absurd harg hid
      · exact harg
    by_cases hmem : arg ∈ bs
    · have hreg : 0 ≤ get_branch_number sz fs arg :=
        (get_branch_number_nonneg_iff sz fs arg).mpr (h.registry_lines_eq ▸ hmem)
      by_cases hnb : nb = 0
      · subst hnb
        have hTeq : checkout_target sz fs arg 0 =
            write_string_to_file (checkout_saved sz fs) CURRENT_BRANCH arg := by
          unfold checkout_target
          rw [if_neg (by simp)]
        have hT : Inv sz (checkout_target sz fs arg 0) names bs arg head := by
          rw [hTeq]
          exact h.saved.set_current arg (fun b2 hb2 => ⟨_, h.saved_all b2 hb2⟩) (Or.inr hmem)
        have hfile : (checkout_target sz fs arg 0).file (branch_file arg) =
            some (head_of fs cur head arg) := by
          rw [hTeq, write_string_to_file_file, if_neg (branch_file_ne_CURRENT_BRANCH _)]
          exact h.saved_heads arg hmem
        have ht : HeadOk (checkout_target sz fs arg 0) (head_of fs cur head arg) :=
          (h.head_of_ok arg hmem).mono (by simp)
        have hread : read_string_from_file (checkout_target sz fs arg 0) (branch_file arg)
            sz.COMMIT_ID_SIZE = head_of fs cur head arg :=
          read_head_whole sz hsz _ _ _ hfile ht.root_or_valid
        rw [beargit_checkout_effect_branch_eq sz fs arg 0 hnotid (Or.inr ⟨rfl, hreg⟩), hread]
        exact hT.checkout_commit_files _ ht (by simp)
          (fun c n hc => checkout_target_file_commit sz fs arg 0 c n (Or.inr hc))
      · exact hsaved _ (beargit_checkout_effect_branch_exists sz fs arg nb hnotid hnb hreg) rfl
    · have hreg : get_branch_number sz fs arg < 0 := by
        by_contra hcon
        exact hmem (h.registry_lines_eq ▸ (get_branch_number_nonneg_iff sz fs arg).mp (by omega))
      by_cases hnb : nb = 0
      · exact hsaved _ (beargit_checkout_effect_branch_missing sz fs arg nb hnotid hnb hreg) rfl
      · have hTeq : checkout_target sz fs arg nb =
            write_string_to_file (fs_cp ((checkout_saved sz fs).write BRANCHES
              ((checkout_saved sz fs).read BRANCHES ++ (arg ++ "\n".toList))) PREV
              (branch_file arg)) CURRENT_BRANCH arg := by
          unfold checkout_target
          rw [if_pos hnb]
        obtain ⟨hR, hold, hnewfile⟩ :=
          h.saved.register (head_of fs cur head) h.saved_all arg hg hmem
        have hT : Inv sz (checkout_target sz fs arg nb) names (bs ++ [arg]) arg head := by
          rw [hTeq]
          apply hR.set_current arg _ (Or.inr (by simp))
          intro b hb
          rcases List.mem_append.mp hb with hb | hb
          · exact ⟨_, hold b hb, (h.head_of_ok b hb).mono (by simp)⟩
          · rw [List.mem_singleton.mp hb]
            exact ⟨_, hnewfile, h.head_ok.mono (by simp)⟩
        have ht : HeadOk (checkout_target sz fs arg nb) head := hT.head_ok
        have hread : read_string_from_file (checkout_target sz fs arg nb) (branch_file arg)
            sz.COMMIT_ID_SIZE = head := by
          apply read_head_whole sz hsz _ _ _ _ ht.root_or_valid
          rw [hTeq, write_string_to_file_file, if_neg (branch_file_ne_CURRENT_BRANCH _)]
          exact hnewfile
        rw [beargit_checkout_effect_branch_eq sz fs arg nb hg.2.2.2 (Or.inl ⟨hnb, hreg⟩), hread]
        exact hT.checkout_commit_files _ ht (by simp)
          (fun c n hc => checkout_target_file_commit sz fs arg nb c n (Or.inr hc))

end

theorem index_lines_congr (sz : Sizes) (fs fs2 : FS) (p : Str)
    (h : fs2.file INDEX = fs.file p) :
    index_lines sz fs2 = read_lines sz.FILENAME_SIZE (fs.read p) := by
  unfold index_lines FS.read
  rw [h]

theorem stored_index_lines_congr (sz : Sizes) (fs fs2 : FS) (c p : Str)
    (h : fs2.file (commit_file c ".index".toList) = fs.file p) :
    stored_index_lines sz fs2 c = read_lines sz.FILENAME_SIZE (fs.read p) := by
  unfold stored_index_lines FS.read
  rw [h]

/-- A state with the same commit records, and a staging index of distinct
names, keeps the names of every index distinct. -/
theorem IndexesNodup.nodup_transfer {sz : Sizes} {fs : FS} (h : IndexesNodup sz fs) (fs2 : FS)
    (hdir : fs2.dir = fs.dir)
    (hfile : ∀ c, fs.dir (commit_dir c) = true →
      fs2.file (commit_file c ".index".toList) = fs.file (commit_file c ".index".toList))
    (hindex : (index_lines sz fs2).Nodup) : IndexesNodup sz fs2 := by
  refine ⟨hindex, ?_⟩
  intro c hc
  rw [hdir] at hc
  rw [stored_index_lines_congr sz fs fs2 c _ (hfile c hc)]
  exact h.2 c hc

section
variable {sz : Sizes} {fs : FS} {names bs : List Str} {cur head : Str}

theorem IndexesNodup.nodup_after_add (hinv : Inv sz fs names bs cur head) (h : IndexesNodup sz fs)
    (p : Str) (hp : GoodPath sz p) : IndexesNodup sz (beargit_add sz fs p).fs := by
  apply h.nodup_transfer _ (beargit_add_dir sz fs p)
  · intro c _
    exact beargit_add_file_of_ne sz fs p _ (commit_file_ne_INDEX _ _) (commit_file_ne_NEWINDEX _ _)
  · have hn : names.Nodup := hinv.index_lines_eq ▸ h.1
    rw [(hinv.add p hp).index_lines_eq]
    by_cases hin : p ∈ names
    · rw [if_pos hin]; exact hn
    · rw [if_neg hin, List.nodup_append]
      refine ⟨hn, List.nodup_singleton _, ?_⟩
      intro a ha hb
      rw [List.mem_singleton.mp hb] at ha
      exact hin ha

theorem IndexesNodup.nodup_after_rm (hinv : Inv sz fs names bs cur head) (h : IndexesNodup sz fs)
    (p : Str) : IndexesNodup sz (beargit_rm sz fs p).fs := by
  apply h.nodup_transfer _ (beargit_rm_dir sz fs p)
  · intro c _
    exact beargit_rm_file_of_ne sz fs p _ (commit_file_ne_INDEX _ _) (commit_file_ne_NEWINDEX _ _)
  · have hn : names.Nodup := hinv.index_lines_eq ▸ h.1
    rw [(hinv.rm p).index_lines_eq]
    exact hn.filter _

theorem IndexesNodup.nodup_after_commit (hsz : sz.ok) (hinv : Inv sz fs names bs cur head)
    (h : IndexesNodup sz fs) (msg : Str) (r : Res) (hr : beargit_commit sz fs msg = some r) :
    IndexesNodup sz r.fs := by
  rcases beargit_commit_cases sz fs msg r hr with ⟨_, hfs⟩ | ⟨_, hcur, _, id, err, hid, hfs⟩
  · rw [hfs]; exact h
  · rw [hinv.current_branch_eq] at hcur
    obtain ⟨j, _, _, hvalid⟩ := hinv.new_commit_id hsz hcur id err hid
    rw [hfs]
    have hidx : (commit_result_fs sz fs msg id).file INDEX = fs.file INDEX :=
      commit_result_fs_file_outside sz fs msg id _ (by decide)
        (fun n => (commit_file_ne_INDEX _ n).symm)
    have hnoindex : ".index".toList ∉ index_lines sz fs := by
      rw [hinv.index_lines_eq]
      exact fun hmem => (hinv.names_good _ hmem).2.2.1 rfl
    refine ⟨by rw [index_lines_congr sz fs _ INDEX hidx]; exact h.1, ?_⟩
    intro c hc
    by_cases hcid : c = id
    · subst hcid
      have hfile : (commit_result_fs sz fs msg c).file (commit_file c ".index".toList) =
          fs.file INDEX := by
        rw [commit_result_fs_file_index sz fs msg c _ hinv.index hnoindex, hinv.index]
      rw [stored_index_lines_congr sz fs _ c INDEX hfile]
      exact h.1
    · rw [commit_result_fs_dir, if_neg (fun e => hcid ((commit_dir_inj _ _).mp e))] at hc
      have hv := (hinv.stored c hc).1
      have hfile : (commit_result_fs sz fs msg id).file (commit_file c ".index".toList) =
          fs.file (commit_file c ".index".toList) :=
        commit_result_fs_file_outside sz fs msg id _ (commit_file_ne_PREV _ _) (fun n e => hcid
          (((commit_file_inj c id _ n (by
            rw [((is_it_a_commit_id_ne_zero c).mp hv).1,
              ((is_it_a_commit_id_ne_zero id).mp hvalid).1])).mp e).1))
      rw [stored_index_lines_congr sz fs _ c _ hfile]
      exact h.2 c hc

theorem IndexesNodup.nodup_after_checkout (hsz : sz.ok) (hinv : Inv sz fs names bs cur head)
    (h : IndexesNodup sz fs) (arg : Str) (nb : Int)
    (harg : is_it_a_commit_id arg ≠ 0 ∨ GoodBranch sz arg) :
    IndexesNodup sz (beargit_checkout_effect sz fs arg nb).fs := by
  obtain ⟨_, _, _, _, _, hdir, _, _⟩ := hinv.checkout hsz arg nb harg
  obtain ⟨hfiles, hindex⟩ := hinv.checkout_files hsz arg nb harg
  apply h.nodup_transfer _ hdir
  · intro c hc
    exact hfiles c _ (hinv.stored c hc).1
  · rcases hindex with hi | hi | ⟨c, hc, hi⟩
    · rw [index_lines_congr sz fs _ INDEX hi]; exact h.1
    · have : index_lines sz (beargit_checkout_effect sz fs arg nb).fs = [] := by
        unfold index_lines FS.read
        rw [hi]
        rfl
      rw [this]
      exact List.nodup_nil
    · rw [index_lines_congr sz fs _ _ hi]
      exact h.2 c hc

end

/-- In every reachable state the repository is well formed and no index holds
a name twice. -/
theorem Reach.indexes_nodup {sz : Sizes} (hsz : sz.ok) {guard : FS → Prop} {fs : FS}
    (h : Reach sz guard fs) :
    ∃ names bs cur head, Inv sz fs names bs cur head ∧ IndexesNodup sz fs := by
  induction h with
  | init fs0 h0 =>
    have hinv := Inv.init sz hsz fs0 h0
    refine ⟨_, _, _, _, hinv, by rw [hinv.index_lines_eq]; exact List.nodup_nil, ?_⟩
    intro c hc
    have : (beargit_init fs0).fs.dir (commit_dir c) = false := by
      show (if commit_dir c = ".beargit".toList then true else fs0.dir (commit_dir c)) = false
      rw [if_neg (commit_dir_ne_control c)]
      exact h0 c
    rw [this] at hc
    exact absurd hc (by decide)
  | add fs p _ hp ih =>
    obtain ⟨names, bs, cur, head, hinv, hn⟩ := ih
    exact ⟨_, _, _, _, hinv.add p hp, hn.nodup_after_add hinv p hp⟩
  | rm fs p _ ih =>
    obtain ⟨names, bs, cur, head, hinv, hn⟩ := ih
    exact ⟨_, _, _, _, hinv.rm p, hn.nodup_after_rm hinv p⟩
  | commit fs msg r _ _ hr ih =>
    obtain ⟨names, bs, cur, head, hinv, hn⟩ := ih
    obtain ⟨head2, hinv2⟩ := hinv.commit hsz msg r hr
    exact ⟨_, _, _, _, hinv2, hn.nodup_after_commit hsz hinv msg r hr⟩
  | checkout fs arg nb r _ harg hr ih =>
    rw [beargit_checkout_eq_some sz fs arg nb r hr]
    obtain ⟨names, bs, cur, head, hinv, hn⟩ := ih
    obtain ⟨names2, bs2, cur2, head2, hinv2, _⟩ := hinv.checkout hsz arg nb harg
    exact ⟨_, _, _, _, hinv2, hn.nodup_after_checkout hsz hinv arg nb harg⟩

/-- C18, as amended: with sizes that hold the paths of the control files of a
commit record, in every state reachable from `beargit_init` (run in a
directory without commit directories) by `beargit_add` of plain file names,
`beargit_rm`, `beargit_commit` and `beargit_checkout` of identifiers and plain
branch names, the staging index holds each path at most once, and so does the
index stored in every commit record, which a checkout copies over the staging
index. -/
theorem staging_index_nodup (sz : Sizes) (hsz : sz.ok) (guard : FS → Prop) (fs : FS)
    (hreach : Reach sz guard fs) :
    (index_lines sz fs).Nodup ∧
    ∀ c, fs.dir (commit_dir c) = true → (stored_index_lines sz fs c).Nodup := by
  obtain ⟨_, _, _, _, _, hn⟩ := hreach.indexes_nodup hsz
  exact hn

theorem staging_index_nodup_witness :
    (header_sizes.ok ∧
      Reach header_sizes (fun _ => True)
        (beargit_add header_sizes (one_file_repo "f.txt".toList "hi".toList)
          "f.txt".toList).fs) ∧
    (index_lines header_sizes
      (beargit_add header_sizes (one_file_repo "f.txt".toList "hi".toList)
        "f.txt".toList).fs).Nodup ∧
    ∀ c, (beargit_add header_sizes (one_file_repo "f.txt".toList "hi".toList)
        "f.txt".toList).fs.dir (commit_dir c) = true →
      (stored_index_lines header_sizes
        (beargit_add header_sizes (one_file_repo "f.txt".toList "hi".toList)
          "f.txt".toList).fs c).Nodup :=
  ⟨⟨by decide,
      Reach.add _ "f.txt".toList
        (Reach.add _ "f.txt".toList (Reach.init _ (fun _ => rfl)) (by decide)) (by decide)⟩,
    staging_index_nodup header_sizes (by decide) (fun _ => True) _
      (Reach.add _ "f.txt".toList
        (Reach.add _ "f.txt".toList (Reach.init _ (fun _ => rfl)) (by decide)) (by decide))⟩

/-- C18 fails as stated: after `beargit_init` in an empty directory, one
`beargit_add` of the path made of the two lines `x` and `x` returns 0, and the
staging index then holds the line `x` twice. -/
theorem beargit_add_newline_path_twice_in_index :
    (beargit_add header_sizes (beargit_init empty_fs).fs "x\nx".toList).ret = 0 ∧
    index_lines header_sizes
      (beargit_add header_sizes (beargit_init empty_fs).fs "x\nx".toList).fs =
        ["x".toList, "x".toList] ∧
    ¬ (index_lines header_sizes
      (beargit_add header_sizes (beargit_init empty_fs).fs "x\nx".toList).fs).Nodup := by
  decide

/-! ## The history is finite and unbroken -/

theorem Parented.parents_transfer {fs : FS} (h : Parented fs) (fs2 : FS) (hdir : fs2.dir = fs.dir)
    (hfile : ∀ c, fs.dir (commit_dir c) = true →
      fs2.file (commit_file c ".prev".toList) = fs.file (commit_file c ".prev".toList)) :
    Parented fs2 := by
  intro c hc
  rw [hdir] at hc
  obtain ⟨p, hp, hok, hlt⟩ := h c hc
  exact ⟨p, by rw [hfile c hc]; exact hp, hok.mono (by rw [hdir]; exact fun _ hx => hx), hlt⟩

section
variable {sz : Sizes} {fs : FS} {names bs : List Str} {cur head : Str}

theorem Parented.parents_after_commit (hsz : sz.ok) (hinv : Inv sz fs names bs cur head)
    (h : Parented fs) (hg : HistoryGuard sz fs) (msg : Str) (r : Res)
    (hr : beargit_commit sz fs msg = some r) : Parented r.fs := by
  rcases beargit_commit_cases sz fs msg r hr with ⟨_, hfs⟩ | ⟨_, hcur, _, id, err, hid, hfs⟩
  · rw [hfs]; exact h
  · rw [hinv.current_branch_eq] at hcur
    obtain ⟨j, _, hideq, hvalid⟩ := hinv.new_commit_id hsz hcur id err hid
    have hnot : ¬ ∀ c ∈ head.drop 10, c = 'c' := by
      have := hg.1
      unfold SuffixNotMax at this
      rw [hinv.head_commit_eq hsz] at this
      exact this
    have hrank : commit_rank id = commit_rank head + 1 := by
      rw [hideq]
      exact new_commit_id_rank j head hinv.head_ok.root_or_valid hnot
    have hmono : ∀ c, fs.dir (commit_dir c) = true →
        (commit_result_fs sz fs msg id).dir (commit_dir c) = true := by
      intro c hc
      rw [commit_result_fs_dir]
      split
      · rfl
      · exact hc
    rw [hfs]
    intro c hc
    by_cases hcid : c = id
    · subst hcid
      exact ⟨head, commit_result_fs_file_prev sz fs msg c head hinv.prev hg.2,
        hinv.head_ok.mono hmono, by omega⟩
    · rw [commit_result_fs_dir, if_neg (fun e => hcid ((commit_dir_inj _ _).mp e))] at hc
      have hv := (hinv.stored c hc).1
      obtain ⟨p, hp, hok, hlt⟩ := h c hc
      refine ⟨p, ?_, hok.mono hmono, hlt⟩
      rw [commit_result_fs_file_outside sz fs msg id _ (commit_file_ne_PREV _ _) (fun n e => hcid
        (((commit_file_inj c id _ n (by
          rw [((is_it_a_commit_id_ne_zero c).mp hv).1,
            ((is_it_a_commit_id_ne_zero id).mp hvalid).1])).mp e).1))]
      exact hp

theorem Parented.parents_after_checkout (hsz : sz.ok) (hinv : Inv sz fs names bs cur head)
    (h : Parented fs) (arg : Str) (nb : Int)
    (harg : is_it_a_commit_id arg ≠ 0 ∨ GoodBranch sz arg) :
    Parented (beargit_checkout_effect sz fs arg nb).fs := by
  obtain ⟨_, _, _, _, _, hdir, _, _⟩ := hinv.checkout hsz arg nb harg
  exact h.parents_transfer _ hdir (fun c hc => (hinv.checkout_files hsz arg nb harg).1 c _
    (hinv.stored c hc).1)

end

/-- In every state reachable with commits made under `HistoryGuard` the
repository is well formed and every stored commit records its parent. -/
theorem Reach.parented {sz : Sizes} (hsz : sz.ok) {fs : FS}
    (h : Reach sz (HistoryGuard sz) fs) :
    ∃ names bs cur head, Inv sz fs names bs cur head ∧ Parented fs := by
  induction h with
  | init fs0 h0 =>
    refine ⟨_, _, _, _, Inv.init sz hsz fs0 h0, ?_⟩
    intro c hc
    have : (beargit_init fs0).fs.dir (commit_dir c) = false := by
      show (if commit_dir c = ".beargit".toList then true else fs0.dir (commit_dir c)) = false
      rw [if_neg (commit_dir_ne_control c)]
      exact h0 c
    rw [this] at hc
    exact absurd hc (by decide)
  | add fs p _ hp ih =>
    obtain ⟨names, bs, cur, head, hinv, hpar⟩ := ih
    exact ⟨_, _, _, _, hinv.add p hp, hpar.parents_transfer _ (beargit_add_dir sz fs p) (fun c _ =>
      beargit_add_file_of_ne sz fs p _ (commit_file_ne_INDEX _ _) (commit_file_ne_NEWINDEX _ _))⟩
  | rm fs p _ ih =>
    obtain ⟨names, bs, cur, head, hinv, hpar⟩ := ih
    exact ⟨_, _, _, _, hinv.rm p, hpar.parents_transfer _ (beargit_rm_dir sz fs p) (fun c _ =>
      beargit_rm_file_of_ne sz fs p _ (commit_file_ne_INDEX _ _) (commit_file_ne_NEWINDEX _ _))⟩
  | commit fs msg r _ hg hr ih =>
    obtain ⟨names, bs, cur, head, hinv, hpar⟩ := ih
    obtain ⟨head2, hinv2⟩ := hinv.commit hsz msg r hr
    exact ⟨_, _, _, _, hinv2, hpar.parents_after_commit hsz hinv hg msg r hr⟩
  | checkout fs arg nb r _ harg hr ih =>
    rw [beargit_checkout_eq_some sz fs arg nb r hr]
    obtain ⟨names, bs, cur, head, hinv, hpar⟩ := ih
    obtain ⟨names2, bs2, cur2, head2, hinv2, _⟩ := hinv.checkout hsz arg nb harg
    exact ⟨_, _, _, _, hinv2, hpar.parents_after_checkout hsz hinv arg nb harg⟩

theorem commit_rank_pos (c : Str) (h : c ≠ ROOT_ID) : 0 < commit_rank c := by
  unfold commit_rank
  rw [if_neg h]
  omega

/-- Following the stored parents from the root or a stored commit reaches the
root within as many steps as the rank of the identifier. -/
theorem history_of_parented (sz : Sizes) (hsz : sz.ok) (fs : FS) (hp : Parented fs) :
    ∀ (n : Nat) (h : Str), HeadOk fs h → commit_rank h ≤ n →
      ∃ ids, history sz fs (n + 1) h = some ids ∧
        ∀ c ∈ ids, fs.dir (commit_dir c) = true ∧ is_it_a_commit_id c ≠ 0 := by
  intro n
  induction n with
  | zero =>
    intro h _ hrank
    have hroot : h = ROOT_ID := by
      by_contra hne
      have := commit_rank_pos h hne
      omega
    exact ⟨[], by simp [history, hroot], by simp⟩
  | succ n ih =>
    intro h hok hrank
    by_cases hroot : h = ROOT_ID
    · exact ⟨[], by simp [history, hroot], by simp⟩
    · rcases hok with hok | ⟨hvalid, hdir⟩
      · exact absurd hok hroot
      · obtain ⟨p, hfile, hpok, hlt⟩ := hp h hdir
        have hread : read_string_from_file fs (commit_file h ".prev".toList) sz.COMMIT_ID_SIZE =
            p := read_head_whole sz hsz fs _ p hfile hpok.root_or_valid
        obtain ⟨ids, hids, hall⟩ := ih p hpok (by omega)
        refine ⟨h :: ids, ?_, ?_⟩
        · rw [history, if_neg hroot, hread, hids]
        · intro c hc
          rcases List.mem_cons.mp hc with rfl | hc
          · exact ⟨hdir, hvalid⟩
          · exact hall c hc

/-- The loop of `beargit_log` ends where the stored parents lead to the root
through identifiers of 40 symbols, whose paths fit `file_name`. -/
theorem beargit_log_loop_of_history (sz : Sizes) (hsz : sz.ok) (fs : FS) :
    ∀ (fuel : Nat) (c : Str) (ids : List Str), history sz fs fuel c = some ids →
      (∀ x ∈ ids, x.length = 40) →
      ∃ out, beargit_log_loop sz fs fuel c = some out := by
  intro fuel
  induction fuel with
  | zero => intro c ids h; simp [history] at h
  | succ fuel ih =>
    intro c ids h hlen
    by_cases hroot : c = ROOT_ID
    · exact ⟨[], by simp [beargit_log_loop, hroot]⟩
    · rw [history, if_neg hroot] at h
      cases hrest : history sz fs fuel
          (read_string_from_file fs (commit_file c ".prev".toList) sz.COMMIT_ID_SIZE) with
      | none => rw [hrest] at h; cases h
      | some rest =>
        rw [hrest] at h
        cases h
        obtain ⟨out, hout⟩ := ih _ rest hrest (fun x hx => hlen x (List.mem_cons_of_mem _ hx))
        have hc : c.length = 40 := hlen c (List.mem_cons_self _ _)
        have h57 := hsz.1
        have h9 : ".beargit/".toList.length = 9 := rfl
        have hmsg : (".beargit/".toList ++ c ++ "/.msg".toList).length + 1 ≤ sz.FILENAME_SIZE := by
          have : "/.msg".toList.length = 5 := rfl
          simp only [List.length_append, hc, h9, this]
          omega
        have hprev : (".beargit/".toList ++ c ++ "/.prev".toList).length + 1 ≤
            sz.FILENAME_SIZE := by
          have : "/.prev".toList.length = 6 := rfl
          simp only [List.length_append, hc, h9, this]
          omega
        rw [beargit_log_loop, if_neg hroot]
        simp only [sprintf_of_fits _ _ hmsg, sprintf_of_fits _ _ hprev, Option.bind_eq_bind,
          Option.some_bind]
        simp only [commit_file_prev_eq, hout, Option.some_bind]
        exact ⟨_, rfl⟩

/-- C19, as amended: with sizes that hold the paths of the control files of a
commit record, in every state reachable from `beargit_init` (run in a
directory without commit directories) by `beargit_add` of plain file names,
`beargit_rm`, `beargit_commit` made from suffixes that are not all `c` and
while the staging index does not list the name `.prev`, and `beargit_checkout`
of identifiers and plain branch names, following the stored parent identifiers
from HEAD's commit pointer reaches the root identifier within as many steps as
the rank of HEAD's commit pointer, every identifier met on the way names a
stored commit, and `beargit_log` returns: 1 when HEAD's commit pointer is the
root identifier and 0 otherwise. -/
theorem beargit_log_terminates (sz : Sizes) (hsz : sz.ok) (fs : FS)
    (hreach : Reach sz (HistoryGuard sz) fs) :
    ∃ ids, history sz fs (commit_rank (head_commit sz fs) + 1) (head_commit sz fs) = some ids ∧
      (∀ c ∈ ids, fs.dir (commit_dir c) = true) ∧
      ∃ r, beargit_log sz fs (commit_rank (head_commit sz fs) + 1) = some r ∧
        r.ret = if head_commit sz fs = ROOT_ID then 1 else 0 := by
  obtain ⟨names, bs, cur, head, hinv, hpar⟩ := hreach.parented hsz
  rw [hinv.head_commit_eq hsz]
  obtain ⟨ids, hids, hall⟩ := history_of_parented sz hsz fs hpar _ head hinv.head_ok (le_refl _)
  refine ⟨ids, hids, fun c hc => (hall c hc).1, ?_⟩
  obtain ⟨out, hout⟩ := beargit_log_loop_of_history sz hsz fs _ head ids hids
    (fun c hc => ((is_it_a_commit_id_ne_zero c).mp (hall c hc).2).1)
  have hhead : read_string_from_file fs PREV sz.COMMIT_ID_SIZE = head := hinv.head_commit_eq hsz
  unfold beargit_log
  simp only [hhead]
  by_cases hroot : head = ROOT_ID
  · rw [if_pos hroot, if_pos hroot]
    exact ⟨_, rfl, rfl⟩
  · rw [if_neg hroot, if_neg hroot, hout]
    exact ⟨_, rfl, rfl⟩

theorem beargit_log_terminates_witness :
    (header_sizes.ok ∧ Reach header_sizes (HistoryGuard header_sizes) first_commit_repo) ∧
    ∃ ids, history header_sizes first_commit_repo
        (commit_rank (head_commit header_sizes first_commit_repo) + 1)
        (head_commit header_sizes first_commit_repo) = some ids ∧
      (∀ c ∈ ids, first_commit_repo.dir (commit_dir c) = true) ∧
      ∃ r, beargit_log header_sizes first_commit_repo
          (commit_rank (head_commit header_sizes first_commit_repo) + 1) = some r ∧
        r.ret = if head_commit header_sizes first_commit_repo = ROOT_ID then 1 else 0 :=
  ⟨⟨by decide,
      Reach.commit (beargit_init empty_fs).fs "GO BEARS!".toList
        { ret := 0, err := [], fs := first_commit_repo }
        (Reach.init empty_fs (fun _ => rfl)) (by decide) rfl⟩,
    beargit_log_terminates header_sizes (by decide) first_commit_repo
      (Reach.commit (beargit_init empty_fs).fs "GO BEARS!".toList
        { ret := 0, err := [], fs := first_commit_repo }
        (Reach.init empty_fs (fun _ => rfl)) (by decide) rfl)⟩

/-- C19 fails as stated: `beargit_init` in a directory that holds the file
`.prev` with the text `x`, `beargit_add(".prev")` and a commit made from the
root identifier, whose suffix is not all `c`. HEAD's commit pointer is then
the identifier of forty `6`, and the parent stored in its record is `x`: not
the root identifier, and the name of no stored commit. -/
theorem history_broken_by_tracked_prev :
    SuffixNotMax header_sizes (one_file_repo ".prev".toList "x".toList) ∧
    head_commit header_sizes
      (commit_fs header_sizes (one_file_repo ".prev".toList "x".toList) "GO BEARS!".toList) =
      FIRST_ID ∧
    read_string_from_file
      (commit_fs header_sizes (one_file_repo ".prev".toList "x".toList) "GO BEARS!".toList)
      (commit_file FIRST_ID ".prev".toList) header_sizes.COMMIT_ID_SIZE = "x".toList ∧
    "x".toList ≠ ROOT_ID ∧
    (commit_fs header_sizes (one_file_repo ".prev".toList "x".toList)
      "GO BEARS!".toList).dir (commit_dir "x".toList) = false ∧
    (commit_fs header_sizes (one_file_repo ".prev".toList "x".toList)
      "GO BEARS!".toList).file (commit_file "x".toList ".prev".toList) = none := by
  decide


end Beargit
